import Mathlib

/-!
Shallow embedding of the sharded LRU cache in `util/cache.cc` (leveldb fork).

Pointers are modelled by natural-number entry ids; the entry heap is an
association list from id to entry data; the two intrusive circular lists
(`lru_`, `in_use_`) are modelled as lists of ids ordered oldest-first
(`head = list.next` is the oldest element, the last element is `list.prev`,
the newest); the chained hash table is a list of buckets, each bucket the
chain of cells in `next_hash` order.  A cell stores the (immutable) key and
hash fields of the entry it points to, plus the entry id.

Deleter invocations are recorded as events carrying the entry's key and
value together with the state of the shard mutex at the moment of the call;
the mutex itself is a boolean field of the state, set on `MutexLock`
construction at the top of each public operation and cleared when the
operation returns.
-/

set_option linter.unusedVariables false

namespace LevelDB

/-- Byte-string keys are abstracted to naturals (only equality is used). -/
abbrev Key := Nat

/-- The data fields of a `LRUHandle` (the link fields `next`/`prev`/`next_hash`
are represented by membership in the list/table structures of the state). -/
structure EntryData where
  key : Key
  hash : Nat
  value : Nat
  charge : Nat
  in_cache : Bool
  refs : Nat
  deriving Repr, DecidableEq

/-- A recorded invocation of a user deleter: `(*e->deleter)(e->key(), e->value)`,
together with whether the shard mutex was held at that moment. -/
structure DelCall where
  key : Key
  value : Nat
  underMutex : Bool
  deriving Repr, DecidableEq

/-- A cell of the chained hash table: one `LRUHandle*` stored in a bucket
chain.  `key` and `hash` duplicate the immutable fields of the pointee. -/
structure HTCell where
  key : Key
  hash : Nat
  id : Nat
  deriving Repr, DecidableEq

/-- `hash & (length - 1)`: bucket selection of `HandleTable::FindPointer`. -/
def bucketIdx (hash len : Nat) : Nat := Nat.land hash (len - 1)

/-- The chain walk of `HandleTable::FindPointer`: skip while
`(*ptr)->hash != hash || key != (*ptr)->key()`, i.e. stop at the first cell
whose hash and key both match. -/
def findInChain (key : Key) (hash : Nat) : List HTCell → Option HTCell
  | [] => none
  | c :: rest =>
    if c.hash = hash ∧ c.key = key then some c else findInChain key hash rest

/-- `HandleTable::Insert` at chain level: `h` takes the matched cell's slot
(`h->next_hash = old->next_hash; *ptr = h`), or is appended at the trailing
null slot when the walk found no match. -/
def chainInsert (h : HTCell) : List HTCell → List HTCell
  | [] => [h]
  | c :: rest =>
    if c.hash = h.hash ∧ c.key = h.key then h :: rest else c :: chainInsert h rest

/-- `HandleTable::Remove` at chain level: splice the first matching cell out
of the chain (`*ptr = result->next_hash`) and return it. -/
def chainRemove (key : Key) (hash : Nat) : List HTCell → List HTCell × Option HTCell
  | [] => ([], none)
  | c :: rest =>
    if c.hash = hash ∧ c.key = key then (rest, some c)
    else
      let pr := chainRemove key hash rest
      (c :: pr.1, pr.2)

/-- The custom chained hash table (`class HandleTable`).  `length_` is the
length of the bucket array `list_`; `elems_` counts stored cells. -/
structure HandleTable where
  list_ : List (List HTCell)
  elems_ : Nat
  deriving Repr, DecidableEq

namespace HandleTable

/-- `length_` of the bucket array. -/
def length_ (t : HandleTable) : Nat := t.list_.length

/-- `Lookup(key, hash)`: `*FindPointer(key, hash)`. -/
def Lookup (t : HandleTable) (key : Key) (hash : Nat) : Option HTCell :=
  findInChain key hash (t.list_.getD (bucketIdx hash t.length_) [])

/-- The `Resize` sizing loop, fuelled for structural recursion: starting from
`acc`, double while `acc < elems`.  `fuel ≥ elems - acc` iterations always
suffice, since doubling a positive `acc` increases it by at least one. -/
def growLenAux : Nat → Nat → Nat → Nat
  | 0, _, acc => acc
  | fuel + 1, elems, acc =>
    if acc = 0 then acc
    else if acc < elems then growLenAux fuel elems (acc * 2)
    else acc

/-- The `Resize` sizing loop `new_length = 4; while (new_length < elems_)
new_length *= 2;` (the `acc = 0` guard is only for totality; every call
starts from `acc = 4`). -/
def growLen (elems : Nat) (acc : Nat) : Nat := growLenAux elems elems acc

/-- `HandleTable::Resize`: allocate `new_length` empty buckets, then walk the
old buckets in order and push every cell onto the front of its new bucket
(`h->next_hash = *ptr; *ptr = h`). -/
def Resize (t : HandleTable) : HandleTable :=
  let new_length := growLen t.elems_ 4
  let new_list :=
    t.list_.foldl
      (fun nl chain =>
        chain.foldl
          (fun nl h =>
            nl.set (bucketIdx h.hash new_length)
              (h :: nl.getD (bucketIdx h.hash new_length) []))
          nl)
      (List.replicate new_length [])
  { list_ := new_list, elems_ := t.elems_ }

/-- `HandleTable::Insert`: substitute for the matching cell (returning it) or
append; on a true insert bump `elems_` and `Resize` when `elems_ > length_`. -/
def Insert (t : HandleTable) (h : HTCell) : HandleTable × Option HTCell :=
  let i := bucketIdx h.hash t.length_
  let old := findInChain h.key h.hash (t.list_.getD i [])
  let t1 : HandleTable :=
    { list_ := t.list_.set i (chainInsert h (t.list_.getD i [])), elems_ := t.elems_ }
  match old with
  | some o => (t1, some o)
  | none =>
    let t2 : HandleTable := { t1 with elems_ := t1.elems_ + 1 }
    (if t2.elems_ > t2.length_ then t2.Resize else t2, none)

/-- `HandleTable::Remove`: splice out the matching cell, decrement `elems_`,
return the cell (or `none` and leave the table untouched). -/
def Remove (t : HandleTable) (key : Key) (hash : Nat) : HandleTable × Option HTCell :=
  let i := bucketIdx hash t.length_
  let pr := chainRemove key hash (t.list_.getD i [])
  match pr.2 with
  | some o => ({ list_ := t.list_.set i pr.1, elems_ := t.elems_ - 1 }, some o)
  | none => (t, none)

/-- The `HandleTable` constructor: `length_(0), elems_(0), list_(NULL)`
followed by `Resize()`. -/
def init : HandleTable := Resize { list_ := [], elems_ := 0 }

/-- All cells stored in the table, in bucket order. -/
def cells (t : HandleTable) : List HTCell := t.list_.flatten

end HandleTable

/-- One shard (`class LRUCache`).  `heap` is the set of live (malloc'ed, not
yet freed) entries, keyed by id; `nextId` generates fresh ids (modelling
allocation); `mutexHeld` is the state of `mutex_`. -/
structure LRUCacheState where
  capacity_ : Nat
  usage_ : Nat
  lru_ : List Nat
  in_use_ : List Nat
  table_ : HandleTable
  heap : List (Nat × EntryData)
  nextId : Nat
  mutexHeld : Bool
  deriving Repr, DecidableEq

/-- Dereference an entry pointer: the live entry with this id, if any. -/
def getE (st : LRUCacheState) (id : Nat) : Option EntryData :=
  (st.heap.find? (fun p => p.1 == id)).map (fun p => p.2)

/-- Overwrite the fields of the live entry `id`. -/
def setE (st : LRUCacheState) (id : Nat) (e : EntryData) : LRUCacheState :=
  { st with heap := st.heap.map (fun p => if p.1 = id then (id, e) else p) }

/-- `free(e)`: drop the entry from the heap. -/
def freeE (st : LRUCacheState) (id : Nat) : LRUCacheState :=
  { st with heap := st.heap.filter (fun p => p.1 != id) }

namespace LRUCache

/-- `LRUCache::LRU_Remove`: unlink `e` from whichever list it is on (our lists
are by id, so erase from both; an id is on at most one list). -/
def LRU_Remove (st : LRUCacheState) (id : Nat) : LRUCacheState :=
  { st with lru_ := st.lru_.erase id, in_use_ := st.in_use_.erase id }

/-- `LRUCache::LRU_Append(&lru_, e)`: insert just before the dummy head, i.e.
as the newest element (the end of our oldest-first list). -/
def appendLRU (st : LRUCacheState) (id : Nat) : LRUCacheState :=
  { st with lru_ := st.lru_ ++ [id] }

/-- `LRUCache::LRU_Append(&in_use_, e)`. -/
def appendInUse (st : LRUCacheState) (id : Nat) : LRUCacheState :=
  { st with in_use_ := st.in_use_ ++ [id] }

/-- `LRUCache::Ref`: an entry on `lru_` (refs == 1 and in_cache) migrates to
`in_use_`; then `refs++`.  (A null dereference is left as a no-op; it cannot
arise, because the argument always comes from a table lookup.) -/
def Ref (st : LRUCacheState) (id : Nat) : LRUCacheState :=
  match getE st id with
  | none => st
  | some e =>
    let st := if e.refs = 1 ∧ e.in_cache then appendInUse (LRU_Remove st id) id else st
    setE st id { e with refs := e.refs + 1 }

/-- `LRUCache::Unref`: `refs--`; at 0 invoke the deleter and free; at 1 while
in_cache migrate from `in_use_` back to `lru_`. -/
def Unref (st : LRUCacheState) (id : Nat) : LRUCacheState × List DelCall :=
  match getE st id with
  | none => (st, [])
  | some e =>
    let r := e.refs - 1
    if r = 0 then
      (freeE st id, [{ key := e.key, value := e.value, underMutex := st.mutexHeld }])
    else if e.in_cache ∧ r = 1 then
      (setE (appendLRU (LRU_Remove st id) id) id { e with refs := r }, [])
    else
      (setE st id { e with refs := r }, [])

/-- `LRUCache::FinishErase`: if the table removal produced a cell, unlink the
entry from its list, clear `in_cache`, subtract its charge from `usage_`, and
`Unref` it.  Returns the updated state, the deleter calls, and `e != NULL`. -/
def FinishErase (st : LRUCacheState) (r : Option HTCell) :
    (LRUCacheState × List DelCall) × Bool :=
  match r with
  | none => ((st, []), false)
  | some c =>
    match getE st c.id with
    | none => ((st, []), true)
    | some e =>
      let st := LRU_Remove st c.id
      let st := setE st c.id { e with in_cache := false }
      let st := { st with usage_ := st.usage_ - e.charge }
      (((Unref st c.id).1, (Unref st c.id).2), true)

/-- The `while (usage_ > capacity_ && lru_.next != &lru_)` eviction loop of
`LRUCache::Insert`: pop the oldest `lru_` entry, remove it from the table and
finish-erase it.  `fuel` bounds the iteration count (the callers pass the
length of `lru_`, which the invariant proves sufficient); a failing
`assert(erased)` aborts the loop. -/
def evictLoop : Nat → LRUCacheState → LRUCacheState × List DelCall
  | 0, st => (st, [])
  | fuel + 1, st =>
    if st.usage_ > st.capacity_ then
      match st.lru_ with
      | [] => (st, [])
      | oldId :: _ =>
        match getE st oldId with
        | none => (st, [])
        | some old =>
          let tr := st.table_.Remove old.key old.hash
          let st := { st with table_ := tr.1 }
          let fe := FinishErase st tr.2
          if fe.2 then
            let rec2 := evictLoop fuel fe.1.1
            (rec2.1, fe.1.2 ++ rec2.2)
          else fe.1
    else (st, [])

/-- The allocation and bookkeeping part of `LRUCache::Insert`, before the
eviction loop: malloc the entry with `refs = 1`, `in_cache = false`; when
`capacity_ > 0`, take the cache reference, append to `in_use_`, add the
charge to `usage_`, insert into the table and finish-erase any displaced
entry.  Returns the state, the deleter calls so far, and the new entry id. -/
def insertBookkeep (st : LRUCacheState) (key : Key) (hash value charge : Nat) :
    (LRUCacheState × List DelCall) × Nat :=
  let id := st.nextId
  let e : EntryData :=
    { key := key, hash := hash, value := value, charge := charge,
      in_cache := false, refs := 1 }
  let st := { st with heap := (id, e) :: st.heap, nextId := id + 1 }
  if st.capacity_ > 0 then
    let st := setE st id { e with refs := 2, in_cache := true }
    let st := appendInUse st id
    let st := { st with usage_ := st.usage_ + charge }
    let ti := st.table_.Insert { key := key, hash := hash, id := id }
    let st := { st with table_ := ti.1 }
    ((FinishErase st ti.2).1, id)
  else
    ((st, []), id)

/-- `LRUCache::Insert`.  Returns the post state, the deleter calls made while
the mutex was held, and the returned handle (the new entry's id). -/
def Insert (st : LRUCacheState) (key : Key) (hash value charge : Nat) :
    (LRUCacheState × List DelCall) × Nat :=
  let st := { st with mutexHeld := true }
  let bk := insertBookkeep st key hash value charge
  let ev := evictLoop bk.1.1.lru_.length bk.1.1
  (({ ev.1 with mutexHeld := false }, bk.1.2 ++ ev.2), bk.2)

/-- `LRUCache::Lookup`: find in the table and `Ref`; returns the handle. -/
def Lookup (st : LRUCacheState) (key : Key) (hash : Nat) :
    LRUCacheState × Option Nat :=
  let st := { st with mutexHeld := true }
  let r := st.table_.Lookup key hash
  let st := match r with
            | some c => Ref st c.id
            | none => st
  ({ st with mutexHeld := false }, r.map (fun c => c.id))

/-- `LRUCache::Release`: `Unref` under the mutex. -/
def Release (st : LRUCacheState) (id : Nat) : LRUCacheState × List DelCall :=
  let st := { st with mutexHeld := true }
  let u := Unref st id
  ({ u.1 with mutexHeld := false }, u.2)

/-- `LRUCache::Erase`: `FinishErase(table_.Remove(key, hash))` under the mutex. -/
def Erase (st : LRUCacheState) (key : Key) (hash : Nat) :
    LRUCacheState × List DelCall :=
  let st := { st with mutexHeld := true }
  let tr := st.table_.Remove key hash
  let fe := FinishErase { st with table_ := tr.1 } tr.2
  ({ fe.1.1 with mutexHeld := false }, fe.1.2)

/-- The `while (lru_.next != &lru_)` loop of `LRUCache::Prune`; like the
eviction loop but unconditional on `usage_`. -/
def pruneLoop : Nat → LRUCacheState → LRUCacheState × List DelCall
  | 0, st => (st, [])
  | fuel + 1, st =>
    match st.lru_ with
    | [] => (st, [])
    | oldId :: _ =>
      match getE st oldId with
      | none => (st, [])
      | some old =>
        let tr := st.table_.Remove old.key old.hash
        let st := { st with table_ := tr.1 }
        let fe := FinishErase st tr.2
        if fe.2 then
          let rec2 := pruneLoop fuel fe.1.1
          (rec2.1, fe.1.2 ++ rec2.2)
        else fe.1

/-- `LRUCache::Prune`. -/
def Prune (st : LRUCacheState) : LRUCacheState × List DelCall :=
  let st := { st with mutexHeld := true }
  let pl := pruneLoop st.lru_.length st
  ({ pl.1 with mutexHeld := false }, pl.2)

/-- The loop body of `LRUCache::~LRUCache` over a snapshot of the `lru_`
list: assert `in_cache`, clear it, assert `refs == 1`, `Unref`. -/
def destroyLoop : LRUCacheState → List Nat → LRUCacheState × List DelCall
  | st, [] => (st, [])
  | st, id :: rest =>
    match getE st id with
    | none => destroyLoop st rest
    | some e =>
      let st := setE st id { e with in_cache := false }
      let u := Unref st id
      let rec2 := destroyLoop u.1 rest
      (rec2.1, u.2 ++ rec2.2)

/-- `LRUCache::~LRUCache`: `assert(in_use_.next == &in_use_)` (modelled as
returning `none` on an unreleased handle), then walk `lru_` un-caching and
unref-ing every entry.  The destructor takes no mutex. -/
def destroy (st : LRUCacheState) : Option (LRUCacheState × List DelCall) :=
  if st.in_use_ = [] then some (destroyLoop st st.lru_) else none

/-- The `LRUCache` constructor (plus `SetCapacity`, which the sharded cache
calls once before use): empty circular lists, fresh table, zero usage. -/
def initState (capacity : Nat) : LRUCacheState :=
  { capacity_ := capacity, usage_ := 0, lru_ := [], in_use_ := [],
    table_ := HandleTable.init, heap := [], nextId := 0, mutexHeld := false }

/-- A client may `Release` a handle only if it actually holds one: the number
of outstanding handles on a live entry is `refs` minus the cache's own
reference. -/
def canRelease (st : LRUCacheState) (id : Nat) : Bool :=
  match getE st id with
  | none => false
  | some e => if e.in_cache then 2 ≤ e.refs else 1 ≤ e.refs

/-- States of one shard reachable from a fresh shard of the given capacity by
any legal sequence of the public operations (each `Release` consumes an
outstanding handle; handles are ids of live entries). -/
inductive Reach (cap : Nat) : LRUCacheState → Prop
  | init : Reach cap (initState cap)
  | insert (st : LRUCacheState) (key : Key) (hash value charge : Nat) :
      Reach cap st → Reach cap (Insert st key hash value charge).1.1
  | lookup (st : LRUCacheState) (key : Key) (hash : Nat) :
      Reach cap st → Reach cap (Lookup st key hash).1
  | release (st : LRUCacheState) (id : Nat) (h : canRelease st id = true) :
      Reach cap st → Reach cap (Release st id).1
  | erase (st : LRUCacheState) (key : Key) (hash : Nat) :
      Reach cap st → Reach cap (Erase st key hash).1
  | prune (st : LRUCacheState) :
      Reach cap st → Reach cap (Prune st).1

end LRUCache

/-! The sharded façade (`class ShardedLRUCache`).  The hash function
(`util/hash.h`) is an external collaborator and is passed as a parameter
`hashFn`; the code computes `hash = HashSlice(key)` once and dispatches. -/

def kNumShardBits : Nat := 4

/-- `kNumShards = 1 << kNumShardBits`. -/
def kNumShards : Nat := 1 <<< kNumShardBits

/-- `ShardedLRUCache::Shard`: `hash >> (32 - kNumShardBits)`. -/
def Shard (hash : Nat) : Nat := hash >>> (32 - kNumShardBits)

/-- A sharded-cache handle: the entry pointer, through which `Release` and
`Value` read the entry's immutable `hash` field. -/
structure SHandle where
  id : Nat
  hash : Nat
  deriving Repr, DecidableEq

/-- State of `ShardedLRUCache`: 16 shards plus the id counter `last_id_`
(a `uint64_t`). -/
structure ShardedState where
  shard_ : List LRUCacheState
  last_id_ : Nat
  deriving Repr, DecidableEq

namespace ShardedLRUCache

/-- The `ShardedLRUCache` constructor: give every shard capacity
`(capacity + (kNumShards - 1)) / kNumShards` and start `last_id_` at 0. -/
def initSharded (capacity : Nat) : ShardedState :=
  { shard_ := List.replicate kNumShards
      (LRUCache.initState ((capacity + (kNumShards - 1)) / kNumShards)),
    last_id_ := 0 }

/-- `ShardedLRUCache::Insert`: hash the key, dispatch to `shard_[Shard(hash)]`. -/
def SInsert (hashFn : Key → Nat) (ss : ShardedState) (key : Key)
    (value charge : Nat) : (ShardedState × List DelCall) × SHandle :=
  let hash := hashFn key
  let s := Shard hash
  let r := LRUCache.Insert (ss.shard_.getD s (LRUCache.initState 0)) key hash value charge
  (({ ss with shard_ := ss.shard_.set s r.1.1 }, r.1.2), { id := r.2, hash := hash })

/-- `ShardedLRUCache::Lookup`. -/
def SLookup (hashFn : Key → Nat) (ss : ShardedState) (key : Key) :
    ShardedState × Option SHandle :=
  let hash := hashFn key
  let s := Shard hash
  let r := LRUCache.Lookup (ss.shard_.getD s (LRUCache.initState 0)) key hash
  ({ ss with shard_ := ss.shard_.set s r.1 },
   r.2.map (fun id => { id := id, hash := hash }))

/-- `ShardedLRUCache::Release`: recover the shard from `h->hash`. -/
def SRelease (ss : ShardedState) (h : SHandle) : ShardedState × List DelCall :=
  let s := Shard h.hash
  let r := LRUCache.Release (ss.shard_.getD s (LRUCache.initState 0)) h.id
  ({ ss with shard_ := ss.shard_.set s r.1 }, r.2)

/-- `ShardedLRUCache::Erase`. -/
def SErase (hashFn : Key → Nat) (ss : ShardedState) (key : Key) :
    ShardedState × List DelCall :=
  let hash := hashFn key
  let s := Shard hash
  let r := LRUCache.Erase (ss.shard_.getD s (LRUCache.initState 0)) key hash
  ({ ss with shard_ := ss.shard_.set s r.1 }, r.2)

/-- `ShardedLRUCache::NewId`: `return ++(last_id_);` on a `uint64_t`, under
the dedicated `id_mutex_`. -/
def NewId (last_id : Nat) : Nat × Nat :=
  let v := (last_id + 1) % 2 ^ 64
  (v, v)

/-- `last_id_` after `n` calls of `NewId` starting from a fresh cache; the
`n`-th call (1-based) returns exactly `lastAfter n`. -/
def lastAfter : Nat → Nat
  | 0 => 0
  | n + 1 => (NewId (lastAfter n)).1

end ShardedLRUCache

/-- Two cells agreeing on both key and hash. -/
def sameKH (a b : HTCell) : Prop := a.key = b.key ∧ a.hash = b.hash

instance (a b : HTCell) : Decidable (sameKH a b) := by unfold sameKH; infer_instance

namespace HandleTable

/-- One step of the `Resize` rehash loop: push a cell onto the front of its
new bucket. -/
def scatterStep (n : Nat) (nl : List (List HTCell)) (h : HTCell) : List (List HTCell) :=
  nl.set (bucketIdx h.hash n) (h :: nl.getD (bucketIdx h.hash n) [])

/-- Well-formedness of the hash table: the bucket array length is a power of
two (at least 4), `elems_` counts the stored cells and never exceeds the
array length, every cell sits in the bucket selected by its hash, and at
most one cell exists per (key, hash). -/
structure WF (t : HandleTable) : Prop where
  lenPow : ∃ k, t.length_ = 4 * 2 ^ k
  elemsEq : t.elems_ = (cells t).length
  elemsLe : t.elems_ ≤ t.length_
  placed : ∀ i, i < t.length_ → ∀ c ∈ t.list_.getD i [], bucketIdx c.hash t.length_ = i
  uniq : (cells t).Pairwise (fun a b => ¬ sameKH a b)

end HandleTable

/-- The charge contributed by one heap entry to `usage_`. -/
def liveCharge (p : Nat × EntryData) : Nat :=
  if p.2.in_cache then p.2.charge else 0

/-- Sum of the charges of the cached entries. -/
def chargeSum (st : LRUCacheState) : Nat := (st.heap.map liveCharge).sum

namespace LRUCache

/-- The shard invariant, maintained by every public operation under the
mutex (see the block comment at the top of `cache.cc` and the comments on
`lru_` and `in_use_`). -/
structure Inv (st : LRUCacheState) : Prop where
  heapNodup : (st.heap.map Prod.fst).Nodup
  heapLt : ∀ id ∈ st.heap.map Prod.fst, id < st.nextId
  refsPos : ∀ id e, getE st id = some e → 1 ≤ e.refs
  lruNodup : st.lru_.Nodup
  inuseNodup : st.in_use_.Nodup
  disj : ∀ id ∈ st.lru_, id ∉ st.in_use_
  lruSpec : ∀ id ∈ st.lru_, ∃ e, getE st id = some e ∧ e.in_cache = true ∧ e.refs = 1
  inuseSpec : ∀ id ∈ st.in_use_, ∃ e, getE st id = some e ∧ e.in_cache = true ∧ 2 ≤ e.refs
  onList : ∀ id e, getE st id = some e → e.in_cache = true → id ∈ st.lru_ ∨ id ∈ st.in_use_
  inTable : ∀ id e, getE st id = some e → e.in_cache = true →
      (⟨e.key, e.hash, id⟩ : HTCell) ∈ HandleTable.cells st.table_
  tableLive : ∀ c ∈ HandleTable.cells st.table_,
      ∃ e, getE st c.id = some e ∧ e.in_cache = true ∧ e.key = c.key ∧ e.hash = c.hash
  usageEq : st.usage_ = chargeSum st
  tableWF : HandleTable.WF st.table_

/-- The invariant weakened at one cell `c` that has just been taken out of
the hash table (by `HandleTable::Remove` or by a displacing
`HandleTable::Insert`): the entry `c.id` is still cached, listed and counted
in `usage_`, but no cell for it remains in the table.  This is exactly the
state `FinishErase` receives. -/
structure InvExcept (st : LRUCacheState) (c : HTCell) : Prop where
  heapNodup : (st.heap.map Prod.fst).Nodup
  heapLt : ∀ id ∈ st.heap.map Prod.fst, id < st.nextId
  refsPos : ∀ id e, getE st id = some e → 1 ≤ e.refs
  lruNodup : st.lru_.Nodup
  inuseNodup : st.in_use_.Nodup
  disj : ∀ id ∈ st.lru_, id ∉ st.in_use_
  lruSpec : ∀ id ∈ st.lru_, ∃ e, getE st id = some e ∧ e.in_cache = true ∧ e.refs = 1
  inuseSpec : ∀ id ∈ st.in_use_, ∃ e, getE st id = some e ∧ e.in_cache = true ∧ 2 ≤ e.refs
  onList : ∀ id e, getE st id = some e → e.in_cache = true → id ∈ st.lru_ ∨ id ∈ st.in_use_
  entry : ∃ e, getE st c.id = some e ∧ e.in_cache = true ∧ e.key = c.key ∧ e.hash = c.hash
  inTable : ∀ id e, getE st id = some e → e.in_cache = true → id ≠ c.id →
      (⟨e.key, e.hash, id⟩ : HTCell) ∈ HandleTable.cells st.table_
  noCid : ∀ c2 ∈ HandleTable.cells st.table_, c2.id ≠ c.id
  tableLive : ∀ c2 ∈ HandleTable.cells st.table_,
      ∃ e, getE st c2.id = some e ∧ e.in_cache = true ∧ e.key = c2.key ∧ e.hash = c2.hash
  usageEq : st.usage_ = chargeSum st
  tableWF : HandleTable.WF st.table_

/-- The deleter event the destruction of entry `id` emits in state `st`. -/
def delOf (st : LRUCacheState) (id : Nat) : DelCall :=
  match getE st id with
  | some e => { key := e.key, value := e.value, underMutex := st.mutexHeld }
  | none => { key := 0, value := 0, underMutex := st.mutexHeld }

end LRUCache

/-! ### Lemmas about the chained hash table -/

theorem sameKH_symm {a b : HTCell} : sameKH a b → sameKH b a := by
  intro h; exact ⟨h.1.symm, h.2.symm⟩

theorem bucketIdx_lt (hash : Nat) {len : Nat} (h : 0 < len) : bucketIdx hash len < len := by
  have hle : Nat.land hash (len - 1) ≤ len - 1 := Nat.and_le_right
  unfold bucketIdx
  omega

theorem findInChain_eq_none_iff {key : Key} {hash : Nat} {chain : List HTCell} :
    findInChain key hash chain = none ↔ ∀ c ∈ chain, ¬(c.hash = hash ∧ c.key = key) := by
  induction chain with
  | nil => simp [findInChain]
  | cons c rest ih =>
    by_cases hm : c.hash = hash ∧ c.key = key
    · simp [findInChain, hm]
    · constructor
      · intro h d hd
        rcases List.mem_cons.1 hd with rfl | hd2
        · exact hm
        · simp only [findInChain, if_neg hm] at h
          exact (ih.1 h) d hd2
      · intro h
        simp only [findInChain, if_neg hm]
        exact ih.2 (fun d hd => h d (List.mem_cons_of_mem _ hd))

theorem findInChain_some {key : Key} {hash : Nat} {chain : List HTCell} {c : HTCell}
    (h : findInChain key hash chain = some c) :
    c ∈ chain ∧ c.hash = hash ∧ c.key = key := by
  induction chain with
  | nil => simp [findInChain] at h
  | cons d rest ih =>
    by_cases hm : d.hash = hash ∧ d.key = key
    · simp [findInChain, hm] at h
      subst h; exact ⟨List.mem_cons_self _ _, hm⟩
    · simp [findInChain, hm] at h
      rcases ih h with ⟨h1, h2⟩
      exact ⟨List.mem_cons_of_mem _ h1, h2⟩

theorem findInChain_some_of_mem {key : Key} {hash : Nat} {chain : List HTCell} {c : HTCell}
    (uniq : chain.Pairwise (fun a b => ¬ sameKH a b))
    (hc : c ∈ chain) (hh : c.hash = hash) (hk : c.key = key) :
    findInChain key hash chain = some c := by
  induction chain with
  | nil => simp at hc
  | cons d rest ih =>
    rcases List.mem_cons.1 hc with rfl | hc2
    · simp [findInChain, hh, hk]
    · have hd : ¬(d.hash = hash ∧ d.key = key) := by
        intro hm
        have : ¬ sameKH d c := (List.pairwise_cons.1 uniq).1 c hc2
        exact this ⟨by rw [hm.2, hk], by rw [hm.1, hh]⟩
      simp [findInChain, hd]
      exact ih (List.pairwise_cons.1 uniq).2 hc2

theorem chainInsert_of_none {h0 : HTCell} {chain : List HTCell}
    (h : findInChain h0.key h0.hash chain = none) :
    chainInsert h0 chain = chain ++ [h0] := by
  induction chain with
  | nil => simp [chainInsert]
  | cons c rest ih =>
    by_cases hm : c.hash = h0.hash ∧ c.key = h0.key
    · simp [findInChain, hm] at h
    · simp [findInChain, hm] at h
      simp [chainInsert, hm, ih h]

theorem chainInsert_of_some {h0 : HTCell} {chain : List HTCell} {c : HTCell}
    (h : findInChain h0.key h0.hash chain = some c) :
    ∃ l1 l2, chain = l1 ++ c :: l2 ∧ chainInsert h0 chain = l1 ++ h0 :: l2 ∧
      (∀ d ∈ l1, ¬(d.hash = h0.hash ∧ d.key = h0.key)) := by
  induction chain with
  | nil => simp [findInChain] at h
  | cons d rest ih =>
    by_cases hm : d.hash = h0.hash ∧ d.key = h0.key
    · simp [findInChain, hm] at h
      subst h
      exact ⟨[], rest, by simp, by simp [chainInsert, hm], by simp⟩
    · simp [findInChain, hm] at h
      rcases ih h with ⟨l1, l2, he, hi, hl1⟩
      refine ⟨d :: l1, l2, by simp [he], by simp [chainInsert, hm, hi], ?_⟩
      intro x hx
      rcases List.mem_cons.1 hx with rfl | hx2
      · exact hm
      · exact hl1 x hx2

theorem chainRemove_none {key : Key} {hash : Nat} {chain : List HTCell}
    (h : (chainRemove key hash chain).2 = none) :
    (chainRemove key hash chain).1 = chain ∧
      ∀ c ∈ chain, ¬(c.hash = hash ∧ c.key = key) := by
  induction chain with
  | nil => simp [chainRemove]
  | cons c rest ih =>
    by_cases hm : c.hash = hash ∧ c.key = key
    · simp [chainRemove, hm] at h
    · simp only [chainRemove, if_neg hm] at h ⊢
      rcases ih h with ⟨h1, h2⟩
      constructor
      · simp [h1]
      · intro d hd
        rcases List.mem_cons.1 hd with rfl | hd2
        · exact hm
        · exact h2 d hd2

theorem chainRemove_some {key : Key} {hash : Nat} {chain : List HTCell} {c : HTCell}
    (h : (chainRemove key hash chain).2 = some c) :
    ∃ l1 l2, chain = l1 ++ c :: l2 ∧ (chainRemove key hash chain).1 = l1 ++ l2 ∧
      c.hash = hash ∧ c.key = key ∧
      (∀ d ∈ l1, ¬(d.hash = hash ∧ d.key = key)) := by
  induction chain with
  | nil => simp [chainRemove] at h
  | cons d rest ih =>
    by_cases hm : d.hash = hash ∧ d.key = key
    · simp only [chainRemove, if_pos hm] at h ⊢
      simp at h
      subst h
      exact ⟨[], rest, by simp, by simp, hm.1, hm.2, by simp⟩
    · simp only [chainRemove, if_neg hm] at h ⊢
      rcases ih h with ⟨l1, l2, he, hr, hh, hk, hl1⟩
      refine ⟨d :: l1, l2, by simp [he], by simp [hr], hh, hk, ?_⟩
      intro x hx
      rcases List.mem_cons.1 hx with rfl | hx2
      · exact hm
      · exact hl1 x hx2

namespace HandleTable

theorem growLenAux_ge_acc (fuel elems acc : Nat) : acc ≤ growLenAux fuel elems acc := by
  induction fuel generalizing acc with
  | zero => simp [growLenAux]
  | succ f ih =>
    by_cases h0 : acc = 0
    · simp [growLenAux, h0]
    by_cases hlt : acc < elems
    · rw [growLenAux, if_neg h0, if_pos hlt]
      have := ih (acc * 2)
      omega
    · rw [growLenAux, if_neg h0, if_neg hlt]

theorem growLen_ge_acc (elems acc : Nat) : acc ≤ growLen elems acc :=
  growLenAux_ge_acc elems elems acc

theorem growLenAux_ge_elems {fuel elems acc : Nat} (hpos : 0 < acc)
    (hfuel : elems - acc ≤ fuel) : elems ≤ growLenAux fuel elems acc := by
  induction fuel generalizing acc with
  | zero => simp [growLenAux]; omega
  | succ f ih =>
    have h0 : ¬ acc = 0 := by omega
    by_cases hlt : acc < elems
    · rw [growLenAux, if_neg h0, if_pos hlt]
      exact ih (by omega) (by omega)
    · rw [growLenAux, if_neg h0, if_neg hlt]
      omega

theorem growLen_ge_elems (elems : Nat) {acc : Nat} (hpos : 0 < acc) :
    elems ≤ growLen elems acc :=
  growLenAux_ge_elems hpos (by omega)

theorem growLenAux_shape (fuel elems acc : Nat) :
    ∃ j, growLenAux fuel elems acc = acc * 2 ^ j := by
  induction fuel generalizing acc with
  | zero => exact ⟨0, by simp [growLenAux]⟩
  | succ f ih =>
    by_cases h0 : acc = 0
    · exact ⟨0, by simp [growLenAux, h0]⟩
    by_cases hlt : acc < elems
    · rcases ih (acc * 2) with ⟨j, hj⟩
      refine ⟨j + 1, ?_⟩
      rw [growLenAux, if_neg h0, if_pos hlt, hj]
      ring
    · exact ⟨0, by rw [growLenAux, if_neg h0, if_neg hlt]; simp⟩

theorem growLen_shape (elems acc : Nat) : ∃ j, growLen elems acc = acc * 2 ^ j :=
  growLenAux_shape elems elems acc

theorem growLenAux_min {fuel elems acc : Nat} (hpos : 0 < acc) :
    ∀ j, elems ≤ acc * 2 ^ j → growLenAux fuel elems acc ≤ acc * 2 ^ j := by
  induction fuel generalizing acc with
  | zero =>
    intro j hj
    have h1 : (1 : Nat) ≤ 2 ^ j := Nat.one_le_two_pow
    have : acc * 1 ≤ acc * 2 ^ j := Nat.mul_le_mul_left acc h1
    simpa [growLenAux] using this
  | succ f ih =>
    intro j hj
    have h0 : ¬ acc = 0 := by omega
    by_cases hlt : acc < elems
    · have hj1 : 1 ≤ j := by
        by_contra hc
        have hj0 : j = 0 := by omega
        subst hj0
        simp at hj
        omega
      rw [growLenAux, if_neg h0, if_pos hlt]
      have hpow : acc * 2 * 2 ^ (j - 1) = acc * 2 ^ j := by
        have h2 : 2 * 2 ^ (j - 1) = 2 ^ j := by
          rw [← pow_succ']
          congr 1
          omega
        rw [mul_assoc, h2]
      have h2 : elems ≤ acc * 2 * 2 ^ (j - 1) := by rw [hpow]; exact hj
      have := ih (by omega) (j - 1) h2
      omega
    · rw [growLenAux, if_neg h0, if_neg hlt]
      have h1 : (1 : Nat) ≤ 2 ^ j := Nat.one_le_two_pow
      have := Nat.mul_le_mul_left acc h1
      omega

theorem growLen_min (elems : Nat) {acc : Nat} (hpos : 0 < acc) :
    ∀ j, elems ≤ acc * 2 ^ j → growLen elems acc ≤ acc * 2 ^ j :=
  growLenAux_min hpos

theorem WF.lenPos {t : HandleTable} (wf : WF t) : 0 < t.length_ := by
  rcases wf.lenPow with ⟨k, hk⟩
  have := Nat.pos_pow_of_pos k (show 0 < 2 by omega)
  omega

end HandleTable

theorem getD_set_self {α : Type} {l : List α} {i : Nat} (a d : α) (h : i < l.length) :
    (l.set i a).getD i d = a := by
  rw [List.getD_eq_getElem?_getD, List.getElem?_set_self (by simpa using h)]
  rfl

theorem getD_set_ne {α : Type} {l : List α} {i j : Nat} (a d : α) (h : j ≠ i) :
    (l.set i a).getD j d = l.getD j d := by
  rw [List.getD_eq_getElem?_getD, List.getElem?_set_ne (fun he => h he.symm),
    ← List.getD_eq_getElem?_getD]

theorem set_decomp {α : Type} {l : List α} {i : Nat} (b : α) (h : i < l.length) :
    ∃ L1 ch L2, l = L1 ++ ch :: L2 ∧ l.getD i b = ch ∧ L1.length = i ∧
      ∀ c : α, l.set i c = L1 ++ c :: L2 := by
  induction l generalizing i with
  | nil => simp at h
  | cons a l' ih =>
    cases i with
    | zero => exact ⟨[], a, l', by simp, by simp [List.getD], rfl, fun c => by simp⟩
    | succ i' =>
      have h' : i' < l'.length := by simpa using h
      rcases ih h' with ⟨L1, ch, L2, hdec, hgd, hlen, hset⟩
      refine ⟨a :: L1, ch, L2, by simp [hdec], ?_, by simp [hlen], fun c => by simp [hset c]⟩
      simpa using hgd

namespace HandleTable

theorem Resize_eq (t : HandleTable) :
    Resize t = { list_ := (cells t).foldl (scatterStep (growLen t.elems_ 4))
                   (List.replicate (growLen t.elems_ 4) []),
                 elems_ := t.elems_ } := by
  unfold Resize cells scatterStep
  rw [List.foldl_flatten]

theorem scatter_length (n : Nat) (L : List HTCell) (nl : List (List HTCell)) :
    (L.foldl (scatterStep n) nl).length = nl.length := by
  induction L generalizing nl with
  | nil => rfl
  | cons h L' ih =>
    rw [List.foldl_cons, ih]
    unfold scatterStep
    exact List.length_set ..

theorem scatterStep_flatten_perm {n : Nat} {nl : List (List HTCell)} (h : HTCell)
    (hn : nl.length = n) (h0 : 0 < n) :
    (scatterStep n nl h).flatten.Perm (h :: nl.flatten) := by
  have hi : bucketIdx h.hash n < n := bucketIdx_lt _ h0
  rcases set_decomp ([] : List HTCell) (show bucketIdx h.hash n < nl.length by omega)
    with ⟨L1, ch, L2, hdec, hgd, hlen, hset⟩
  unfold scatterStep
  rw [hgd, hset]
  conv_rhs => rw [hdec]
  simp only [List.flatten_append, List.flatten_cons, List.cons_append,
    ← List.append_assoc]
  have hpm := @List.perm_middle _ h L1.flatten (ch ++ L2.flatten)
  simp only [← List.append_assoc] at hpm
  exact hpm

theorem scatter_flatten_perm (n : Nat) (L : List HTCell) (nl : List (List HTCell))
    (hn : nl.length = n) (h0 : 0 < n) :
    (L.foldl (scatterStep n) nl).flatten.Perm (L ++ nl.flatten) := by
  induction L generalizing nl with
  | nil => simp
  | cons h L' ih =>
    rw [List.foldl_cons]
    have h1 := ih (scatterStep n nl h)
      (by rw [← hn]; exact List.length_set ..)
    have h2 : ((scatterStep n nl h).flatten).Perm (h :: nl.flatten) :=
      scatterStep_flatten_perm h hn h0
    have h3 := h1.trans (List.Perm.append_left L' h2)
    have h4 : (L' ++ h :: nl.flatten).Perm (h :: (L' ++ nl.flatten)) :=
      List.perm_middle
    simp only [List.cons_append]
    exact h3.trans h4

theorem scatter_placed (n : Nat) (L : List HTCell) (nl : List (List HTCell))
    (hn : nl.length = n)
    (hp : ∀ i, i < n → ∀ c ∈ nl.getD i [], bucketIdx c.hash n = i) :
    ∀ i, i < n → ∀ c ∈ (L.foldl (scatterStep n) nl).getD i [],
      bucketIdx c.hash n = i := by
  induction L generalizing nl with
  | nil => exact hp
  | cons h L' ih =>
    rw [List.foldl_cons]
    apply ih (scatterStep n nl h) (by rw [← hn]; exact List.length_set ..)
    intro i hi c hc
    by_cases he : i = bucketIdx h.hash n
    · subst he
      unfold scatterStep at hc
      rw [getD_set_self _ _ (by rw [hn]; exact bucketIdx_lt _ (by omega))] at hc
      rcases List.mem_cons.1 hc with rfl | hc2
      · rfl
      · exact hp _ hi c hc2
    · unfold scatterStep at hc
      rw [getD_set_ne _ _ he] at hc
      exact hp _ hi c hc

theorem Resize_length (t : HandleTable) : (Resize t).length_ = growLen t.elems_ 4 := by
  rw [Resize_eq]
  unfold length_
  rw [scatter_length]
  simp

theorem Resize_elems (t : HandleTable) : (Resize t).elems_ = t.elems_ := by
  rw [Resize_eq]

theorem flatten_replicate_nil {α : Type} (n : Nat) :
    (List.replicate n ([] : List α)).flatten = [] := by
  induction n with
  | zero => rfl
  | succ m ih => simp [List.replicate_succ, ih]

theorem Resize_cells_perm (t : HandleTable) :
    (cells (Resize t)).Perm (cells t) := by
  have h0 : 0 < growLen t.elems_ 4 := by
    have := growLen_ge_acc t.elems_ 4
    omega
  have hp := scatter_flatten_perm (growLen t.elems_ 4) (cells t)
    (List.replicate (growLen t.elems_ 4) []) (by simp) h0
  rw [flatten_replicate_nil] at hp
  have he : cells (Resize t)
      = ((cells t).foldl (scatterStep (growLen t.elems_ 4))
          (List.replicate (growLen t.elems_ 4) [])).flatten := by rw [Resize_eq]; rfl
  rw [he]
  simpa using hp

theorem getD_lt {α : Type} {l : List α} {i : Nat} (d : α) (h : i < l.length) :
    l.getD i d = l.get ⟨i, h⟩ := by
  rw [List.getD_eq_getElem?_getD, List.getElem?_eq_getElem h]
  rfl

theorem mem_cells_iff {t : HandleTable} {c : HTCell} :
    c ∈ cells t ↔ ∃ i, i < t.length_ ∧ c ∈ t.list_.getD i [] := by
  unfold cells length_
  rw [List.mem_flatten]
  constructor
  · rintro ⟨chain, hch, hc⟩
    rcases List.getElem_of_mem hch with ⟨i, hi, hgi⟩
    refine ⟨i, hi, ?_⟩
    rw [getD_lt _ hi]
    simpa [hgi] using hc
  · rintro ⟨i, hi, hc⟩
    refine ⟨t.list_.get ⟨i, hi⟩, List.get_mem .., ?_⟩
    rw [getD_lt _ hi] at hc
    exact hc

theorem chain_pairwise {t : HandleTable} (wf : WF t) (i : Nat) :
    (t.list_.getD i []).Pairwise (fun a b => ¬ sameKH a b) := by
  by_cases hi : i < t.length_
  · have h1 := (List.pairwise_flatten.1 wf.uniq).1
    apply h1
    rw [getD_lt _ hi]
    exact List.get_mem ..
  · rw [List.getD_eq_getElem?_getD, List.getElem?_eq_none (by
      unfold length_ at hi; omega)]
    exact List.Pairwise.nil

/-- Any cell matching a given hash lives in that hash's bucket. -/
theorem match_in_bucket {t : HandleTable} (wf : WF t) {c : HTCell} {hash : Nat}
    (hc : c ∈ cells t) (hh : c.hash = hash) :
    c ∈ t.list_.getD (bucketIdx hash t.length_) [] := by
  rcases mem_cells_iff.1 hc with ⟨i, hi, hci⟩
  have hb := wf.placed i hi c hci
  rw [hh] at hb
  rw [hb]
  exact hci

theorem Lookup_some {t : HandleTable} {key : Key} {hash : Nat} {c : HTCell}
    (h : t.Lookup key hash = some c) :
    c ∈ cells t ∧ c.hash = hash ∧ c.key = key := by
  unfold Lookup at h
  rcases findInChain_some h with ⟨hmem, hh, hk⟩
  refine ⟨?_, hh, hk⟩
  by_cases hi : bucketIdx hash t.length_ < t.length_
  · exact mem_cells_iff.2 ⟨_, hi, hmem⟩
  · rw [List.getD_eq_getElem?_getD, List.getElem?_eq_none (by
      unfold length_ at hi ⊢; omega)] at hmem
    simp at hmem

theorem Lookup_of_mem {t : HandleTable} (wf : WF t) {key : Key} {hash : Nat} {c : HTCell}
    (hc : c ∈ cells t) (hh : c.hash = hash) (hk : c.key = key) :
    t.Lookup key hash = some c := by
  unfold Lookup
  exact findInChain_some_of_mem (chain_pairwise wf _) (match_in_bucket wf hc hh) hh hk

theorem Lookup_eq_none_iff {t : HandleTable} (wf : WF t) {key : Key} {hash : Nat} :
    t.Lookup key hash = none ↔ ∀ c ∈ cells t, ¬(c.hash = hash ∧ c.key = key) := by
  constructor
  · intro h c hc hm
    rw [Lookup_of_mem wf hc hm.1 hm.2] at h
    simp at h
  · intro h
    unfold Lookup
    rw [findInChain_eq_none_iff]
    intro c hc
    refine h c ?_
    by_cases hi : bucketIdx hash t.length_ < t.length_
    · exact mem_cells_iff.2 ⟨_, hi, hc⟩
    · rw [List.getD_eq_getElem?_getD, List.getElem?_eq_none (by
        unfold length_ at hi ⊢; omega)] at hc
      simp at hc

theorem Resize_placed (t : HandleTable) :
    ∀ i, i < (Resize t).length_ → ∀ c ∈ (Resize t).list_.getD i [],
      bucketIdx c.hash (Resize t).length_ = i := by
  have h0 : 0 < growLen t.elems_ 4 := by
    have := growLen_ge_acc t.elems_ 4
    omega
  rw [Resize_length]
  intro i hi c hc
  refine scatter_placed (growLen t.elems_ 4) (cells t)
    (List.replicate (growLen t.elems_ 4) []) (by simp) ?_ i hi c ?_
  · intro j hj c2 hc2
    rw [List.getD_eq_getElem?_getD, List.getElem?_replicate, if_pos hj] at hc2
    simp at hc2
  · rw [Resize_eq] at hc
    exact hc

/-- Structural view of an update of bucket `i`: `cells` splits as the flatten
of the buckets before `i`, bucket `i` itself, and the buckets after. -/
theorem cells_set_decomp {t : HandleTable} {i : Nat} (hi : i < t.length_) :
    ∃ F1 F2, cells t = F1 ++ (t.list_.getD i []) ++ F2 ∧
      ∀ ch, (t.list_.set i ch).flatten = F1 ++ ch ++ F2 := by
  have hi' : i < t.list_.length := hi
  rcases set_decomp ([] : List HTCell) hi' with ⟨L1, chn, L2, hdec, hgd, hlen, hset⟩
  refine ⟨L1.flatten, L2.flatten, ?_, ?_⟩
  · rw [hgd]
    show t.list_.flatten = _
    rw [hdec]
    simp [List.flatten_append]
  · intro ch
    rw [hset ch]
    simp [List.flatten_append]

theorem pairwise_decomp {l A B : List HTCell} {c : HTCell}
    (hu : l.Pairwise (fun a b => ¬ sameKH a b)) (hl : l = A ++ c :: B) :
    c ∉ A ∧ c ∉ B ∧ ∀ d ∈ A ++ B, ¬ sameKH d c := by
  subst hl
  rw [List.pairwise_append] at hu
  rcases hu with ⟨huA, huCB, hrel⟩
  rw [List.pairwise_cons] at huCB
  constructor
  · intro hc
    exact hrel c hc c (List.mem_cons_self _ _) ⟨rfl, rfl⟩
  constructor
  · intro hc
    exact huCB.1 c hc ⟨rfl, rfl⟩
  · intro d hd
    rcases List.mem_append.1 hd with hdA | hdB
    · exact hrel d hdA c (List.mem_cons_self _ _)
    · intro hs
      exact huCB.1 d hdB (sameKH_symm hs)

theorem pairwise_subst {A B : List HTCell} {c h : HTCell}
    (hu : (A ++ c :: B).Pairwise (fun a b => ¬ sameKH a b))
    (hch : c.key = h.key ∧ c.hash = h.hash) :
    (A ++ h :: B).Pairwise (fun a b => ¬ sameKH a b) := by
  rw [List.pairwise_append] at hu ⊢
  rcases hu with ⟨huA, huCB, hrel⟩
  rw [List.pairwise_cons] at huCB ⊢
  refine ⟨huA, ⟨?_, huCB.2⟩, ?_⟩
  · intro b hb hs
    exact huCB.1 b hb ⟨hch.1.trans hs.1, hch.2.trans hs.2⟩
  · intro a ha b hb
    rcases List.mem_cons.1 hb with rfl | hb2
    · intro hs
      exact hrel a ha c (List.mem_cons_self _ _) ⟨hs.1.trans hch.1.symm, hs.2.trans hch.2.symm⟩
    · exact hrel a ha b (List.mem_cons_of_mem _ hb2)

theorem Resize_WF (t : HandleTable)
    (hu : (cells t).Pairwise (fun a b => ¬ sameKH a b))
    (he : t.elems_ = (cells t).length) : WF (Resize t) := by
  have hperm := Resize_cells_perm t
  refine ⟨?_, ?_, ?_, ?_, ?_⟩
  · rw [Resize_length]
    exact growLen_shape t.elems_ 4
  · rw [Resize_elems, hperm.length_eq, he]
  · rw [Resize_elems, Resize_length]
    exact growLen_ge_elems t.elems_ (by omega)
  · exact Resize_placed t
  · exact (hperm.pairwise_iff (fun h => fun hs => h (sameKH_symm hs))).2 hu

theorem Insert_snd (t : HandleTable) (h : HTCell) :
    (t.Insert h).2 = t.Lookup h.key h.hash := by
  unfold Insert Lookup
  dsimp only
  cases hf : findInChain h.key h.hash (t.list_.getD (bucketIdx h.hash t.length_) []) with
  | none => rfl
  | some c => rfl

theorem Insert_some_spec {t : HandleTable} {h c : HTCell} (wf : WF t)
    (hf : t.Lookup h.key h.hash = some c) :
    ∃ A B, cells t = A ++ c :: B ∧ cells (t.Insert h).1 = A ++ h :: B ∧
      (t.Insert h).1.elems_ = t.elems_ ∧ (t.Insert h).1.length_ = t.length_ ∧
      WF (t.Insert h).1 := by
  have hf' : findInChain h.key h.hash
      (t.list_.getD (bucketIdx h.hash t.length_) []) = some c := hf
  have hck : c.hash = h.hash ∧ c.key = h.key := by
    have := findInChain_some hf'
    exact ⟨this.2.1, this.2.2⟩
  have hi : bucketIdx h.hash t.length_ < t.length_ := bucketIdx_lt _ wf.lenPos
  rcases chainInsert_of_some hf' with ⟨l1, l2, hchain, hcins, hnm⟩
  rcases cells_set_decomp hi with ⟨F1, F2, hcells, hset⟩
  have hInsert : t.Insert h =
      ({ list_ := t.list_.set (bucketIdx h.hash t.length_)
           (chainInsert h (t.list_.getD (bucketIdx h.hash t.length_) [])),
         elems_ := t.elems_ }, some c) := by
    unfold Insert
    dsimp only
    rw [hf']
  refine ⟨F1 ++ l1, l2 ++ F2, ?_, ?_, ?_, ?_, ?_⟩
  · rw [hcells, hchain]
    simp [List.append_assoc]
  · rw [hInsert]
    show (t.list_.set _ _).flatten = _
    rw [hset, hcins]
    simp [List.append_assoc]
  · rw [hInsert]
  · rw [hInsert]
    show (t.list_.set _ _).length = _
    simp [length_]
  · have hcells2 : cells (t.Insert h).1 = (F1 ++ l1) ++ h :: (l2 ++ F2) := by
      rw [hInsert]
      show (t.list_.set _ _).flatten = _
      rw [hset, hcins]
      simp [List.append_assoc]
    have hcells1 : cells t = (F1 ++ l1) ++ c :: (l2 ++ F2) := by
      rw [hcells, hchain]
      simp [List.append_assoc]
    refine ⟨?_, ?_, ?_, ?_, ?_⟩
    · rcases wf.lenPow with ⟨k, hk⟩
      refine ⟨k, ?_⟩
      rw [hInsert]
      show (t.list_.set _ _).length = _
      simpa [length_] using hk
    · rw [hInsert]
      show t.elems_ = _
      have : cells (t.Insert h).1 = (F1 ++ l1) ++ h :: (l2 ++ F2) := hcells2
      rw [hInsert] at this
      rw [this, wf.elemsEq, hcells1]
      simp
    · rw [hInsert]
      show t.elems_ ≤ (t.list_.set _ _).length
      have := wf.elemsLe
      simpa [length_] using this
    · rw [hInsert]
      intro j hj c2 hc2
      show bucketIdx c2.hash (t.list_.set _ _).length = j
      have hlen : ((t.list_.set (bucketIdx h.hash t.length_)
          (chainInsert h (t.list_.getD (bucketIdx h.hash t.length_) []))).length) =
          t.length_ := by simp [length_]
      have hj' : j < t.length_ := by
        have : j < (t.list_.set (bucketIdx h.hash t.length_)
            (chainInsert h (t.list_.getD (bucketIdx h.hash t.length_) []))).length := hj
        omega
      rw [hlen]
      by_cases he : j = bucketIdx h.hash t.length_
      · subst he
        rw [getD_set_self _ _ (by exact hi)] at hc2
        rw [hcins] at hc2
        rcases List.mem_append.1 hc2 with hc3 | hc3
        · exact wf.placed _ hj' c2 (by rw [hchain]; exact List.mem_append_left _ hc3)
        · rcases List.mem_cons.1 hc3 with rfl | hc4
          · rfl
          · exact wf.placed _ hj' c2
              (by rw [hchain]; exact List.mem_append_right _ (List.mem_cons_of_mem _ hc4))
      · rw [getD_set_ne _ _ he] at hc2
        exact wf.placed _ hj' c2 hc2
    · have hu := wf.uniq
      rw [hcells1] at hu
      have hP := pairwise_subst hu ⟨hck.2, hck.1⟩
      rw [hInsert]
      show ((t.list_.set _ _).flatten).Pairwise _
      rw [hset, hcins]
      have he2 : F1 ++ (l1 ++ h :: l2) ++ F2 = F1 ++ l1 ++ h :: (l2 ++ F2) := by
        simp [List.append_assoc]
      rw [he2]
      exact hP

theorem Insert_none_spec {t : HandleTable} {h : HTCell} (wf : WF t)
    (hf : t.Lookup h.key h.hash = none) :
    (cells (t.Insert h).1).Perm (h :: cells t) ∧
    (t.Insert h).1.elems_ = t.elems_ + 1 ∧
    WF (t.Insert h).1 ∧
    (t.Insert h).1.length_ =
      (if t.length_ < t.elems_ + 1 then growLen (t.elems_ + 1) 4 else t.length_) := by
  have hf' : findInChain h.key h.hash
      (t.list_.getD (bucketIdx h.hash t.length_) []) = none := hf
  have hi : bucketIdx h.hash t.length_ < t.length_ := bucketIdx_lt _ wf.lenPos
  have hcins := chainInsert_of_none hf'
  rcases cells_set_decomp hi with ⟨F1, F2, hcells, hset⟩
  set t2 : HandleTable :=
    { list_ := t.list_.set (bucketIdx h.hash t.length_)
        (chainInsert h (t.list_.getD (bucketIdx h.hash t.length_) [])),
      elems_ := t.elems_ + 1 } with ht2
  have hInsert : t.Insert h = (if t2.length_ < t2.elems_ then t2.Resize else t2, none) := by
    unfold Insert
    dsimp only
    rw [hf']
  have hlen2 : t2.length_ = t.length_ := by simp [ht2, length_]
  have helems2 : t2.elems_ = t.elems_ + 1 := rfl
  have hcells2 : cells t2 = F1 ++ (t.list_.getD (bucketIdx h.hash t.length_) [] ++ [h]) ++ F2 := by
    show (t.list_.set _ _).flatten = _
    rw [hset, hcins]
  have hperm2 : (cells t2).Perm (h :: cells t) := by
    rw [hcells2, hcells]
    have he : F1 ++ (t.list_.getD (bucketIdx h.hash t.length_) [] ++ [h]) ++ F2 =
        (F1 ++ t.list_.getD (bucketIdx h.hash t.length_) []) ++ h :: F2 := by
      simp [List.append_assoc]
    rw [he]
    have := @List.perm_middle _ h (F1 ++ t.list_.getD (bucketIdx h.hash t.length_) []) F2
    simpa [List.append_assoc] using this
  have hnomatch : ∀ d ∈ cells t, ¬ sameKH h d := by
    intro d hd hs
    exact (Lookup_eq_none_iff wf).1 hf d hd ⟨hs.2.symm, hs.1.symm⟩
  have huniq2 : (cells t2).Pairwise (fun a b => ¬ sameKH a b) := by
    refine (hperm2.pairwise_iff (fun hx => fun hs => hx (sameKH_symm hs))).2 ?_
    rw [List.pairwise_cons]
    exact ⟨hnomatch, wf.uniq⟩
  have helemsEq2 : t2.elems_ = (cells t2).length := by
    rw [helems2, hperm2.length_eq, wf.elemsEq]
    simp
  have hplaced2 : ∀ i, i < t2.length_ → ∀ c ∈ t2.list_.getD i [],
      bucketIdx c.hash t2.length_ = i := by
    intro j hj c2 hc2
    rw [hlen2] at hj ⊢
    by_cases he : j = bucketIdx h.hash t.length_
    · subst he
      have hbg : t2.list_.getD (bucketIdx h.hash t.length_) [] =
          t.list_.getD (bucketIdx h.hash t.length_) [] ++ [h] := by
        show (t.list_.set _ _).getD _ [] = _
        rw [getD_set_self _ _ (by exact hi), hcins]
      rw [hbg] at hc2
      rcases List.mem_append.1 hc2 with hc3 | hc3
      · exact wf.placed _ (by exact hi) c2 hc3
      · rcases List.mem_cons.1 hc3 with rfl | hc4
        · rfl
        · simp at hc4
    · have hbg : t2.list_.getD j [] = t.list_.getD j [] := by
        show (t.list_.set _ _).getD _ [] = _
        rw [getD_set_ne _ _ he]
      rw [hbg] at hc2
      exact wf.placed _ hj c2 hc2
  have hlenPow2 : ∃ k, t2.length_ = 4 * 2 ^ k := by
    rw [hlen2]
    exact wf.lenPow
  rw [hInsert]
  by_cases hb : t.length_ < t.elems_ + 1
  · rw [if_pos (by rw [hlen2, helems2]; omega)]
    have hwfR := Resize_WF t2 huniq2 helemsEq2
    refine ⟨?_, ?_, hwfR, ?_⟩
    · exact (Resize_cells_perm t2).trans hperm2
    · rw [Resize_elems, helems2]
    · rw [Resize_length, helems2, if_pos hb]
  · rw [if_neg (by rw [hlen2, helems2]; omega)]
    refine ⟨hperm2, helems2, ?_, ?_⟩
    · exact ⟨hlenPow2, helemsEq2, by rw [helems2, hlen2]; omega, hplaced2, huniq2⟩
    · rw [if_neg hb, hlen2]

theorem chainRemove_find (key : Key) (hash : Nat) (chain : List HTCell) :
    (chainRemove key hash chain).2 = findInChain key hash chain := by
  induction chain with
  | nil => rfl
  | cons c rest ih =>
    by_cases hm : c.hash = hash ∧ c.key = key
    · simp [chainRemove, findInChain, hm]
    · simp only [chainRemove, findInChain, if_neg hm]
      exact ih

theorem Remove_snd (t : HandleTable) (key : Key) (hash : Nat) :
    (t.Remove key hash).2 = t.Lookup key hash := by
  unfold Remove Lookup
  dsimp only
  cases hcr : (chainRemove key hash (t.list_.getD (bucketIdx hash t.length_) [])).2 with
  | none => rw [← chainRemove_find, hcr]
  | some o => rw [← chainRemove_find, hcr]

theorem Remove_none_eq {t : HandleTable} {key : Key} {hash : Nat}
    (h : t.Lookup key hash = none) : t.Remove key hash = (t, none) := by
  have hcr : (chainRemove key hash (t.list_.getD (bucketIdx hash t.length_) [])).2 = none := by
    rw [chainRemove_find]
    exact h
  unfold Remove
  dsimp only
  rw [hcr]

theorem Remove_some_spec {t : HandleTable} {key : Key} {hash : Nat} {c : HTCell}
    (wf : WF t) (hf : t.Lookup key hash = some c) :
    ∃ A B, cells t = A ++ c :: B ∧ cells (t.Remove key hash).1 = A ++ B ∧
      (t.Remove key hash).1.elems_ = t.elems_ - 1 ∧
      (t.Remove key hash).1.length_ = t.length_ ∧ WF (t.Remove key hash).1 := by
  have hf' : findInChain key hash
      (t.list_.getD (bucketIdx hash t.length_) []) = some c := hf
  have hcr : (chainRemove key hash (t.list_.getD (bucketIdx hash t.length_) [])).2 = some c := by
    rw [chainRemove_find]
    exact hf'
  have hi : bucketIdx hash t.length_ < t.length_ := bucketIdx_lt _ wf.lenPos
  rcases chainRemove_some hcr with ⟨l1, l2, hchain, hrem, hh, hk, hnm⟩
  rcases cells_set_decomp hi with ⟨F1, F2, hcells, hset⟩
  have hRemove : t.Remove key hash =
      ({ list_ := t.list_.set (bucketIdx hash t.length_)
           ((chainRemove key hash (t.list_.getD (bucketIdx hash t.length_) [])).1),
         elems_ := t.elems_ - 1 }, some c) := by
    unfold Remove
    dsimp only
    rw [hcr]
  have hcells1 : cells t = (F1 ++ l1) ++ c :: (l2 ++ F2) := by
    rw [hcells, hchain]
    simp [List.append_assoc]
  have hcellsR : cells (t.Remove key hash).1 = (F1 ++ l1) ++ (l2 ++ F2) := by
    rw [hRemove]
    show (t.list_.set _ _).flatten = _
    rw [hset, hrem]
    simp [List.append_assoc]
  have hlist : (t.Remove key hash).1.list_ =
      t.list_.set (bucketIdx hash t.length_) (l1 ++ l2) := by
    rw [hRemove, hrem]
  have helemsR : (t.Remove key hash).1.elems_ = t.elems_ - 1 := by rw [hRemove]
  have hlenR : (t.Remove key hash).1.length_ = t.length_ := by
    show ((t.Remove key hash).1.list_).length = _
    rw [hlist]
    simp [length_]
  refine ⟨F1 ++ l1, l2 ++ F2, hcells1, hcellsR, helemsR, hlenR, ?_⟩
  have hsub : (cells (t.Remove key hash).1).Sublist (cells t) := by
    rw [hcellsR, hcells1]
    exact List.Sublist.append_left (List.sublist_cons_self c (l2 ++ F2)) (F1 ++ l1)
  refine ⟨?_, ?_, ?_, ?_, ?_⟩
  · rw [hlenR]
    exact wf.lenPow
  · rw [helemsR, hcellsR, wf.elemsEq, hcells1]
    simp
    omega
  · rw [helemsR, hlenR]
    have := wf.elemsLe
    omega
  · intro j hj c2 hc2
    rw [hlenR] at hj ⊢
    rw [hlist] at hc2
    by_cases he : j = bucketIdx hash t.length_
    · subst he
      rw [getD_set_self _ _ (by exact hi)] at hc2
      have hc3 : c2 ∈ t.list_.getD (bucketIdx hash t.length_) [] := by
        rw [hchain]
        rcases List.mem_append.1 hc2 with hc4 | hc4
        · exact List.mem_append_left _ hc4
        · exact List.mem_append_right _ (List.mem_cons_of_mem _ hc4)
      exact wf.placed _ hi c2 hc3
    · rw [getD_set_ne _ _ he] at hc2
      exact wf.placed _ hj c2 hc2
  · exact List.Pairwise.sublist hsub wf.uniq

theorem init_eq : init = { list_ := [[], [], [], []], elems_ := 0 } := by
  decide

theorem WF_init : WF init := by
  rw [init_eq]
  refine ⟨⟨0, rfl⟩, rfl, by norm_num, ?_, List.Pairwise.nil⟩
  intro i hi c hc
  have hlt : i < 4 := hi
  interval_cases i <;> simp [List.getD] at hc

end HandleTable

/-! ### Heap (entry store) lemmas -/

theorem getE_setE_self (st : LRUCacheState) (id : Nat) (e : EntryData) :
    getE (setE st id e) id = (getE st id).map (fun _ => e) := by
  unfold getE setE
  simp only
  generalize st.heap = l
  induction l with
  | nil => rfl
  | cons p rest ih =>
    by_cases hp : p.1 = id
    · simp [List.find?_cons, hp]
    · simp only [List.map_cons, if_neg hp]
      rw [List.find?_cons, List.find?_cons]
      have hb : (p.1 == id) = false := by simp [hp]
      rw [hb]
      simp only [cond_false]
      exact ih

theorem getE_setE_ne (st : LRUCacheState) {id id2 : Nat} (e : EntryData)
    (h : id2 ≠ id) : getE (setE st id e) id2 = getE st id2 := by
  unfold getE setE
  simp only
  generalize st.heap = l
  induction l with
  | nil => rfl
  | cons p rest ih =>
    by_cases hp : p.1 = id
    · rw [List.map_cons, if_pos hp, List.find?_cons, List.find?_cons]
      have hb : (id == id2) = false := by simp; omega
      have hb2 : (p.1 == id2) = false := by simp; omega
      rw [hb, hb2]
      simp only [cond_false]
      exact ih
    · rw [List.map_cons, if_neg hp, List.find?_cons, List.find?_cons]
      by_cases hq : p.1 = id2
      · simp [hq]
      · have hb : (p.1 == id2) = false := by simp [hq]
        rw [hb]
        simp only [cond_false]
        exact ih

theorem getE_freeE_self (st : LRUCacheState) (id : Nat) :
    getE (freeE st id) id = none := by
  unfold getE freeE
  simp only
  generalize st.heap = l
  induction l with
  | nil => rfl
  | cons p rest ih =>
    by_cases hp : p.1 = id
    · rw [List.filter_cons_of_neg (by simp [hp])]
      exact ih
    · rw [List.filter_cons_of_pos (by simp [hp]), List.find?_cons]
      have hb2 : (p.1 == id) = false := by simp [hp]
      rw [hb2]
      simp only [cond_false]
      exact ih

theorem getE_freeE_ne (st : LRUCacheState) {id id2 : Nat} (h : id2 ≠ id) :
    getE (freeE st id) id2 = getE st id2 := by
  unfold getE freeE
  simp only
  generalize st.heap = l
  induction l with
  | nil => rfl
  | cons p rest ih =>
    by_cases hp : p.1 = id
    · rw [List.filter_cons_of_neg (by simp [hp])]
      rw [List.find?_cons]
      have hb2 : (p.1 == id2) = false := by simp; omega
      rw [hb2]
      simp only [cond_false]
      exact ih
    · rw [List.filter_cons_of_pos (by simp [hp]), List.find?_cons, List.find?_cons]
      by_cases hq : p.1 = id2
      · simp [hq]
      · have hb2 : (p.1 == id2) = false := by simp [hq]
        rw [hb2]
        simp only [cond_false]
        exact ih

theorem getE_some_mem {st : LRUCacheState} {id : Nat} {e : EntryData}
    (h : getE st id = some e) : (id, e) ∈ st.heap := by
  unfold getE at h
  rcases Option.map_eq_some'.1 h with ⟨p, hp, he⟩
  have hmem := List.mem_of_find?_eq_some hp
  have hpred := List.find?_some hp
  have hid : p.1 = id := by simpa using hpred
  have hpe : p = (id, e) := by
    obtain ⟨a, b⟩ := p
    dsimp at hid he
    rw [hid, he]
  rw [← hpe]
  exact hmem

theorem getE_some_mem_fst {st : LRUCacheState} {id : Nat} {e : EntryData}
    (h : getE st id = some e) : id ∈ st.heap.map Prod.fst := by
  have := getE_some_mem h
  exact List.mem_map.2 ⟨(id, e), this, rfl⟩

theorem getE_none_of_fresh {st : LRUCacheState} {id : Nat}
    (h : id ∉ st.heap.map Prod.fst) : getE st id = none := by
  unfold getE
  rw [List.find?_eq_none.2]
  · rfl
  · intro p hp hb
    exact h (List.mem_map.2 ⟨p, hp, by simpa using hb⟩)

theorem mem_getE {st : LRUCacheState} (hnd : (st.heap.map Prod.fst).Nodup)
    {id : Nat} {e : EntryData} (hmem : (id, e) ∈ st.heap) :
    getE st id = some e := by
  unfold getE
  revert hnd hmem
  generalize st.heap = l
  induction l with
  | nil => intro hnd hmem; simp at hmem
  | cons p rest ih =>
    intro hnd hmem
    rcases List.mem_cons.1 hmem with rfl | h2
    · rw [List.find?_cons]
      simp
    · rw [List.find?_cons]
      have hpne : p.1 ≠ id := by
        intro he
        rw [List.map_cons] at hnd
        have := (List.nodup_cons.1 hnd).1
        exact this (by rw [he]; exact List.mem_map.2 ⟨(id, e), h2, rfl⟩)
      have hb : (p.1 == id) = false := by simp [hpne]
      rw [hb]
      simp only [cond_false]
      exact ih (by
        rw [List.map_cons] at hnd
        exact (List.nodup_cons.1 hnd).2) h2

theorem map_setE_of_fresh {l : List (Nat × EntryData)} {id : Nat}
    (h : id ∉ l.map Prod.fst) (e : EntryData) :
    l.map (fun p => if p.1 = id then (id, e) else p) = l := by
  induction l with
  | nil => rfl
  | cons p rest ih =>
    rw [List.map_cons] at h ⊢
    have hp : p.1 ≠ id := by
      intro he
      apply h
      rw [← he]
      exact List.mem_cons_self _ _
    rw [if_neg hp, ih (fun hm => h (List.mem_cons_of_mem _ hm))]

theorem chargeSum_setE {st : LRUCacheState}
    (hnd : (st.heap.map Prod.fst).Nodup) {id : Nat} {e0 : EntryData}
    (hget : getE st id = some e0) (e : EntryData) :
    chargeSum (setE st id e) + liveCharge (id, e0) =
      chargeSum st + liveCharge (id, e) := by
  unfold chargeSum setE getE at *
  simp only at *
  revert hnd hget
  generalize st.heap = l
  intro hnd hget
  induction l with
  | nil => simp at hget
  | cons p rest ih =>
    rw [List.map_cons] at hnd
    have hnd2 := List.nodup_cons.1 hnd
    by_cases hp : p.1 = id
    · rw [List.find?_cons] at hget
      have hb : (p.1 == id) = true := by simp [hp]
      rw [hb] at hget
      simp only [cond_true, Option.map_some'] at hget
      have he0 : p.2 = e0 := by injection hget
      rw [List.map_cons, if_pos hp, List.map_cons, List.map_cons, List.sum_cons,
        List.sum_cons, map_setE_of_fresh (by rw [← hp]; exact hnd2.1) e]
      have hlc : liveCharge p = liveCharge (id, e0) := by
        unfold liveCharge
        rw [he0]
      rw [hlc]
      omega
    · rw [List.find?_cons] at hget
      have hb : (p.1 == id) = false := by simp [hp]
      rw [hb] at hget
      simp only [cond_false] at hget
      rw [List.map_cons, if_neg hp, List.map_cons, List.map_cons, List.sum_cons,
        List.sum_cons]
      have := ih hnd2.2 hget
      omega

theorem chargeSum_freeE {st : LRUCacheState}
    (hnd : (st.heap.map Prod.fst).Nodup) {id : Nat} {e0 : EntryData}
    (hget : getE st id = some e0) (hc : e0.in_cache = false) :
    chargeSum (freeE st id) = chargeSum st := by
  unfold chargeSum freeE getE at *
  simp only at *
  revert hnd hget
  generalize st.heap = l
  intro hnd hget
  induction l with
  | nil => simp at hget
  | cons p rest ih =>
    rw [List.map_cons] at hnd
    have hnd2 := List.nodup_cons.1 hnd
    by_cases hp : p.1 = id
    · rw [List.find?_cons] at hget
      have hb : (p.1 == id) = true := by simp [hp]
      rw [hb] at hget
      simp only [cond_true, Option.map_some'] at hget
      have he0 : p.2 = e0 := by injection hget
      rw [List.filter_cons_of_neg (by simp [hp])]
      have hrest : rest.filter (fun p => p.1 != id) = rest := by
        apply List.filter_eq_self.2
        intro q hq
        have hqne : q.1 ≠ id := by
          intro he
          exact hnd2.1 (by rw [hp, ← he]; exact List.mem_map.2 ⟨q, hq, rfl⟩)
        simp [hqne]
      rw [hrest, List.map_cons, List.sum_cons]
      have hlc0 : liveCharge p = 0 := by
        unfold liveCharge
        rw [he0, hc]
        simp
      omega
    · rw [List.find?_cons] at hget
      have hb : (p.1 == id) = false := by simp [hp]
      rw [hb] at hget
      simp only [cond_false] at hget
      rw [List.filter_cons_of_pos (by simp [hp])]
      simp only [List.map_cons, List.sum_cons]
      have := ih hnd2.2 hget
      omega

theorem heap_fst_setE (st : LRUCacheState) (id : Nat) (e : EntryData) :
    (setE st id e).heap.map Prod.fst = st.heap.map Prod.fst := by
  unfold setE
  simp only
  generalize st.heap = l
  induction l with
  | nil => rfl
  | cons p rest ih =>
    rw [List.map_cons, List.map_cons, List.map_cons]
    by_cases hp : p.1 = id
    · rw [if_pos hp, ih]
      simp [hp]
    · rw [if_neg hp, ih]

theorem heap_fst_freeE_sublist (st : LRUCacheState) (id : Nat) :
    ((freeE st id).heap.map Prod.fst).Sublist (st.heap.map Prod.fst) := by
  unfold freeE
  simp only
  exact List.Sublist.map Prod.fst (List.filter_sublist _)

namespace LRUCache


theorem Inv.not_lru_of_uncached {st : LRUCacheState} (hI : Inv st) {id : Nat}
    {e : EntryData} (hget : getE st id = some e) (hc : e.in_cache = false) :
    id ∉ st.lru_ := by
  intro hmem
  rcases hI.lruSpec id hmem with ⟨e2, hg2, hc2, _⟩
  rw [hget] at hg2
  injection hg2 with he
  rw [← he] at hc2
  rw [hc] at hc2
  exact Bool.false_ne_true hc2

theorem Inv.not_inuse_of_uncached {st : LRUCacheState} (hI : Inv st) {id : Nat}
    {e : EntryData} (hget : getE st id = some e) (hc : e.in_cache = false) :
    id ∉ st.in_use_ := by
  intro hmem
  rcases hI.inuseSpec id hmem with ⟨e2, hg2, hc2, _⟩
  rw [hget] at hg2
  injection hg2 with he
  rw [← he] at hc2
  rw [hc] at hc2
  exact Bool.false_ne_true hc2

theorem Inv.not_lru_of_refs_ne_one {st : LRUCacheState} (hI : Inv st) {id : Nat}
    {e : EntryData} (hget : getE st id = some e) (hr : e.refs ≠ 1) :
    id ∉ st.lru_ := by
  intro hmem
  rcases hI.lruSpec id hmem with ⟨e2, hg2, _, hr2⟩
  rw [hget] at hg2
  injection hg2 with he
  rw [← he] at hr2
  exact hr hr2

theorem Inv.not_inuse_of_refs_lt_two {st : LRUCacheState} (hI : Inv st) {id : Nat}
    {e : EntryData} (hget : getE st id = some e) (hr : e.refs < 2) :
    id ∉ st.in_use_ := by
  intro hmem
  rcases hI.inuseSpec id hmem with ⟨e2, hg2, _, hr2⟩
  rw [hget] at hg2
  injection hg2 with he
  rw [← he] at hr2
  omega

/-- The invariant does not mention the mutex flag. -/
theorem Inv.mutex {st : LRUCacheState} (hI : Inv st) (b : Bool) :
    Inv { st with mutexHeld := b } :=
  ⟨hI.heapNodup, hI.heapLt, hI.refsPos, hI.lruNodup, hI.inuseNodup, hI.disj,
   hI.lruSpec, hI.inuseSpec, hI.onList, hI.inTable, hI.tableLive, hI.usageEq,
   hI.tableWF⟩

/-! Behaviour of `Unref` in its three branches. -/

theorem Unref_dead {st : LRUCacheState} {id : Nat} {e : EntryData}
    (hget : getE st id = some e) (h1 : e.refs = 1) :
    Unref st id =
      (freeE st id, [{ key := e.key, value := e.value, underMutex := st.mutexHeld }]) := by
  unfold Unref
  rw [hget]
  dsimp only
  rw [h1]
  simp

theorem Unref_toLRU {st : LRUCacheState} {id : Nat} {e : EntryData}
    (hget : getE st id = some e) (hc : e.in_cache = true) (h2 : e.refs = 2) :
    Unref st id =
      (setE (appendLRU (LRU_Remove st id) id) id { e with refs := 1 }, []) := by
  unfold Unref
  rw [hget]
  dsimp only
  rw [h2, hc]
  simp

theorem Unref_dec {st : LRUCacheState} {id : Nat} {e : EntryData}
    (hget : getE st id = some e) (h2 : 2 ≤ e.refs)
    (h3 : ¬(e.in_cache = true ∧ e.refs = 2)) :
    Unref st id = (setE st id { e with refs := e.refs - 1 }, []) := by
  unfold Unref
  rw [hget]
  dsimp only
  rw [if_neg (by omega), if_neg (by
    intro hx
    exact h3 ⟨hx.1, by omega⟩)]

theorem Unref_mutex (st : LRUCacheState) (id : Nat) :
    (Unref st id).1.mutexHeld = st.mutexHeld := by
  unfold Unref
  cases hget : getE st id with
  | none => rfl
  | some e =>
    dsimp only
    by_cases h0 : e.refs - 1 = 0
    · rw [if_pos h0]
      rfl
    · rw [if_neg h0]
      by_cases h1 : e.in_cache = true ∧ e.refs - 1 = 1
      · rw [if_pos h1]
        rfl
      · rw [if_neg h1]
        rfl

theorem Unref_dels (st : LRUCacheState) (id : Nat) :
    ∀ d ∈ (Unref st id).2, d.underMutex = st.mutexHeld := by
  unfold Unref
  cases hget : getE st id with
  | none => intro d hd; simp at hd
  | some e =>
    dsimp only
    by_cases h0 : e.refs - 1 = 0
    · rw [if_pos h0]
      intro d hd
      rcases List.mem_cons.1 hd with rfl | h2
      · rfl
      · simp at h2
    · rw [if_neg h0]
      by_cases h1 : e.in_cache = true ∧ e.refs - 1 = 1
      · rw [if_pos h1]
        intro d hd
        simp at hd
      · rw [if_neg h1]
        intro d hd
        simp at hd

theorem FinishErase_mutex (st : LRUCacheState) (r : Option HTCell) :
    (FinishErase st r).1.1.mutexHeld = st.mutexHeld := by
  cases r with
  | none => rfl
  | some c =>
    cases hget : getE st c.id with
    | none =>
      have h2 : (FinishErase st (some c)).1.1 = st := by
        unfold FinishErase
        dsimp only
        rw [hget]
      rw [h2]
    | some e =>
      have h2 : (FinishErase st (some c)).1.1 =
          (Unref { setE (LRU_Remove st c.id) c.id { e with in_cache := false } with
            usage_ := (setE (LRU_Remove st c.id) c.id
              { e with in_cache := false }).usage_ - e.charge } c.id).1 := by
        unfold FinishErase
        dsimp only
        rw [hget]
      rw [h2, Unref_mutex]
      rfl

theorem FinishErase_dels (st : LRUCacheState) (r : Option HTCell) :
    ∀ d ∈ (FinishErase st r).1.2, d.underMutex = st.mutexHeld := by
  cases r with
  | none =>
    intro d hd
    have h2 : (FinishErase st none).1.2 = [] := rfl
    rw [h2] at hd
    simp at hd
  | some c =>
    cases hget : getE st c.id with
    | none =>
      have h2 : (FinishErase st (some c)).1.2 = [] := by
        unfold FinishErase
        dsimp only
        rw [hget]
      rw [h2]
      intro d hd
      simp at hd
    | some e =>
      have h2 : (FinishErase st (some c)).1.2 =
          (Unref { setE (LRU_Remove st c.id) c.id { e with in_cache := false } with
            usage_ := (setE (LRU_Remove st c.id) c.id
              { e with in_cache := false }).usage_ - e.charge } c.id).2 := by
        unfold FinishErase
        dsimp only
        rw [hget]
      rw [h2]
      intro d hd
      have h3 := Unref_dels _ c.id d hd
      exact h3.trans rfl

/-! Behaviour of `Ref` in its two branches. -/

theorem Ref_fromLRU {st : LRUCacheState} {id : Nat} {e : EntryData}
    (hget : getE st id = some e) (hc : e.in_cache = true) (h1 : e.refs = 1) :
    Ref st id =
      setE (appendInUse (LRU_Remove st id) id) id { e with refs := e.refs + 1 } := by
  unfold Ref
  rw [hget]
  dsimp only
  rw [if_pos ⟨h1, hc⟩]

theorem Ref_incr {st : LRUCacheState} {id : Nat} {e : EntryData}
    (hget : getE st id = some e) (hcond : ¬(e.refs = 1 ∧ e.in_cache = true)) :
    Ref st id = setE st id { e with refs := e.refs + 1 } := by
  unfold Ref
  rw [hget]
  dsimp only
  rw [if_neg hcond]

/-! Frame facts: the list primitives do not touch the heap, the heap
primitives do not touch the lists, and so on.  All hold by unfolding. -/

@[simp] theorem getE_LRU_Remove (st : LRUCacheState) (id id2 : Nat) :
    getE (LRU_Remove st id) id2 = getE st id2 := rfl

@[simp] theorem getE_appendLRU (st : LRUCacheState) (id id2 : Nat) :
    getE (appendLRU st id) id2 = getE st id2 := rfl

@[simp] theorem getE_appendInUse (st : LRUCacheState) (id id2 : Nat) :
    getE (appendInUse st id) id2 = getE st id2 := rfl

@[simp] theorem LRU_Remove_lru (st : LRUCacheState) (id : Nat) :
    (LRU_Remove st id).lru_ = st.lru_.erase id := rfl

@[simp] theorem LRU_Remove_inuse (st : LRUCacheState) (id : Nat) :
    (LRU_Remove st id).in_use_ = st.in_use_.erase id := rfl

@[simp] theorem appendLRU_lru (st : LRUCacheState) (id : Nat) :
    (appendLRU st id).lru_ = st.lru_ ++ [id] := rfl

@[simp] theorem appendLRU_inuse (st : LRUCacheState) (id : Nat) :
    (appendLRU st id).in_use_ = st.in_use_ := rfl

@[simp] theorem appendInUse_lru (st : LRUCacheState) (id : Nat) :
    (appendInUse st id).lru_ = st.lru_ := rfl

@[simp] theorem appendInUse_inuse (st : LRUCacheState) (id : Nat) :
    (appendInUse st id).in_use_ = st.in_use_ ++ [id] := rfl

@[simp] theorem setE_lru (st : LRUCacheState) (id : Nat) (e : EntryData) :
    (setE st id e).lru_ = st.lru_ := rfl

@[simp] theorem setE_inuse (st : LRUCacheState) (id : Nat) (e : EntryData) :
    (setE st id e).in_use_ = st.in_use_ := rfl

@[simp] theorem setE_table (st : LRUCacheState) (id : Nat) (e : EntryData) :
    (setE st id e).table_ = st.table_ := rfl

@[simp] theorem setE_usage (st : LRUCacheState) (id : Nat) (e : EntryData) :
    (setE st id e).usage_ = st.usage_ := rfl

@[simp] theorem setE_nextId (st : LRUCacheState) (id : Nat) (e : EntryData) :
    (setE st id e).nextId = st.nextId := rfl

@[simp] theorem setE_capacity (st : LRUCacheState) (id : Nat) (e : EntryData) :
    (setE st id e).capacity_ = st.capacity_ := rfl

@[simp] theorem setE_mutex (st : LRUCacheState) (id : Nat) (e : EntryData) :
    (setE st id e).mutexHeld = st.mutexHeld := rfl

@[simp] theorem setE_fst (st : LRUCacheState) (id : Nat) (e : EntryData) :
    (setE st id e).heap.map Prod.fst = st.heap.map Prod.fst :=
  heap_fst_setE st id e

@[simp] theorem freeE_lru (st : LRUCacheState) (id : Nat) :
    (freeE st id).lru_ = st.lru_ := rfl

@[simp] theorem freeE_inuse (st : LRUCacheState) (id : Nat) :
    (freeE st id).in_use_ = st.in_use_ := rfl

@[simp] theorem freeE_table (st : LRUCacheState) (id : Nat) :
    (freeE st id).table_ = st.table_ := rfl

@[simp] theorem freeE_usage (st : LRUCacheState) (id : Nat) :
    (freeE st id).usage_ = st.usage_ := rfl

@[simp] theorem freeE_nextId (st : LRUCacheState) (id : Nat) :
    (freeE st id).nextId = st.nextId := rfl

@[simp] theorem freeE_capacity (st : LRUCacheState) (id : Nat) :
    (freeE st id).capacity_ = st.capacity_ := rfl

@[simp] theorem freeE_mutex (st : LRUCacheState) (id : Nat) :
    (freeE st id).mutexHeld = st.mutexHeld := rfl

@[simp] theorem LRU_Remove_table (st : LRUCacheState) (id : Nat) :
    (LRU_Remove st id).table_ = st.table_ := rfl

@[simp] theorem LRU_Remove_usage (st : LRUCacheState) (id : Nat) :
    (LRU_Remove st id).usage_ = st.usage_ := rfl

@[simp] theorem LRU_Remove_heap (st : LRUCacheState) (id : Nat) :
    (LRU_Remove st id).heap = st.heap := rfl

@[simp] theorem LRU_Remove_nextId (st : LRUCacheState) (id : Nat) :
    (LRU_Remove st id).nextId = st.nextId := rfl

@[simp] theorem LRU_Remove_capacity (st : LRUCacheState) (id : Nat) :
    (LRU_Remove st id).capacity_ = st.capacity_ := rfl

@[simp] theorem LRU_Remove_mutex (st : LRUCacheState) (id : Nat) :
    (LRU_Remove st id).mutexHeld = st.mutexHeld := rfl

@[simp] theorem appendLRU_table (st : LRUCacheState) (id : Nat) :
    (appendLRU st id).table_ = st.table_ := rfl

@[simp] theorem appendLRU_usage (st : LRUCacheState) (id : Nat) :
    (appendLRU st id).usage_ = st.usage_ := rfl

@[simp] theorem appendLRU_heap (st : LRUCacheState) (id : Nat) :
    (appendLRU st id).heap = st.heap := rfl

@[simp] theorem appendLRU_nextId (st : LRUCacheState) (id : Nat) :
    (appendLRU st id).nextId = st.nextId := rfl

@[simp] theorem appendLRU_capacity (st : LRUCacheState) (id : Nat) :
    (appendLRU st id).capacity_ = st.capacity_ := rfl

@[simp] theorem appendLRU_mutex (st : LRUCacheState) (id : Nat) :
    (appendLRU st id).mutexHeld = st.mutexHeld := rfl

@[simp] theorem appendInUse_table (st : LRUCacheState) (id : Nat) :
    (appendInUse st id).table_ = st.table_ := rfl

@[simp] theorem appendInUse_usage (st : LRUCacheState) (id : Nat) :
    (appendInUse st id).usage_ = st.usage_ := rfl

@[simp] theorem appendInUse_heap (st : LRUCacheState) (id : Nat) :
    (appendInUse st id).heap = st.heap := rfl

@[simp] theorem appendInUse_nextId (st : LRUCacheState) (id : Nat) :
    (appendInUse st id).nextId = st.nextId := rfl

@[simp] theorem appendInUse_capacity (st : LRUCacheState) (id : Nat) :
    (appendInUse st id).capacity_ = st.capacity_ := rfl

@[simp] theorem appendInUse_mutex (st : LRUCacheState) (id : Nat) :
    (appendInUse st id).mutexHeld = st.mutexHeld := rfl

@[simp] theorem chargeSum_LRU_Remove (st : LRUCacheState) (id : Nat) :
    chargeSum (LRU_Remove st id) = chargeSum st := rfl

@[simp] theorem chargeSum_appendLRU (st : LRUCacheState) (id : Nat) :
    chargeSum (appendLRU st id) = chargeSum st := rfl

@[simp] theorem chargeSum_appendInUse (st : LRUCacheState) (id : Nat) :
    chargeSum (appendInUse st id) = chargeSum st := rfl

theorem getE_det {st : LRUCacheState} {id : Nat} {e1 e2 : EntryData}
    (h1 : getE st id = some e1) (h2 : getE st id = some e2) : e1 = e2 := by
  rw [h1] at h2
  injection h2

/-- `Unref` preserves the shard invariant, provided the entry is live and,
when still cached, carries at least one reference besides the cache's own
(which is exactly what every call site guarantees). -/
theorem Unref_inv {st : LRUCacheState} {id : Nat} {e : EntryData} (hI : Inv st)
    (hget : getE st id = some e) (hcond : e.in_cache = true → 2 ≤ e.refs) :
    Inv (Unref st id).1 := by
  have hr1 := hI.refsPos id e hget
  by_cases h1 : e.refs = 1
  · -- refs drops to 0: deleter + free
    have hc : e.in_cache = false := by
      cases hcb : e.in_cache
      · rfl
      · have := hcond hcb
        omega
    rw [Unref_dead hget h1]
    show Inv (freeE st id)
    refine ⟨List.Nodup.sublist (heap_fst_freeE_sublist st id) hI.heapNodup,
      ?_, ?_, hI.lruNodup, hI.inuseNodup, hI.disj, ?_, ?_, ?_, ?_, ?_, ?_, hI.tableWF⟩
    · intro id2 hid2
      exact hI.heapLt id2 ((heap_fst_freeE_sublist st id).subset hid2)
    · intro id2 e2 hg2
      by_cases hne : id2 = id
      · subst hne
        rw [getE_freeE_self] at hg2
        simp at hg2
      · rw [getE_freeE_ne st hne] at hg2
        exact hI.refsPos id2 e2 hg2
    · intro id2 hmem
      rcases hI.lruSpec id2 hmem with ⟨e2, hg2, hc2, hrr2⟩
      have hne : id2 ≠ id := by
        intro he
        subst he
        have := getE_det hg2 hget
        subst this
        rw [hc] at hc2
        exact Bool.false_ne_true hc2
      exact ⟨e2, by rw [getE_freeE_ne st hne]; exact hg2, hc2, hrr2⟩
    · intro id2 hmem
      rcases hI.inuseSpec id2 hmem with ⟨e2, hg2, hc2, hrr2⟩
      have hne : id2 ≠ id := by
        intro he
        subst he
        have := getE_det hg2 hget
        subst this
        rw [hc] at hc2
        exact Bool.false_ne_true hc2
      exact ⟨e2, by rw [getE_freeE_ne st hne]; exact hg2, hc2, hrr2⟩
    · intro id2 e2 hg2 hc2
      by_cases hne : id2 = id
      · subst hne
        rw [getE_freeE_self] at hg2
        simp at hg2
      · rw [getE_freeE_ne st hne] at hg2
        exact hI.onList id2 e2 hg2 hc2
    · intro id2 e2 hg2 hc2
      by_cases hne : id2 = id
      · subst hne
        rw [getE_freeE_self] at hg2
        simp at hg2
      · rw [getE_freeE_ne st hne] at hg2
        exact hI.inTable id2 e2 hg2 hc2
    · intro c hcm
      rcases hI.tableLive c hcm with ⟨e2, hg2, hc2, hk2, hh2⟩
      have hne : c.id ≠ id := by
        intro he
        rw [he] at hg2
        have := getE_det hg2 hget
        subst this
        rw [hc] at hc2
        exact Bool.false_ne_true hc2
      exact ⟨e2, by rw [getE_freeE_ne st hne]; exact hg2, hc2, hk2, hh2⟩
    · show st.usage_ = chargeSum (freeE st id)
      rw [chargeSum_freeE hI.heapNodup hget hc]
      exact hI.usageEq
  · -- refs stays positive
    have h2 : 2 ≤ e.refs := by omega
    by_cases hmove : e.in_cache = true ∧ e.refs = 2
    · -- migrate from in_use_ to lru_
      rcases hmove with ⟨hc, hr2⟩
      rw [Unref_toLRU hget hc hr2]
      have hidInUse : id ∈ st.in_use_ := by
        rcases hI.onList id e hget hc with hmem | hmem
        · rcases hI.lruSpec id hmem with ⟨e2, hg2, _, hrr2⟩
          have := getE_det hg2 hget
          subst this
          omega
        · exact hmem
      have hidNotLru : id ∉ st.lru_ := hI.not_lru_of_refs_ne_one hget (by omega)
      set e' : EntryData := { e with refs := 1 } with he'
      set stm := appendLRU (LRU_Remove st id) id with hstm
      have hgm : ∀ id2, getE stm id2 = getE st id2 := fun id2 => rfl
      have hglast : getE (setE stm id e') id = some e' := by
        rw [getE_setE_self, hgm, hget]
        rfl
      have hgother : ∀ id2, id2 ≠ id → getE (setE stm id e') id2 = getE st id2 := by
        intro id2 hne
        rw [getE_setE_ne stm e' hne, hgm]
      have hlru : (setE stm id e').lru_ = st.lru_ ++ [id] := by
        simp [hstm, List.erase_of_not_mem hidNotLru]
      have hinuse : (setE stm id e').in_use_ = st.in_use_.erase id := by
        simp [hstm]
      refine ⟨?_, ?_, ?_, ?_, ?_, ?_, ?_, ?_, ?_, ?_, ?_, ?_, ?_⟩
      · rw [setE_fst]
        show (st.heap.map Prod.fst).Nodup
        exact hI.heapNodup
      · intro id2 hid2
        rw [setE_fst] at hid2
        exact hI.heapLt id2 hid2
      · intro id2 e2 hg2
        by_cases hne : id2 = id
        · subst hne
          rw [hglast] at hg2
          injection hg2 with hh
          subst hh
          simp [he']
        · rw [hgother id2 hne] at hg2
          exact hI.refsPos id2 e2 hg2
      · rw [hlru]
        rw [List.nodup_append]
        exact ⟨hI.lruNodup, List.nodup_singleton id, by
          intro a ha hb
          simp at hb
          subst hb
          exact hidNotLru ha⟩
      · rw [hinuse]
        exact hI.inuseNodup.erase id
      · rw [hlru, hinuse]
        intro id2 hmem
        rcases List.mem_append.1 hmem with hm2 | hm2
        · intro hmem2
          exact hI.disj id2 hm2 (List.mem_of_mem_erase hmem2)
        · simp at hm2
          subst hm2
          exact hI.inuseNodup.not_mem_erase
      · rw [hlru]
        intro id2 hmem
        rcases List.mem_append.1 hmem with hm2 | hm2
        · have hne : id2 ≠ id := fun he => hidNotLru (he ▸ hm2)
          rcases hI.lruSpec id2 hm2 with ⟨e2, hg2, hc2, hrr2⟩
          exact ⟨e2, by rw [hgother id2 hne]; exact hg2, hc2, hrr2⟩
        · simp at hm2
          subst hm2
          exact ⟨e', hglast, by simp [he']; exact hc, rfl⟩
      · rw [hinuse]
        intro id2 hmem
        have hne : id2 ≠ id := (hI.inuseNodup.mem_erase_iff.1 hmem).1
        have hm2 : id2 ∈ st.in_use_ := (hI.inuseNodup.mem_erase_iff.1 hmem).2
        rcases hI.inuseSpec id2 hm2 with ⟨e2, hg2, hc2, hrr2⟩
        exact ⟨e2, by rw [hgother id2 hne]; exact hg2, hc2, hrr2⟩
      · intro id2 e2 hg2 hc2
        rw [hlru, hinuse]
        by_cases hne : id2 = id
        · subst hne
          left
          exact List.mem_append_right _ (List.mem_singleton.2 rfl)
        · rw [hgother id2 hne] at hg2
          rcases hI.onList id2 e2 hg2 hc2 with hm2 | hm2
          · exact Or.inl (List.mem_append_left _ hm2)
          · exact Or.inr (hI.inuseNodup.mem_erase_iff.2 ⟨hne, hm2⟩)
      · intro id2 e2 hg2 hc2
        rw [setE_table]
        by_cases hne : id2 = id
        · subst hne
          rw [hglast] at hg2
          injection hg2 with hh
          subst hh
          exact hI.inTable _ e hget hc
        · rw [hgother id2 hne] at hg2
          exact hI.inTable id2 e2 hg2 hc2
      · rw [setE_table]
        intro c hcm
        rcases hI.tableLive c hcm with ⟨e2, hg2, hc2, hk2, hh2⟩
        by_cases hne : c.id = id
        · rw [hne] at hg2 ⊢
          have := getE_det hg2 hget
          subst this
          exact ⟨e', hglast, by simp [he']; exact hc2, hk2, hh2⟩
        · exact ⟨e2, by rw [hgother c.id hne]; exact hg2, hc2, hk2, hh2⟩
      · show st.usage_ = chargeSum (setE stm id e')
        have hcs := @chargeSum_setE stm hI.heapNodup id e (by rw [hgm, hget]) e'
        have hlc : liveCharge (id, e) = liveCharge (id, e') := by
          simp [liveCharge, he']
        rw [hlc] at hcs
        have : chargeSum (setE stm id e') = chargeSum stm := by omega
        rw [this]
        exact hI.usageEq
      · rw [setE_table]
        exact hI.tableWF
    · -- plain decrement
      rw [Unref_dec hget h2 hmove]
      set e' : EntryData := { e with refs := e.refs - 1 } with he'
      have hglast : getE (setE st id e') id = some e' := by
        rw [getE_setE_self, hget]
        rfl
      have hgother : ∀ id2, id2 ≠ id → getE (setE st id e') id2 = getE st id2 :=
        fun id2 hne => getE_setE_ne st e' hne
      refine ⟨?_, ?_, ?_, hI.lruNodup, hI.inuseNodup, hI.disj, ?_, ?_, ?_, ?_, ?_, ?_, ?_⟩
      · rw [setE_fst]
        exact hI.heapNodup
      · intro id2 hid2
        rw [setE_fst] at hid2
        exact hI.heapLt id2 hid2
      · intro id2 e2 hg2
        by_cases hne : id2 = id
        · subst hne
          rw [hglast] at hg2
          injection hg2 with hh
          subst hh
          simp [he']
          omega
        · rw [hgother id2 hne] at hg2
          exact hI.refsPos id2 e2 hg2
      · intro id2 hmem
        have hne : id2 ≠ id := by
          intro he
          subst he
          exact hI.not_lru_of_refs_ne_one hget (by omega) hmem
        rcases hI.lruSpec id2 hmem with ⟨e2, hg2, hc2, hrr2⟩
        exact ⟨e2, by rw [hgother id2 hne]; exact hg2, hc2, hrr2⟩
      · intro id2 hmem
        by_cases hne : id2 = id
        · subst hne
          rcases hI.inuseSpec id2 hmem with ⟨e2, hg2, hc2, hrr2⟩
          rw [getE_det hg2 hget] at hc2 hrr2
          have hr3 : 3 ≤ e.refs := by
            rcases Nat.lt_or_ge e.refs 3 with hlt | hge
            · exfalso
              exact hmove ⟨hc2, by omega⟩
            · exact hge
          exact ⟨e', hglast, by simp [he']; exact hc2, by simp [he']; omega⟩
        · rcases hI.inuseSpec id2 hmem with ⟨e2, hg2, hc2, hrr2⟩
          exact ⟨e2, by rw [hgother id2 hne]; exact hg2, hc2, hrr2⟩
      · intro id2 e2 hg2 hc2
        by_cases hne : id2 = id
        · subst hne
          rw [hglast] at hg2
          injection hg2 with hh
          subst hh
          simp [he'] at hc2
          exact hI.onList _ e hget hc2
        · rw [hgother id2 hne] at hg2
          exact hI.onList id2 e2 hg2 hc2
      · intro id2 e2 hg2 hc2
        rw [setE_table]
        by_cases hne : id2 = id
        · subst hne
          rw [hglast] at hg2
          injection hg2 with hh
          subst hh
          simp [he'] at hc2
          exact hI.inTable _ e hget hc2
        · rw [hgother id2 hne] at hg2
          exact hI.inTable id2 e2 hg2 hc2
      · rw [setE_table]
        intro c hcm
        rcases hI.tableLive c hcm with ⟨e2, hg2, hc2, hk2, hh2⟩
        by_cases hne : c.id = id
        · rw [hne] at hg2 ⊢
          have := getE_det hg2 hget
          subst this
          exact ⟨e', hglast, by simp [he']; exact hc2, hk2, hh2⟩
        · exact ⟨e2, by rw [hgother c.id hne]; exact hg2, hc2, hk2, hh2⟩
      · show st.usage_ = chargeSum (setE st id e')
        have hcs := chargeSum_setE hI.heapNodup hget e'
        have hlc : liveCharge (id, e) = liveCharge (id, e') := by
          simp [liveCharge, he']
        rw [hlc] at hcs
        have heq : chargeSum (setE st id e') = chargeSum st := by omega
        rw [heq]
        exact hI.usageEq
      · rw [setE_table]
        exact hI.tableWF

/-- `Ref` preserves the shard invariant for any live entry. -/
theorem Ref_inv {st : LRUCacheState} {id : Nat} {e : EntryData} (hI : Inv st)
    (hget : getE st id = some e) : Inv (Ref st id) := by
  have hr1 := hI.refsPos id e hget
  by_cases hmove : e.refs = 1 ∧ e.in_cache = true
  · -- migrate from lru_ to in_use_
    rcases hmove with ⟨hr, hc⟩
    rw [Ref_fromLRU hget hc hr]
    have hidLru : id ∈ st.lru_ := by
      rcases hI.onList id e hget hc with hmem | hmem
      · exact hmem
      · rcases hI.inuseSpec id hmem with ⟨e2, hg2, _, hrr2⟩
        rw [getE_det hg2 hget] at hrr2
        omega
    have hidNotInUse : id ∉ st.in_use_ := hI.disj id hidLru
    set e' : EntryData := { e with refs := e.refs + 1 } with he'
    set stm := appendInUse (LRU_Remove st id) id with hstm
    have hgm : ∀ id2, getE stm id2 = getE st id2 := fun id2 => rfl
    have hglast : getE (setE stm id e') id = some e' := by
      rw [getE_setE_self, hgm, hget]
      rfl
    have hgother : ∀ id2, id2 ≠ id → getE (setE stm id e') id2 = getE st id2 := by
      intro id2 hne
      rw [getE_setE_ne stm e' hne, hgm]
    have hlru : (setE stm id e').lru_ = st.lru_.erase id := by
      simp [hstm]
    have hinuse : (setE stm id e').in_use_ = st.in_use_ ++ [id] := by
      simp [hstm, List.erase_of_not_mem hidNotInUse]
    refine ⟨?_, ?_, ?_, ?_, ?_, ?_, ?_, ?_, ?_, ?_, ?_, ?_, ?_⟩
    · rw [setE_fst]
      show (st.heap.map Prod.fst).Nodup
      exact hI.heapNodup
    · intro id2 hid2
      rw [setE_fst] at hid2
      exact hI.heapLt id2 hid2
    · intro id2 e2 hg2
      by_cases hne : id2 = id
      · subst hne
        rw [hglast] at hg2
        injection hg2 with hh
        subst hh
        simp [he']
      · rw [hgother id2 hne] at hg2
        exact hI.refsPos id2 e2 hg2
    · rw [hlru]
      exact hI.lruNodup.erase id
    · rw [hinuse]
      rw [List.nodup_append]
      exact ⟨hI.inuseNodup, List.nodup_singleton id, by
        intro a ha hb
        simp at hb
        subst hb
        exact hidNotInUse ha⟩
    · rw [hlru, hinuse]
      intro id2 hmem
      have hne : id2 ≠ id := (hI.lruNodup.mem_erase_iff.1 hmem).1
      have hm2 : id2 ∈ st.lru_ := (hI.lruNodup.mem_erase_iff.1 hmem).2
      intro hmem2
      rcases List.mem_append.1 hmem2 with hm3 | hm3
      · exact hI.disj id2 hm2 hm3
      · simp at hm3
        exact hne hm3
    · rw [hlru]
      intro id2 hmem
      have hne : id2 ≠ id := (hI.lruNodup.mem_erase_iff.1 hmem).1
      have hm2 : id2 ∈ st.lru_ := (hI.lruNodup.mem_erase_iff.1 hmem).2
      rcases hI.lruSpec id2 hm2 with ⟨e2, hg2, hc2, hrr2⟩
      exact ⟨e2, by rw [hgother id2 hne]; exact hg2, hc2, hrr2⟩
    · rw [hinuse]
      intro id2 hmem
      rcases List.mem_append.1 hmem with hm2 | hm2
      · have hne : id2 ≠ id := fun he => hidNotInUse (he ▸ hm2)
        rcases hI.inuseSpec id2 hm2 with ⟨e2, hg2, hc2, hrr2⟩
        exact ⟨e2, by rw [hgother id2 hne]; exact hg2, hc2, hrr2⟩
      · simp at hm2
        subst hm2
        refine ⟨e', hglast, by simp [he']; exact hc, ?_⟩
        simp [he']
        omega
    · intro id2 e2 hg2 hc2
      rw [hlru, hinuse]
      by_cases hne : id2 = id
      · subst hne
        right
        exact List.mem_append_right _ (List.mem_singleton.2 rfl)
      · rw [hgother id2 hne] at hg2
        rcases hI.onList id2 e2 hg2 hc2 with hm2 | hm2
        · exact Or.inl (hI.lruNodup.mem_erase_iff.2 ⟨hne, hm2⟩)
        · exact Or.inr (List.mem_append_left _ hm2)
    · intro id2 e2 hg2 hc2
      rw [setE_table]
      by_cases hne : id2 = id
      · subst hne
        rw [hglast] at hg2
        injection hg2 with hh
        subst hh
        exact hI.inTable _ e hget hc
      · rw [hgother id2 hne] at hg2
        exact hI.inTable id2 e2 hg2 hc2
    · rw [setE_table]
      intro c hcm
      rcases hI.tableLive c hcm with ⟨e2, hg2, hc2, hk2, hh2⟩
      by_cases hne : c.id = id
      · rw [hne] at hg2 ⊢
        rw [getE_det hg2 hget] at hc2 hk2 hh2
        exact ⟨e', hglast, by simp [he']; exact hc2, hk2, hh2⟩
      · exact ⟨e2, by rw [hgother c.id hne]; exact hg2, hc2, hk2, hh2⟩
    · show st.usage_ = chargeSum (setE stm id e')
      have hcs := @chargeSum_setE stm hI.heapNodup id e (by rw [hgm, hget]) e'
      have hlc : liveCharge (id, e) = liveCharge (id, e') := by
        simp [liveCharge, he']
      rw [hlc] at hcs
      have heq : chargeSum (setE stm id e') = chargeSum stm := by omega
      rw [heq]
      exact hI.usageEq
    · rw [setE_table]
      exact hI.tableWF
  · -- plain increment
    rw [Ref_incr hget hmove]
    set e' : EntryData := { e with refs := e.refs + 1 } with he'
    have hglast : getE (setE st id e') id = some e' := by
      rw [getE_setE_self, hget]
      rfl
    have hgother : ∀ id2, id2 ≠ id → getE (setE st id e') id2 = getE st id2 :=
      fun id2 hne => getE_setE_ne st e' hne
    have hnotlru : id ∉ st.lru_ := by
      intro hmem
      rcases hI.lruSpec id hmem with ⟨e2, hg2, hc2, hrr2⟩
      rw [getE_det hg2 hget] at hc2 hrr2
      exact hmove ⟨hrr2, hc2⟩
    refine ⟨?_, ?_, ?_, hI.lruNodup, hI.inuseNodup, hI.disj, ?_, ?_, ?_, ?_, ?_, ?_, ?_⟩
    · rw [setE_fst]
      exact hI.heapNodup
    · intro id2 hid2
      rw [setE_fst] at hid2
      exact hI.heapLt id2 hid2
    · intro id2 e2 hg2
      by_cases hne : id2 = id
      · subst hne
        rw [hglast] at hg2
        injection hg2 with hh
        subst hh
        simp [he']
      · rw [hgother id2 hne] at hg2
        exact hI.refsPos id2 e2 hg2
    · intro id2 hmem
      have hne : id2 ≠ id := fun he => hnotlru (he ▸ hmem)
      rcases hI.lruSpec id2 hmem with ⟨e2, hg2, hc2, hrr2⟩
      exact ⟨e2, by rw [hgother id2 hne]; exact hg2, hc2, hrr2⟩
    · intro id2 hmem
      by_cases hne : id2 = id
      · subst hne
        rcases hI.inuseSpec id2 hmem with ⟨e2, hg2, hc2, hrr2⟩
        rw [getE_det hg2 hget] at hc2 hrr2
        refine ⟨e', hglast, by simp [he']; exact hc2, ?_⟩
        simp [he']
        omega
      · rcases hI.inuseSpec id2 hmem with ⟨e2, hg2, hc2, hrr2⟩
        exact ⟨e2, by rw [hgother id2 hne]; exact hg2, hc2, hrr2⟩
    · intro id2 e2 hg2 hc2
      by_cases hne : id2 = id
      · subst hne
        rw [hglast] at hg2
        injection hg2 with hh
        subst hh
        simp [he'] at hc2
        exact hI.onList _ e hget hc2
      · rw [hgother id2 hne] at hg2
        exact hI.onList id2 e2 hg2 hc2
    · intro id2 e2 hg2 hc2
      rw [setE_table]
      by_cases hne : id2 = id
      · subst hne
        rw [hglast] at hg2
        injection hg2 with hh
        subst hh
        simp [he'] at hc2
        exact hI.inTable _ e hget hc2
      · rw [hgother id2 hne] at hg2
        exact hI.inTable id2 e2 hg2 hc2
    · rw [setE_table]
      intro c hcm
      rcases hI.tableLive c hcm with ⟨e2, hg2, hc2, hk2, hh2⟩
      by_cases hne : c.id = id
      · rw [hne] at hg2 ⊢
        rw [getE_det hg2 hget] at hc2 hk2 hh2
        exact ⟨e', hglast, by simp [he']; exact hc2, hk2, hh2⟩
      · exact ⟨e2, by rw [hgother c.id hne]; exact hg2, hc2, hk2, hh2⟩
    · show st.usage_ = chargeSum (setE st id e')
      have hcs := chargeSum_setE hI.heapNodup hget e'
      have hlc : liveCharge (id, e) = liveCharge (id, e') := by
        simp [liveCharge, he']
      rw [hlc] at hcs
      have heq : chargeSum (setE st id e') = chargeSum st := by omega
      rw [heq]
      exact hI.usageEq
    · rw [setE_table]
      exact hI.tableWF


/-- Behaviour and invariant restoration of `FinishErase` on a just-removed
cell. -/
theorem FE_spec {st : LRUCacheState} {c : HTCell} (hIE : InvExcept st c) :
    Inv (FinishErase st (some c)).1.1 ∧ (FinishErase st (some c)).2 = true ∧
    (FinishErase st (some c)).1.1.lru_ = st.lru_.erase c.id ∧
    (FinishErase st (some c)).1.1.in_use_ = st.in_use_.erase c.id ∧
    (∃ e, getE st c.id = some e ∧ e.in_cache = true ∧ e.key = c.key ∧ e.hash = c.hash ∧
      (FinishErase st (some c)).1.1.usage_ = st.usage_ - e.charge ∧
      e.charge ≤ st.usage_ ∧
      (FinishErase st (some c)).1.1.table_ = st.table_ ∧
      (FinishErase st (some c)).1.1.capacity_ = st.capacity_ ∧
      (FinishErase st (some c)).1.1.nextId = st.nextId ∧
      (FinishErase st (some c)).1.1.mutexHeld = st.mutexHeld ∧
      (∀ id2, id2 ≠ c.id → getE (FinishErase st (some c)).1.1 id2 = getE st id2) ∧
      (if e.refs = 1
       then getE (FinishErase st (some c)).1.1 c.id = none ∧
         (FinishErase st (some c)).1.2 =
           [{ key := e.key, value := e.value, underMutex := st.mutexHeld }]
       else getE (FinishErase st (some c)).1.1 c.id =
           some { e with in_cache := false, refs := e.refs - 1 } ∧
         (FinishErase st (some c)).1.2 = [])) := by
  rcases hIE.entry with ⟨e, hget, hc, hkey, hhash⟩
  have hrpos := hIE.refsPos c.id e hget
  set e1 : EntryData := { e with in_cache := false } with he1
  set stC : LRUCacheState :=
    { setE (LRU_Remove st c.id) c.id e1 with
      usage_ := (setE (LRU_Remove st c.id) c.id e1).usage_ - e.charge } with hstC
  have hFE : FinishErase st (some c) = (((Unref stC c.id).1, (Unref stC c.id).2), true) := by
    unfold FinishErase
    dsimp only
    rw [hget]
  have hgC : getE stC c.id = some e1 := by
    show getE (setE (LRU_Remove st c.id) c.id e1) c.id = some e1
    rw [getE_setE_self]
    show (getE st c.id).map _ = _
    rw [hget]
    rfl
  have hgCo : ∀ id2, id2 ≠ c.id → getE stC id2 = getE st id2 := by
    intro id2 hne
    show getE (setE (LRU_Remove st c.id) c.id e1) id2 = getE st id2
    rw [getE_setE_ne _ e1 hne]
    rfl
  have hlruC : stC.lru_ = st.lru_.erase c.id := rfl
  have hinuseC : stC.in_use_ = st.in_use_.erase c.id := rfl
  have husageC : stC.usage_ = st.usage_ - e.charge := rfl
  have htableC : stC.table_ = st.table_ := rfl
  have hcsC : chargeSum stC + e.charge = chargeSum st := by
    have hcs := @chargeSum_setE (LRU_Remove st c.id) hIE.heapNodup c.id e
      (by show getE st c.id = some e; exact hget) e1
    have hl1 : liveCharge (c.id, e) = e.charge := by
      simp [liveCharge, hc]
    have hl2 : liveCharge (c.id, e1) = 0 := by
      simp [liveCharge, he1]
    rw [hl1, hl2] at hcs
    show chargeSum (setE (LRU_Remove st c.id) c.id e1) + e.charge = chargeSum st
    have : chargeSum (LRU_Remove st c.id) = chargeSum st := rfl
    omega
  have hchle : e.charge ≤ st.usage_ := by
    rw [hIE.usageEq]
    omega
  have hInvC : Inv stC := by
    refine ⟨?_, ?_, ?_, ?_, ?_, ?_, ?_, ?_, ?_, ?_, ?_, ?_, ?_⟩
    · show ((setE (LRU_Remove st c.id) c.id e1).heap.map Prod.fst).Nodup
      rw [setE_fst]
      exact hIE.heapNodup
    · intro id2 hid2
      have : id2 ∈ st.heap.map Prod.fst := by
        have h2 : (setE (LRU_Remove st c.id) c.id e1).heap.map Prod.fst =
            st.heap.map Prod.fst := by
          rw [setE_fst]
          rfl
        exact h2 ▸ hid2
      exact hIE.heapLt id2 this
    · intro id2 e2 hg2
      by_cases hne : id2 = c.id
      · subst hne
        rw [hgC] at hg2
        injection hg2 with hh
        subst hh
        simp [he1]
        omega
      · rw [hgCo id2 hne] at hg2
        exact hIE.refsPos id2 e2 hg2
    · rw [hlruC]
      exact hIE.lruNodup.erase _
    · rw [hinuseC]
      exact hIE.inuseNodup.erase _
    · rw [hlruC, hinuseC]
      intro id2 hmem
      have hm2 : id2 ∈ st.lru_ := List.mem_of_mem_erase hmem
      intro hmem2
      exact hIE.disj id2 hm2 (List.mem_of_mem_erase hmem2)
    · rw [hlruC]
      intro id2 hmem
      have hne : id2 ≠ c.id := (hIE.lruNodup.mem_erase_iff.1 hmem).1
      have hm2 : id2 ∈ st.lru_ := (hIE.lruNodup.mem_erase_iff.1 hmem).2
      rcases hIE.lruSpec id2 hm2 with ⟨e2, hg2, hc2, hrr2⟩
      exact ⟨e2, by rw [hgCo id2 hne]; exact hg2, hc2, hrr2⟩
    · rw [hinuseC]
      intro id2 hmem
      have hne : id2 ≠ c.id := (hIE.inuseNodup.mem_erase_iff.1 hmem).1
      have hm2 : id2 ∈ st.in_use_ := (hIE.inuseNodup.mem_erase_iff.1 hmem).2
      rcases hIE.inuseSpec id2 hm2 with ⟨e2, hg2, hc2, hrr2⟩
      exact ⟨e2, by rw [hgCo id2 hne]; exact hg2, hc2, hrr2⟩
    · intro id2 e2 hg2 hc2
      rw [hlruC, hinuseC]
      by_cases hne : id2 = c.id
      · subst hne
        rw [hgC] at hg2
        injection hg2 with hh
        subst hh
        simp [he1] at hc2
      · rw [hgCo id2 hne] at hg2
        rcases hIE.onList id2 e2 hg2 hc2 with hm2 | hm2
        · exact Or.inl (hIE.lruNodup.mem_erase_iff.2 ⟨hne, hm2⟩)
        · exact Or.inr (hIE.inuseNodup.mem_erase_iff.2 ⟨hne, hm2⟩)
    · intro id2 e2 hg2 hc2
      rw [htableC]
      by_cases hne : id2 = c.id
      · subst hne
        rw [hgC] at hg2
        injection hg2 with hh
        subst hh
        simp [he1] at hc2
      · rw [hgCo id2 hne] at hg2
        exact hIE.inTable id2 e2 hg2 hc2 hne
    · rw [htableC]
      intro c2 hcm
      have hne := hIE.noCid c2 hcm
      rcases hIE.tableLive c2 hcm with ⟨e2, hg2, hc2, hk2, hh2⟩
      exact ⟨e2, by rw [hgCo c2.id hne]; exact hg2, hc2, hk2, hh2⟩
    · rw [husageC, hIE.usageEq]
      omega
    · rw [htableC]
      exact hIE.tableWF
  have hcond1 : e1.in_cache = true → 2 ≤ e1.refs := by
    intro hx
    rw [he1] at hx
    simp at hx
  have hmxC : stC.mutexHeld = st.mutexHeld := rfl
  have hInvU : Inv (Unref stC c.id).1 := Unref_inv hInvC hgC hcond1
  rw [hFE]
  by_cases hr1ck : e.refs = 1
  · have he1r : e1.refs = 1 := hr1ck
    have hU := Unref_dead hgC he1r
    refine ⟨hInvU, rfl, ?_, ?_, e, hget, hc, hkey, hhash, ?_, hchle, ?_, ?_, ?_, ?_, ?_, ?_⟩
    · rw [hU]
      rfl
    · rw [hU]
      rfl
    · rw [hU]
      rfl
    · rw [hU]
      rfl
    · rw [hU]
      rfl
    · rw [hU]
      rfl
    · rw [hU]
      rfl
    · intro id2 hne
      rw [hU]
      show getE (freeE stC c.id) id2 = getE st id2
      rw [getE_freeE_ne stC hne]
      exact hgCo id2 hne
    · rw [if_pos hr1ck]
      constructor
      · rw [hU]
        exact getE_freeE_self stC c.id
      · rw [hU]
        rfl
  · have hr2 : 2 ≤ e.refs := by omega
    have he1r : 2 ≤ e1.refs := hr2
    have hU := Unref_dec hgC he1r (by
      intro hx
      have hx1 := hx.1
      rw [he1] at hx1
      simp at hx1)
    refine ⟨hInvU, rfl, ?_, ?_, e, hget, hc, hkey, hhash, ?_, hchle, ?_, ?_, ?_, ?_, ?_, ?_⟩
    · rw [hU]
      rfl
    · rw [hU]
      rfl
    · rw [hU]
      rfl
    · rw [hU]
      rfl
    · rw [hU]
      rfl
    · rw [hU]
      rfl
    · rw [hU]
      rfl
    · intro id2 hne
      rw [hU]
      show getE (setE stC c.id _) id2 = getE st id2
      rw [getE_setE_ne stC _ hne]
      exact hgCo id2 hne
    · rw [if_neg hr1ck]
      constructor
      · rw [hU]
        show getE (setE stC c.id _) c.id = _
        rw [getE_setE_self, hgC]
        rfl
      · rw [hU]

theorem setMutex_eta (st : LRUCacheState) (h : st.mutexHeld = false) :
    { st with mutexHeld := false } = st := by
  cases st
  simp only at h
  rw [h]

/-- An `Erase`-style step on a key absent from the table is a no-op. -/
theorem eraseStep_none {st : LRUCacheState} {key : Key} {hash : Nat}
    (hL : st.table_.Lookup key hash = none) :
    FinishErase { st with table_ := (st.table_.Remove key hash).1 }
      (st.table_.Remove key hash).2 = ((st, []), false) := by
  rw [HandleTable.Remove_none_eq hL]
  rfl

/-- An `Erase`-style step (table `Remove` followed by `FinishErase`) on a
present key: the entry leaves the table, its list and the usage account, the
key stops being findable, and the deleter fires exactly when the cache held
the last reference. -/
theorem eraseStep_some {st : LRUCacheState} {key : Key} {hash : Nat} {c : HTCell}
    (hI : Inv st) (hL : st.table_.Lookup key hash = some c) :
    ∃ e, getE st c.id = some e ∧ e.in_cache = true ∧ e.key = key ∧ e.hash = hash ∧
      c.key = key ∧ c.hash = hash ∧
      (Inv (FinishErase { st with table_ := (st.table_.Remove key hash).1 }
          (st.table_.Remove key hash).2).1.1 ∧
       (FinishErase { st with table_ := (st.table_.Remove key hash).1 }
          (st.table_.Remove key hash).2).2 = true ∧
       (FinishErase { st with table_ := (st.table_.Remove key hash).1 }
          (st.table_.Remove key hash).2).1.1.lru_ = st.lru_.erase c.id ∧
       (FinishErase { st with table_ := (st.table_.Remove key hash).1 }
          (st.table_.Remove key hash).2).1.1.in_use_ = st.in_use_.erase c.id ∧
       (FinishErase { st with table_ := (st.table_.Remove key hash).1 }
          (st.table_.Remove key hash).2).1.1.usage_ = st.usage_ - e.charge ∧
       e.charge ≤ st.usage_ ∧
       (FinishErase { st with table_ := (st.table_.Remove key hash).1 }
          (st.table_.Remove key hash).2).1.1.capacity_ = st.capacity_ ∧
       (FinishErase { st with table_ := (st.table_.Remove key hash).1 }
          (st.table_.Remove key hash).2).1.1.nextId = st.nextId ∧
       (FinishErase { st with table_ := (st.table_.Remove key hash).1 }
          (st.table_.Remove key hash).2).1.1.mutexHeld = st.mutexHeld ∧
       (FinishErase { st with table_ := (st.table_.Remove key hash).1 }
          (st.table_.Remove key hash).2).1.1.table_.Lookup key hash = none ∧
       (∀ id2, id2 ≠ c.id →
         getE (FinishErase { st with table_ := (st.table_.Remove key hash).1 }
            (st.table_.Remove key hash).2).1.1 id2 = getE st id2) ∧
       (if e.refs = 1
        then getE (FinishErase { st with table_ := (st.table_.Remove key hash).1 }
            (st.table_.Remove key hash).2).1.1 c.id = none ∧
          (FinishErase { st with table_ := (st.table_.Remove key hash).1 }
            (st.table_.Remove key hash).2).1.2 =
            [{ key := e.key, value := e.value, underMutex := st.mutexHeld }]
        else getE (FinishErase { st with table_ := (st.table_.Remove key hash).1 }
            (st.table_.Remove key hash).2).1.1 c.id =
            some { e with in_cache := false, refs := e.refs - 1 } ∧
          (FinishErase { st with table_ := (st.table_.Remove key hash).1 }
            (st.table_.Remove key hash).2).1.2 = [])) := by
  have hsnd : (st.table_.Remove key hash).2 = some c := by
    rw [HandleTable.Remove_snd]
    exact hL
  rcases HandleTable.Remove_some_spec hI.tableWF hL with
    ⟨A, B, hcells, hcellsR, helemsR, hlenR, hwfR⟩
  rcases HandleTable.Lookup_some hL with ⟨hcmem, hchash, hckey⟩
  rcases HandleTable.pairwise_decomp hI.tableWF.uniq hcells with ⟨hcA, hcB, hrel⟩
  rcases hI.tableLive c hcmem with ⟨e, hget, hc, hkey, hhash⟩
  set st2 : LRUCacheState := { st with table_ := (st.table_.Remove key hash).1 } with hst2
  have hmemAB : ∀ c2, c2 ∈ A ++ B → c2 ∈ HandleTable.cells st.table_ := by
    intro c2 hm
    rw [hcells]
    rcases List.mem_append.1 hm with h2 | h2
    · exact List.mem_append_left _ h2
    · exact List.mem_append_right _ (List.mem_cons_of_mem _ h2)
  have hcells2 : HandleTable.cells st2.table_ = A ++ B := hcellsR
  have hIE : InvExcept st2 c := by
    refine ⟨hI.heapNodup, hI.heapLt, hI.refsPos, hI.lruNodup, hI.inuseNodup, hI.disj,
      hI.lruSpec, hI.inuseSpec, hI.onList, ⟨e, hget, hc, hkey, hhash⟩, ?_, ?_, ?_,
      hI.usageEq, hwfR⟩
    · intro id2 e2 hg2 hc2 hne
      have hcell := hI.inTable id2 e2 hg2 hc2
      rw [hcells] at hcell
      rw [hcells2]
      rcases List.mem_append.1 hcell with h2 | h2
      · exact List.mem_append_left _ h2
      · rcases List.mem_cons.1 h2 with he2 | h3
        · exfalso
          apply hne
          have : c.id = id2 := by rw [← he2]
          omega
        · exact List.mem_append_right _ h3
    · intro c2 hm2
      rw [hcells2] at hm2
      intro hid2
      rcases hI.tableLive c2 (hmemAB c2 hm2) with ⟨e2, hg2, hc2, hk2, hh2⟩
      rw [hid2] at hg2
      rw [getE_det hg2 hget] at hk2 hh2
      exact hrel c2 hm2 ⟨by rw [← hk2, hkey], by rw [← hh2, hhash]⟩
    · intro c2 hm2
      rw [hcells2] at hm2
      exact hI.tableLive c2 (hmemAB c2 hm2)
  have hFE := FE_spec hIE
  rw [hsnd]
  rcases hFE with ⟨hInv, htrue, hlru, hinuse, e2, hget2, hc2, hk2, hh2, husage, hle,
    htable, hcap, hnext, hmx, hframe, hite⟩
  have hee : e2 = e := by
    have : getE st c.id = some e2 := hget2
    exact getE_det this hget
  subst hee
  refine ⟨e2, hget, hc, by rw [hk2, hckey], by rw [hh2, hchash], hckey, hchash,
    hInv, htrue, hlru, hinuse, husage, hle, hcap, hnext, hmx, ?_, hframe, hite⟩
  rw [htable]
  show HandleTable.Lookup (st.table_.Remove key hash).1 key hash = none
  rw [HandleTable.Lookup_eq_none_iff hwfR]
  intro c2 hm2 hmm
  rw [hcellsR] at hm2
  exact hrel c2 hm2 ⟨by rw [hmm.2, hckey], by rw [hmm.1, hchash]⟩

theorem FinishErase_none (st : LRUCacheState) :
    FinishErase st none = ((st, []), false) := rfl

/-- `Erase` of an absent key is a strict no-op: same state, no deleter. -/
theorem Erase_absent {st : LRUCacheState} {key : Key} {hash : Nat}
    (hmx : st.mutexHeld = false) (hL : st.table_.Lookup key hash = none) :
    Erase st key hash = (st, []) := by
  unfold Erase
  dsimp only
  rw [HandleTable.Remove_none_eq hL]
  rw [FinishErase_none]
  dsimp only
  rw [setMutex_eta st hmx]

/-- `Erase` of a present key: the entry leaves the lists, the index and the
usage account; the deleter fires under the mutex iff the cache held the last
reference, and the key stops being findable. -/
theorem Erase_some {st : LRUCacheState} {key : Key} {hash : Nat} {c : HTCell}
    (hI : Inv st) (hL : st.table_.Lookup key hash = some c) :
    ∃ e, getE st c.id = some e ∧ e.in_cache = true ∧ e.key = key ∧ e.hash = hash ∧
      Inv (Erase st key hash).1 ∧
      (Erase st key hash).1.lru_ = st.lru_.erase c.id ∧
      (Erase st key hash).1.in_use_ = st.in_use_.erase c.id ∧
      (Erase st key hash).1.usage_ = st.usage_ - e.charge ∧
      e.charge ≤ st.usage_ ∧
      (Erase st key hash).1.capacity_ = st.capacity_ ∧
      (Erase st key hash).1.nextId = st.nextId ∧
      (Erase st key hash).1.mutexHeld = false ∧
      (Erase st key hash).1.table_.Lookup key hash = none ∧
      (∀ id2, id2 ≠ c.id → getE (Erase st key hash).1 id2 = getE st id2) ∧
      (if e.refs = 1
       then getE (Erase st key hash).1 c.id = none ∧
         (Erase st key hash).2 = [{ key := e.key, value := e.value, underMutex := true }]
       else getE (Erase st key hash).1 c.id =
           some { e with in_cache := false, refs := e.refs - 1 } ∧
         (Erase st key hash).2 = []) := by
  have hbundle := @eraseStep_some { st with mutexHeld := true } key hash c
    (hI.mutex true) hL
  rcases hbundle with ⟨e, hget, hc, hkey, hhash, hck, hch,
    hInv, htrue, hlru, hinuse, husage, hle, hcap, hnext, hmx, hLnone, hframe, hite⟩
  refine ⟨e, hget, hc, hkey, hhash, hInv.mutex false, hlru, hinuse, husage, hle,
    hcap, hnext, rfl, hLnone, hframe, ?_⟩
  by_cases hr1 : e.refs = 1
  · rw [if_pos hr1]
    rw [if_pos hr1] at hite
    exact hite
  · rw [if_neg hr1]
    rw [if_neg hr1] at hite
    exact hite

/-- `Lookup` preserves the invariant. -/
theorem Lookup_inv {st : LRUCacheState} (hI : Inv st) (key : Key) (hash : Nat) :
    Inv (Lookup st key hash).1 := by
  unfold Lookup
  dsimp only
  cases hL : HandleTable.Lookup st.table_ key hash with
  | none => exact (hI.mutex true).mutex false
  | some c =>
    rcases hI.tableLive c (HandleTable.Lookup_some hL).1 with ⟨e, hget, hc, _, _⟩
    exact (@Ref_inv { st with mutexHeld := true } c.id e (hI.mutex true) hget).mutex false

/-- The handle returned by `Lookup` is the id of the cell found in the hash
index. -/
theorem Lookup_snd (st : LRUCacheState) (key : Key) (hash : Nat) :
    (Lookup st key hash).2 = (st.table_.Lookup key hash).map (fun c => c.id) := rfl

theorem getE_head {st : LRUCacheState} {id : Nat} {e : EntryData}
    {rest : List (Nat × EntryData)} (h : st.heap = (id, e) :: rest) :
    getE st id = some e := by
  unfold getE
  rw [h, List.find?_cons]
  simp

theorem getE_tail {st st2 : LRUCacheState} {id : Nat} {e : EntryData}
    {rest : List (Nat × EntryData)} (h : st.heap = (id, e) :: rest)
    (h2 : st2.heap = rest) {id2 : Nat} (hne : id2 ≠ id) :
    getE st id2 = getE st2 id2 := by
  unfold getE
  rw [h, h2, List.find?_cons]
  have hb : (id == id2) = false := by simp; omega
  rw [hb]

/-- Allocation and bookkeeping of `Insert`, before the eviction loop: the
fresh entry is returned as the handle; with positive capacity it is cached
with `refs = 2` on `in_use_`, the charge is added and a displaced duplicate
is finish-erased; with capacity 0 nothing but the allocation happens. -/
theorem insertBookkeep_spec {st : LRUCacheState} (hI : Inv st)
    (key : Key) (hash value charge : Nat) :
    Inv (insertBookkeep st key hash value charge).1.1 ∧
    (insertBookkeep st key hash value charge).2 = st.nextId ∧
    (insertBookkeep st key hash value charge).1.1.capacity_ = st.capacity_ ∧
    (insertBookkeep st key hash value charge).1.1.mutexHeld = st.mutexHeld ∧
    (∀ d ∈ (insertBookkeep st key hash value charge).1.2,
      d.underMutex = st.mutexHeld) ∧
    (st.capacity_ = 0 →
      (insertBookkeep st key hash value charge).1.1 =
        { st with
          heap := (st.nextId,
            { key := key, hash := hash, value := value, charge := charge,
              in_cache := false, refs := 1 }) :: st.heap,
          nextId := st.nextId + 1 } ∧
      (insertBookkeep st key hash value charge).1.2 = []) ∧
    (0 < st.capacity_ →
      getE (insertBookkeep st key hash value charge).1.1 st.nextId =
        some { key := key, hash := hash, value := value, charge := charge,
               in_cache := true, refs := 2 }) := by
  have hfresh : st.nextId ∉ st.heap.map Prod.fst := by
    intro hmem
    have := hI.heapLt st.nextId hmem
    omega
  have hnotlru : st.nextId ∉ st.lru_ := by
    intro hmem
    rcases hI.lruSpec st.nextId hmem with ⟨e2, hg2, _, _⟩
    exact hfresh (getE_some_mem_fst hg2)
  have hnotinuse : st.nextId ∉ st.in_use_ := by
    intro hmem
    rcases hI.inuseSpec st.nextId hmem with ⟨e2, hg2, _, _⟩
    exact hfresh (getE_some_mem_fst hg2)
  have hnocell : ∀ c ∈ HandleTable.cells st.table_, c.id ≠ st.nextId := by
    intro c hc he
    rcases hI.tableLive c hc with ⟨e2, hg2, _, _⟩
    rw [he] at hg2
    exact hfresh (getE_some_mem_fst hg2)
  by_cases hcap : st.capacity_ > 0
  · -- capacity positive: full bookkeeping
    set st0 : LRUCacheState :=
      { st with
        heap := (st.nextId,
          { key := key, hash := hash, value := value, charge := charge,
            in_cache := false, refs := 1 }) :: st.heap,
        nextId := st.nextId + 1 } with hst0
    set stA : LRUCacheState := setE st0 st.nextId
      { key := key, hash := hash, value := value, charge := charge,
        in_cache := true, refs := 2 } with hstA
    set stD : LRUCacheState :=
      { capacity_ := st.capacity_, usage_ := st.usage_ + charge,
        lru_ := st.lru_, in_use_ := st.in_use_ ++ [st.nextId],
        table_ := (st.table_.Insert
          { key := key, hash := hash, id := st.nextId }).1,
        heap := stA.heap, nextId := st.nextId + 1,
        mutexHeld := st.mutexHeld } with hstD
    have hres : insertBookkeep st key hash value charge =
        ((FinishErase stD
          (st.table_.Insert { key := key, hash := hash, id := st.nextId }).2).1,
         st.nextId) := by
      unfold insertBookkeep
      dsimp only
      rw [if_pos hcap]
      rfl
    have hgA0 : getE stA st.nextId =
        some { key := key, hash := hash, value := value, charge := charge,
               in_cache := true, refs := 2 } := by
      rw [hstA, getE_setE_self, @getE_head st0 _ _ _ rfl]
      rfl
    have hgAo : ∀ id2, id2 ≠ st.nextId → getE stA id2 = getE st id2 := by
      intro id2 hne
      rw [hstA, getE_setE_ne _ _ hne]
      exact getE_tail rfl rfl hne
    have hgD0 : getE stD st.nextId =
        some { key := key, hash := hash, value := value, charge := charge,
               in_cache := true, refs := 2 } := hgA0
    have hgDo : ∀ id2, id2 ≠ st.nextId → getE stD id2 = getE st id2 := hgAo
    have hfstD : stD.heap.map Prod.fst = st.nextId :: st.heap.map Prod.fst := by
      show stA.heap.map Prod.fst = _
      rw [hstA, heap_fst_setE, hst0]
      rfl
    have hcsD : chargeSum stD = chargeSum st + charge := by
      have hcs0 : chargeSum st0 = chargeSum st := by
        show (List.map liveCharge ((st.nextId,
          { key := key, hash := hash, value := value, charge := charge,
            in_cache := false, refs := 1 }) :: st.heap)).sum = chargeSum st
        rw [List.map_cons, List.sum_cons]
        show liveCharge _ + chargeSum st = chargeSum st
        have : liveCharge (st.nextId,
            { key := key, hash := hash, value := value, charge := charge,
              in_cache := false, refs := 1 }) = 0 := by
          unfold liveCharge
          simp
        omega
      have hnd0 : (st0.heap.map Prod.fst).Nodup := by
        rw [hst0]
        show (List.map Prod.fst ((st.nextId, _) :: st.heap)).Nodup
        rw [List.map_cons]
        exact List.nodup_cons.2 ⟨hfresh, hI.heapNodup⟩
      have hg00 : getE st0 st.nextId =
          some { key := key, hash := hash, value := value, charge := charge,
                 in_cache := false, refs := 1 } := getE_head rfl
      have hcs := chargeSum_setE hnd0 hg00
        { key := key, hash := hash, value := value, charge := charge,
          in_cache := true, refs := 2 }
      have hl0 : liveCharge (st.nextId,
          { key := key, hash := hash, value := value, charge := charge,
            in_cache := false, refs := 1 }) = 0 := by
        unfold liveCharge
        simp
      have hl1 : liveCharge (st.nextId,
          { key := key, hash := hash, value := value, charge := charge,
            in_cache := true, refs := 2 }) = charge := by
        unfold liveCharge
        simp
      rw [hl0, hl1] at hcs
      show chargeSum stA = chargeSum st + charge
      rw [hstA]
      omega
    -- shared invariant fields of stD, except the table-related ones
    have hheapNodup : (stD.heap.map Prod.fst).Nodup := by
      rw [hfstD]
      exact List.nodup_cons.2 ⟨hfresh, hI.heapNodup⟩
    have hheapLt : ∀ id2 ∈ stD.heap.map Prod.fst, id2 < stD.nextId := by
      rw [hfstD]
      intro id2 hid2
      show id2 < st.nextId + 1
      rcases List.mem_cons.1 hid2 with he | h2
      · omega
      · have := hI.heapLt id2 h2
        omega
    have hrefsPos : ∀ id2 e2, getE stD id2 = some e2 → 1 ≤ e2.refs := by
      intro id2 e2 hg2
      by_cases hne : id2 = st.nextId
      · subst hne
        rw [hgD0] at hg2
        injection hg2 with hh
        subst hh
        simp
      · rw [hgDo id2 hne] at hg2
        exact hI.refsPos id2 e2 hg2
    have hlruNodup : stD.lru_.Nodup := hI.lruNodup
    have hinuseNodup : stD.in_use_.Nodup := by
      show (st.in_use_ ++ [st.nextId]).Nodup
      rw [List.nodup_append]
      exact ⟨hI.inuseNodup, List.nodup_singleton _, by
        intro a ha hb
        simp at hb
        subst hb
        exact hnotinuse ha⟩
    have hdisjD : ∀ id2 ∈ stD.lru_, id2 ∉ stD.in_use_ := by
      intro id2 hmem hmem2
      rcases List.mem_append.1 hmem2 with h2 | h2
      · exact hI.disj id2 hmem h2
      · simp at h2
        subst h2
        exact hnotlru hmem
    have hlruSpecD : ∀ id2 ∈ stD.lru_,
        ∃ e2, getE stD id2 = some e2 ∧ e2.in_cache = true ∧ e2.refs = 1 := by
      intro id2 hmem
      have hne : id2 ≠ st.nextId := fun he => hnotlru (he ▸ hmem)
      rcases hI.lruSpec id2 hmem with ⟨e2, hg2, hc2, hr2⟩
      exact ⟨e2, by rw [hgDo id2 hne]; exact hg2, hc2, hr2⟩
    have hinuseSpecD : ∀ id2 ∈ stD.in_use_,
        ∃ e2, getE stD id2 = some e2 ∧ e2.in_cache = true ∧ 2 ≤ e2.refs := by
      intro id2 hmem
      rcases List.mem_append.1 hmem with h2 | h2
      · have hne : id2 ≠ st.nextId := fun he => hnotinuse (he ▸ h2)
        rcases hI.inuseSpec id2 h2 with ⟨e2, hg2, hc2, hr2⟩
        exact ⟨e2, by rw [hgDo id2 hne]; exact hg2, hc2, hr2⟩
      · simp at h2
        subst h2
        exact ⟨_, hgD0, rfl, by simp⟩
    have honListD : ∀ id2 e2, getE stD id2 = some e2 → e2.in_cache = true →
        id2 ∈ stD.lru_ ∨ id2 ∈ stD.in_use_ := by
      intro id2 e2 hg2 hc2
      by_cases hne : id2 = st.nextId
      · subst hne
        right
        exact List.mem_append_right _ (List.mem_singleton.2 rfl)
      · rw [hgDo id2 hne] at hg2
        rcases hI.onList id2 e2 hg2 hc2 with h2 | h2
        · exact Or.inl h2
        · exact Or.inr (List.mem_append_left _ h2)
    have husageD : stD.usage_ = chargeSum stD := by
      show st.usage_ + charge = chargeSum stD
      rw [hcsD, hI.usageEq]
    cases hdisp : st.table_.Lookup key hash with
    | none =>
      rcases @HandleTable.Insert_none_spec st.table_
          { key := key, hash := hash, id := st.nextId } hI.tableWF hdisp with
        ⟨hperm, helems, hwfD, hlen⟩
      have htsnd : (st.table_.Insert { key := key, hash := hash, id := st.nextId }).2
          = none := by
        rw [HandleTable.Insert_snd]
        exact hdisp
      have hInvD : Inv stD := by
        refine ⟨hheapNodup, hheapLt, hrefsPos, hlruNodup, hinuseNodup, hdisjD,
          hlruSpecD, hinuseSpecD, honListD, ?_, ?_, husageD, hwfD⟩
        · intro id2 e2 hg2 hc2
          have hmemiff := hperm.mem_iff
            (a := ({ key := e2.key, hash := e2.hash, id := id2 } : HTCell))
          by_cases hne : id2 = st.nextId
          · subst hne
            rw [hgD0] at hg2
            injection hg2 with hh
            subst hh
            exact hmemiff.2 (List.mem_cons_self _ _)
          · rw [hgDo id2 hne] at hg2
            exact hmemiff.2
              (List.mem_cons_of_mem _ (hI.inTable id2 e2 hg2 hc2))
        · intro c2 hc2
          have hc3 := hperm.mem_iff.1 hc2
          rcases List.mem_cons.1 hc3 with rfl | h3
          · exact ⟨_, hgD0, rfl, rfl, rfl⟩
          · have hne := hnocell c2 h3
            rcases hI.tableLive c2 h3 with ⟨e2, hg2, hcc2, hk2, hh2⟩
            exact ⟨e2, by rw [hgDo c2.id hne]; exact hg2, hcc2, hk2, hh2⟩
      rw [hres, htsnd, FinishErase_none]
      refine ⟨hInvD, rfl, rfl, rfl, ?_, ?_, ?_⟩
      · intro d hd
        simp at hd
      · intro h0
        omega
      · intro h0
        exact hgD0
    | some c =>
      have htsnd : (st.table_.Insert { key := key, hash := hash, id := st.nextId }).2
          = some c := by
        rw [HandleTable.Insert_snd]
        exact hdisp
      rcases @HandleTable.Insert_some_spec st.table_
          { key := key, hash := hash, id := st.nextId } c hI.tableWF hdisp with
        ⟨A, B, hcellsT, hcellsD, helemsD, hlenD, hwfD⟩
      rcases HandleTable.Lookup_some hdisp with ⟨hcmem, hchash, hckey⟩
      rcases HandleTable.pairwise_decomp hI.tableWF.uniq hcellsT with ⟨hcA, hcB, hrel⟩
      rcases hI.tableLive c hcmem with ⟨eOld, hgetOld, hcOld, hkOld, hhOld⟩
      have hcidne : c.id ≠ st.nextId := hnocell c hcmem
      have hIE : InvExcept stD c := by
        refine ⟨hheapNodup, hheapLt, hrefsPos, hlruNodup, hinuseNodup, hdisjD,
          hlruSpecD, hinuseSpecD, honListD, ?_, ?_, ?_, ?_, husageD, hwfD⟩
        · exact ⟨eOld, by rw [hgDo c.id hcidne]; exact hgetOld, hcOld, hkOld, hhOld⟩
        · intro id2 e2 hg2 hc2 hne
          rw [hcellsD]
          by_cases hnew : id2 = st.nextId
          · subst hnew
            rw [hgD0] at hg2
            injection hg2 with hh
            subst hh
            exact List.mem_append_right _ (List.mem_cons_self _ _)
          · rw [hgDo id2 hnew] at hg2
            have hcell := hI.inTable id2 e2 hg2 hc2
            rw [hcellsT] at hcell
            rcases List.mem_append.1 hcell with h2 | h2
            · exact List.mem_append_left _ h2
            · rcases List.mem_cons.1 h2 with he2 | h3
              · exfalso
                apply hne
                have : c.id = id2 := by rw [← he2]
                omega
              · exact List.mem_append_right _ (List.mem_cons_of_mem _ h3)
        · intro c2 hm2
          rw [hcellsD] at hm2
          intro hid2
          rcases List.mem_append.1 hm2 with h2 | h2
          · have hmT : c2 ∈ HandleTable.cells st.table_ := by
              rw [hcellsT]
              exact List.mem_append_left _ h2
            rcases hI.tableLive c2 hmT with ⟨e2, hg2, hcc2, hk2, hh2⟩
            rw [hid2] at hg2
            rw [getE_det hg2 hgetOld] at hk2 hh2
            exact hrel c2 (List.mem_append_left _ h2)
              ⟨by rw [← hk2, hkOld], by rw [← hh2, hhOld]⟩
          · rcases List.mem_cons.1 h2 with he2 | h3
            · subst he2
              exact hcidne hid2.symm
            · have hmT : c2 ∈ HandleTable.cells st.table_ := by
                rw [hcellsT]
                exact List.mem_append_right _ (List.mem_cons_of_mem _ h3)
              rcases hI.tableLive c2 hmT with ⟨e2, hg2, hcc2, hk2, hh2⟩
              rw [hid2] at hg2
              rw [getE_det hg2 hgetOld] at hk2 hh2
              exact hrel c2 (List.mem_append_right _ h3)
                ⟨by rw [← hk2, hkOld], by rw [← hh2, hhOld]⟩
        · intro c2 hm2
          rw [hcellsD] at hm2
          rcases List.mem_append.1 hm2 with h2 | h2
          · have hmT : c2 ∈ HandleTable.cells st.table_ := by
              rw [hcellsT]
              exact List.mem_append_left _ h2
            have hne := hnocell c2 hmT
            rcases hI.tableLive c2 hmT with ⟨e2, hg2, hcc2, hk2, hh2⟩
            exact ⟨e2, by rw [hgDo c2.id hne]; exact hg2, hcc2, hk2, hh2⟩
          · rcases List.mem_cons.1 h2 with he2 | h3
            · subst he2
              exact ⟨_, hgD0, rfl, rfl, rfl⟩
            · have hmT : c2 ∈ HandleTable.cells st.table_ := by
                rw [hcellsT]
                exact List.mem_append_right _ (List.mem_cons_of_mem _ h3)
              have hne := hnocell c2 hmT
              rcases hI.tableLive c2 hmT with ⟨e2, hg2, hcc2, hk2, hh2⟩
              exact ⟨e2, by rw [hgDo c2.id hne]; exact hg2, hcc2, hk2, hh2⟩
      rcases FE_spec hIE with ⟨hInvF, htrueF, hlruF, hinuseF, eF, hgetF, hcF, hkF, hhF,
        husageF, hleF, htableF, hcapF, hnextF, hmxF, hframeF, hiteF⟩
      have heeF : eF = eOld := by
        have h2 : getE stD c.id = some eF := hgetF
        rw [hgDo c.id hcidne] at h2
        exact getE_det h2 hgetOld
      subst heeF
      rw [hres, htsnd]
      refine ⟨hInvF, rfl, ?_, ?_, ?_, ?_, ?_⟩
      · rw [hcapF]
      · rw [hmxF]
      · intro d hd
        by_cases hr1 : eF.refs = 1
        · rw [if_pos hr1] at hiteF
          rw [hiteF.2] at hd
          rcases List.mem_cons.1 hd with rfl | h2
          · rfl
          · simp at h2
        · rw [if_neg hr1] at hiteF
          rw [hiteF.2] at hd
          simp at hd
      · intro h0
        omega
      · intro h0
        rw [hframeF st.nextId (fun he => hcidne he.symm)]
        exact hgD0
  · -- capacity zero
    have hcap0 : st.capacity_ = 0 := by omega
    have hres : insertBookkeep st key hash value charge =
        (({ st with
            heap := (st.nextId,
              { key := key, hash := hash, value := value, charge := charge,
                in_cache := false, refs := 1 }) :: st.heap,
            nextId := st.nextId + 1 }, []), st.nextId) := by
      unfold insertBookkeep
      dsimp only
      rw [if_neg hcap]
    rw [hres]
    set stN : LRUCacheState :=
      { st with
        heap := (st.nextId,
          { key := key, hash := hash, value := value, charge := charge,
            in_cache := false, refs := 1 }) :: st.heap,
        nextId := st.nextId + 1 } with hstN
    have hgN0 : getE stN st.nextId =
        some { key := key, hash := hash, value := value, charge := charge,
               in_cache := false, refs := 1 } := getE_head rfl
    have hgNo : ∀ id2, id2 ≠ st.nextId → getE stN id2 = getE st id2 := by
      intro id2 hne
      exact getE_tail rfl rfl hne
    have hInvN : Inv stN := by
      refine ⟨?_, ?_, ?_, hI.lruNodup, hI.inuseNodup, hI.disj, ?_, ?_, ?_, ?_, ?_, ?_,
        hI.tableWF⟩
      · show (List.map Prod.fst ((st.nextId, _) :: st.heap)).Nodup
        rw [List.map_cons]
        exact List.nodup_cons.2 ⟨hfresh, hI.heapNodup⟩
      · show ∀ id2 ∈ List.map Prod.fst ((st.nextId, _) :: st.heap), id2 < st.nextId + 1
        intro id2 hid2
        rw [List.map_cons] at hid2
        rcases List.mem_cons.1 hid2 with rfl | h2
        · omega
        · have := hI.heapLt id2 h2
          omega
      · intro id2 e2 hg2
        by_cases hne : id2 = st.nextId
        · subst hne
          rw [hgN0] at hg2
          injection hg2 with hh
          subst hh
          simp
        · rw [hgNo id2 hne] at hg2
          exact hI.refsPos id2 e2 hg2
      · intro id2 hmem
        have hne : id2 ≠ st.nextId := fun he => hnotlru (he ▸ hmem)
        rcases hI.lruSpec id2 hmem with ⟨e2, hg2, hc2, hr2⟩
        exact ⟨e2, by rw [hgNo id2 hne]; exact hg2, hc2, hr2⟩
      · intro id2 hmem
        have hne : id2 ≠ st.nextId := fun he => hnotinuse (he ▸ hmem)
        rcases hI.inuseSpec id2 hmem with ⟨e2, hg2, hc2, hr2⟩
        exact ⟨e2, by rw [hgNo id2 hne]; exact hg2, hc2, hr2⟩
      · intro id2 e2 hg2 hc2
        by_cases hne : id2 = st.nextId
        · subst hne
          rw [hgN0] at hg2
          injection hg2 with hh
          subst hh
          simp at hc2
        · rw [hgNo id2 hne] at hg2
          exact hI.onList id2 e2 hg2 hc2
      · intro id2 e2 hg2 hc2
        by_cases hne : id2 = st.nextId
        · subst hne
          rw [hgN0] at hg2
          injection hg2 with hh
          subst hh
          simp at hc2
        · rw [hgNo id2 hne] at hg2
          exact hI.inTable id2 e2 hg2 hc2
      · intro c2 hc2
        have hne := hnocell c2 hc2
        rcases hI.tableLive c2 hc2 with ⟨e2, hg2, hcc2, hk2, hh2⟩
        exact ⟨e2, by rw [hgNo c2.id hne]; exact hg2, hcc2, hk2, hh2⟩
      · show st.usage_ = chargeSum stN
        have hcs : chargeSum stN = chargeSum st := by
          show (List.map liveCharge ((st.nextId, _) :: st.heap)).sum = chargeSum st
          rw [List.map_cons, List.sum_cons]
          show liveCharge _ + chargeSum st = chargeSum st
          have hl : liveCharge (st.nextId,
              { key := key, hash := hash, value := value, charge := charge,
                in_cache := false, refs := 1 }) = 0 := by
            unfold liveCharge
            simp
          omega
        rw [hcs]
        exact hI.usageEq
    refine ⟨hInvN, rfl, rfl, rfl, ?_, ?_, ?_⟩
    · intro d hd
      simp at hd
    · intro h0
      exact ⟨rfl, rfl⟩
    · intro h0
      omega

theorem delOf_underMutex (st : LRUCacheState) (id : Nat) :
    (delOf st id).underMutex = st.mutexHeld := by
  unfold delOf
  cases getE st id <;> rfl

theorem delOf_congr {st1 st2 : LRUCacheState} {id : Nat}
    (hg : getE st1 id = getE st2 id) (hm : st1.mutexHeld = st2.mutexHeld) :
    delOf st1 id = delOf st2 id := by
  unfold delOf
  rw [hg, hm]

/-- When the shard is not over budget the eviction loop does nothing. -/
theorem evictLoop_noop (fuel : Nat) (st : LRUCacheState)
    (h : ¬ st.usage_ > st.capacity_) : evictLoop fuel st = (st, []) := by
  cases fuel with
  | zero => rfl
  | succ f =>
    show (if st.usage_ > st.capacity_ then _ else (st, [])) = (st, [])
    rw [if_neg h]

/-- Master lemma for the eviction loop of `Insert`: given enough fuel it
evicts an oldest-first prefix of `lru_`, never touches `in_use_` or any
non-evicted entry, emits exactly one deleter call per evicted entry, and
stops only when the shard is within budget or `lru_` is exhausted. -/
theorem evictLoop_spec : ∀ (fuel : Nat) (st : LRUCacheState), Inv st →
    st.lru_.length ≤ fuel →
    Inv (evictLoop fuel st).1 ∧
    (¬ ((evictLoop fuel st).1.usage_ > (evictLoop fuel st).1.capacity_ ∧
        (evictLoop fuel st).1.lru_ ≠ [])) ∧
    (∃ k, (evictLoop fuel st).1.lru_ = st.lru_.drop k ∧
      (evictLoop fuel st).2 = (st.lru_.take k).map (delOf st) ∧
      (∀ id, id ∉ st.lru_.take k → getE (evictLoop fuel st).1 id = getE st id)) ∧
    (evictLoop fuel st).1.in_use_ = st.in_use_ ∧
    (evictLoop fuel st).1.capacity_ = st.capacity_ ∧
    (evictLoop fuel st).1.nextId = st.nextId ∧
    (evictLoop fuel st).1.mutexHeld = st.mutexHeld ∧
    (evictLoop fuel st).1.usage_ ≤ st.usage_ := by
  intro fuel
  induction fuel with
  | zero =>
    intro st hI hfuel
    have hlru : st.lru_ = [] := List.length_eq_zero.1 (by omega)
    refine ⟨hI, ?_, ⟨0, by rw [List.drop_zero]; exact rfl,
      by rw [List.take_zero]; exact rfl, fun id hid => rfl⟩, rfl, rfl, rfl, rfl, le_refl _⟩
    intro hx
    exact hx.2 hlru
  | succ f ih =>
    intro st hI hfuel
    have hstep : evictLoop (f + 1) st =
        (if st.usage_ > st.capacity_ then
          match st.lru_ with
          | [] => (st, [])
          | oldId :: _ =>
            match getE st oldId with
            | none => (st, [])
            | some old =>
              let tr := st.table_.Remove old.key old.hash
              let st2 := { st with table_ := tr.1 }
              let fe := FinishErase st2 tr.2
              if fe.2 then
                let rec2 := evictLoop f fe.1.1
                (rec2.1, fe.1.2 ++ rec2.2)
              else fe.1
        else (st, [])) := rfl
    by_cases husage : st.usage_ > st.capacity_
    · cases hlru : st.lru_ with
      | nil =>
        have hloop : evictLoop (f + 1) st = (st, []) := by
          rw [hstep, if_pos husage, hlru]
        rw [hloop]
        refine ⟨hI, ?_, ⟨0, by rw [List.drop_zero]; exact hlru,
          by rw [List.take_zero]; exact rfl, fun id hid => rfl⟩,
          rfl, rfl, rfl, rfl, le_refl _⟩
        intro hx
        exact hx.2 hlru
      | cons oldId rest =>
        rcases hI.lruSpec oldId (by rw [hlru]; exact List.mem_cons_self _ _)
          with ⟨e, hget, hc, hr1⟩
        have hcell := hI.inTable oldId e hget hc
        have hLook : st.table_.Lookup e.key e.hash =
            some ⟨e.key, e.hash, oldId⟩ :=
          HandleTable.Lookup_of_mem hI.tableWF hcell rfl rfl
        rcases eraseStep_some hI hLook with ⟨e2, hget2, hc2, hk2, hh2, _, _,
          hInv1, htrue, hlru1, hinuse1, husage1, hle1, hcap1, hnext1, hmx1,
          hLnone1, hframe1, hite1⟩
        have hee : e = e2 := getE_det hget hget2
        subst hee
        rw [if_pos hr1] at hite1
        set st1 := (FinishErase { st with table_ := (st.table_.Remove e.key e.hash).1 }
          (st.table_.Remove e.key e.hash).2).1.1 with hst1
        set ds1 := (FinishErase { st with table_ := (st.table_.Remove e.key e.hash).1 }
          (st.table_.Remove e.key e.hash).2).1.2 with hds1
        have hloop : evictLoop (f + 1) st =
            ((evictLoop f st1).1, ds1 ++ (evictLoop f st1).2) := by
          rw [hstep, if_pos husage]
          split
          · next heq =>
              rw [hlru] at heq
              cases heq
          · next hd tl heq =>
              rw [hlru] at heq
              injection heq with h1 h2
              subst h1
              subst h2
              rw [hget]
              dsimp only
              rw [if_pos htrue]
        have hlru1' : st1.lru_ = rest := by
          rw [hst1, hlru1, hlru]
          exact List.erase_cons_head oldId rest
        have hinuse1' : st1.in_use_ = st.in_use_ := by
          rw [hst1, hinuse1]
          exact List.erase_of_not_mem
            (hI.disj oldId (by rw [hlru]; exact List.mem_cons_self _ _))
        have hfuel1 : st1.lru_.length ≤ f := by
          rw [hlru1']
          have h2 : st.lru_.length ≤ f + 1 := hfuel
          rw [hlru] at h2
          simp at h2
          omega
        rcases ih st1 hInv1 hfuel1 with ⟨ihInv, ihStop, ⟨k, ihLru, ihDels, ihFrame⟩,
          ihInuse, ihCap, ihNext, ihMx, ihUsage⟩
        have hOldNotRest : oldId ∉ rest := by
          have h2 := hI.lruNodup
          rw [hlru] at h2
          exact (List.nodup_cons.1 h2).1
        rw [hloop]
        refine ⟨ihInv, ihStop, ⟨k + 1, ?_, ?_, ?_⟩, ?_, ?_, ?_, ?_, ?_⟩
        · rw [ihLru, hlru1']
          rfl
        · have hgoal : (((evictLoop f st1).1, ds1 ++ (evictLoop f st1).2)).2 =
              ds1 ++ (evictLoop f st1).2 := rfl
          rw [hgoal, ihDels]
          have hdel : delOf st oldId =
              { key := e.key, value := e.value, underMutex := st.mutexHeld } := by
            unfold delOf
            rw [hget]
          have hds1v : ds1 = [delOf st oldId] := hite1.2.trans (by rw [hdel])
          rw [hds1v, hlru1']
          have hmap : (rest.take k).map (delOf st1) = (rest.take k).map (delOf st) := by
            apply List.map_congr_left
            intro id hid
            have hidrest : id ∈ rest := List.mem_of_mem_take hid
            have hne : id ≠ oldId := fun he => hOldNotRest (he ▸ hidrest)
            exact delOf_congr (hframe1 id hne) hmx1
          rw [hmap, List.take_succ_cons, List.map_cons]
          rfl
        · intro id hid
          have hne : id ≠ oldId := by
            intro he
            apply hid
            rw [he]
            show oldId ∈ (oldId :: rest).take (k + 1)
            rw [List.take_succ_cons]
            exact List.mem_cons_self _ _
          have hid2 : id ∉ st1.lru_.take k := by
            rw [hlru1']
            intro hx
            apply hid
            show id ∈ (oldId :: rest).take (k + 1)
            rw [List.take_succ_cons]
            exact List.mem_cons_of_mem _ hx
          rw [ihFrame id hid2]
          exact hframe1 id hne
        · rw [ihInuse]
          exact hinuse1'
        · rw [ihCap, hcap1]
        · rw [ihNext, hnext1]
        · rw [ihMx, hmx1]
        · have h2 : st1.usage_ ≤ st.usage_ := by
            rw [husage1]
            omega
          have h3 : (((evictLoop f st1).1, ds1 ++ (evictLoop f st1).2)).1.usage_ =
              (evictLoop f st1).1.usage_ := rfl
          rw [h3]
          omega
    · rw [evictLoop_noop (f + 1) st husage]
      refine ⟨hI, ?_, ⟨0, by rw [List.drop_zero],
        by rw [List.take_zero]; exact rfl, fun id hid => rfl⟩,
        rfl, rfl, rfl, rfl, le_refl _⟩
      intro hx
      exact husage hx.1

/-- Master lemma for the `Prune` loop: the invariant is preserved, the mutex
state is untouched, and every deleter call happens at the current mutex
state. -/
theorem pruneLoop_spec : ∀ (fuel : Nat) (st : LRUCacheState), Inv st →
    st.lru_.length ≤ fuel →
    Inv (pruneLoop fuel st).1 ∧
    (pruneLoop fuel st).1.mutexHeld = st.mutexHeld ∧
    (∀ d ∈ (pruneLoop fuel st).2, d.underMutex = st.mutexHeld) := by
  intro fuel
  induction fuel with
  | zero =>
    intro st hI hfuel
    refine ⟨hI, rfl, fun d hd => ?_⟩
    have h2 : (pruneLoop 0 st).2 = [] := rfl
    rw [h2] at hd
    simp at hd
  | succ f ih =>
    intro st hI hfuel
    have hstep : pruneLoop (f + 1) st =
        (match st.lru_ with
        | [] => (st, [])
        | oldId :: _ =>
          match getE st oldId with
          | none => (st, [])
          | some old =>
            let tr := st.table_.Remove old.key old.hash
            let st2 := { st with table_ := tr.1 }
            let fe := FinishErase st2 tr.2
            if fe.2 then
              let rec2 := pruneLoop f fe.1.1
              (rec2.1, fe.1.2 ++ rec2.2)
            else fe.1) := rfl
    cases hlru : st.lru_ with
    | nil =>
      have hloop : pruneLoop (f + 1) st = (st, []) := by
        rw [hstep, hlru]
      rw [hloop]
      refine ⟨hI, rfl, fun d hd => ?_⟩
      simp at hd
    | cons oldId rest =>
      rcases hI.lruSpec oldId (by rw [hlru]; exact List.mem_cons_self _ _)
        with ⟨e, hget, hc, hr1⟩
      have hcell := hI.inTable oldId e hget hc
      have hLook : st.table_.Lookup e.key e.hash =
          some ⟨e.key, e.hash, oldId⟩ :=
        HandleTable.Lookup_of_mem hI.tableWF hcell rfl rfl
      rcases eraseStep_some hI hLook with ⟨e2, hget2, hc2, hk2, hh2, _, _,
        hInv1, htrue, hlru1, hinuse1, husage1, hle1, hcap1, hnext1, hmx1,
        hLnone1, hframe1, hite1⟩
      have hee : e = e2 := getE_det hget hget2
      subst hee
      rw [if_pos hr1] at hite1
      set st1 := (FinishErase { st with table_ := (st.table_.Remove e.key e.hash).1 }
        (st.table_.Remove e.key e.hash).2).1.1 with hst1
      set ds1 := (FinishErase { st with table_ := (st.table_.Remove e.key e.hash).1 }
        (st.table_.Remove e.key e.hash).2).1.2 with hds1
      have hloop : pruneLoop (f + 1) st =
          ((pruneLoop f st1).1, ds1 ++ (pruneLoop f st1).2) := by
        rw [hstep]
        split
        · next heq =>
            rw [hlru] at heq
            cases heq
        · next hd tl heq =>
            rw [hlru] at heq
            injection heq with h1 h2
            subst h1
            subst h2
            rw [hget]
            dsimp only
            rw [if_pos htrue]
      have hlru1' : st1.lru_ = rest := by
        rw [hst1, hlru1, hlru]
        exact List.erase_cons_head oldId rest
      have hfuel1 : st1.lru_.length ≤ f := by
        rw [hlru1']
        have h2 : st.lru_.length ≤ f + 1 := hfuel
        rw [hlru] at h2
        simp at h2
        omega
      rcases ih st1 hInv1 hfuel1 with ⟨ihInv, ihMx, ihDels⟩
      rw [hloop]
      refine ⟨ihInv, ?_, ?_⟩
      · show (pruneLoop f st1).1.mutexHeld = st.mutexHeld
        rw [ihMx, hmx1]
      · intro d hd
        have hd2 : d ∈ ds1 ++ (pruneLoop f st1).2 := hd
        rcases List.mem_append.1 hd2 with hd3 | hd3
        · rw [hite1.2] at hd3
          rcases List.mem_cons.1 hd3 with rfl | hd4
          · rfl
          · simp at hd4
        · rw [← hmx1]
          exact ihDels d hd3

/-- `Release` preserves the invariant (for a legally released handle). -/
theorem Release_inv {st : LRUCacheState} {id : Nat} (hI : Inv st)
    (hcan : canRelease st id = true) : Inv (Release st id).1 := by
  unfold canRelease at hcan
  cases hget : getE st id with
  | none => rw [hget] at hcan; simp at hcan
  | some e =>
    rw [hget] at hcan
    unfold Release
    dsimp only
    refine (@Unref_inv { st with mutexHeld := true } id e (hI.mutex true) hget ?_).mutex false
    intro hc
    simp [hc] at hcan
    exact hcan

/-- `LRUCache::Insert` preserves the invariant, hands back the fresh entry as
the handle, leaves the mutex released, and makes every deleter call with the
mutex held. -/
theorem Insert_spec {st : LRUCacheState} (hI : Inv st)
    (key : Key) (hash value charge : Nat) :
    Inv (Insert st key hash value charge).1.1 ∧
    (Insert st key hash value charge).2 = st.nextId ∧
    (Insert st key hash value charge).1.1.capacity_ = st.capacity_ ∧
    (Insert st key hash value charge).1.1.mutexHeld = false ∧
    (∀ d ∈ (Insert st key hash value charge).1.2, d.underMutex = true) := by
  rcases insertBookkeep_spec (hI.mutex true) key hash value charge with
    ⟨hIbk, hid, hcapbk, hmxbk, hdelsbk, _, _⟩
  rcases evictLoop_spec
      (insertBookkeep { st with mutexHeld := true } key hash value charge).1.1.lru_.length
      (insertBookkeep { st with mutexHeld := true } key hash value charge).1.1
      hIbk (le_refl _) with
    ⟨hIev, hstop, ⟨k, hlru, hdels, hframe⟩, hinuse, hcapev, hnextev, hmxev, hle⟩
  unfold Insert
  dsimp only
  refine ⟨hIev.mutex false, hid, ?_, rfl, ?_⟩
  · exact hcapev.trans hcapbk
  · intro d hd
    rcases List.mem_append.1 hd with hd | hd
    · exact hdelsbk d hd
    · rw [hdels] at hd
      rcases List.mem_map.1 hd with ⟨id2, hid2, hde⟩
      rw [← hde, delOf_underMutex]
      exact hmxbk

theorem evictLoop_mutex_dels : ∀ (fuel : Nat) (st : LRUCacheState),
    (evictLoop fuel st).1.mutexHeld = st.mutexHeld ∧
    (∀ d ∈ (evictLoop fuel st).2, d.underMutex = st.mutexHeld) := by
  intro fuel
  induction fuel with
  | zero =>
    intro st
    refine ⟨rfl, fun d hd => ?_⟩
    have h2 : (evictLoop 0 st).2 = [] := rfl
    rw [h2] at hd
    simp at hd
  | succ f ih =>
    intro st
    have hstep : evictLoop (f + 1) st =
        (if st.usage_ > st.capacity_ then
          match st.lru_ with
          | [] => (st, [])
          | oldId :: _ =>
            match getE st oldId with
            | none => (st, [])
            | some old =>
              let tr := st.table_.Remove old.key old.hash
              let st2 := { st with table_ := tr.1 }
              let fe := FinishErase st2 tr.2
              if fe.2 then
                let rec2 := evictLoop f fe.1.1
                (rec2.1, fe.1.2 ++ rec2.2)
              else fe.1
        else (st, [])) := rfl
    rw [hstep]
    by_cases husage : st.usage_ > st.capacity_
    · rw [if_pos husage]
      cases hlru : st.lru_ with
      | nil =>
        dsimp only
        exact ⟨rfl, fun d hd => by simp at hd⟩
      | cons oldId rest =>
        dsimp only
        cases hget : getE st oldId with
        | none =>
          dsimp only
          exact ⟨rfl, fun d hd => by simp at hd⟩
        | some old =>
          dsimp only
          by_cases hfe : (FinishErase
              { capacity_ := st.capacity_, usage_ := st.usage_, lru_ := oldId :: rest,
                in_use_ := st.in_use_, table_ := (st.table_.Remove old.key old.hash).1,
                heap := st.heap, nextId := st.nextId, mutexHeld := st.mutexHeld }
              (st.table_.Remove old.key old.hash).2).2 = true
          · rw [if_pos hfe]
            refine ⟨?_, ?_⟩
            · exact (ih _).1.trans ((FinishErase_mutex _ _).trans rfl)
            · intro d hd
              rcases List.mem_append.1 hd with hd | hd
              · exact (FinishErase_dels _ _ d hd).trans rfl
              · exact ((ih _).2 d hd).trans ((FinishErase_mutex _ _).trans rfl)
          · rw [if_neg hfe]
            refine ⟨(FinishErase_mutex _ _).trans rfl, fun d hd => ?_⟩
            exact (FinishErase_dels _ _ d hd).trans rfl
    · rw [if_neg husage]
      exact ⟨rfl, fun d hd => by simp at hd⟩

theorem pruneLoop_mutex_dels : ∀ (fuel : Nat) (st : LRUCacheState),
    (pruneLoop fuel st).1.mutexHeld = st.mutexHeld ∧
    (∀ d ∈ (pruneLoop fuel st).2, d.underMutex = st.mutexHeld) := by
  intro fuel
  induction fuel with
  | zero =>
    intro st
    refine ⟨rfl, fun d hd => ?_⟩
    have h2 : (pruneLoop 0 st).2 = [] := rfl
    rw [h2] at hd
    simp at hd
  | succ f ih =>
    intro st
    have hstep : pruneLoop (f + 1) st =
        (match st.lru_ with
        | [] => (st, [])
        | oldId :: _ =>
          match getE st oldId with
          | none => (st, [])
          | some old =>
            let tr := st.table_.Remove old.key old.hash
            let st2 := { st with table_ := tr.1 }
            let fe := FinishErase st2 tr.2
            if fe.2 then
              let rec2 := pruneLoop f fe.1.1
              (rec2.1, fe.1.2 ++ rec2.2)
            else fe.1) := rfl
    rw [hstep]
    cases hlru : st.lru_ with
    | nil =>
      dsimp only
      exact ⟨rfl, fun d hd => by simp at hd⟩
    | cons oldId rest =>
      dsimp only
      cases hget : getE st oldId with
      | none =>
        dsimp only
        exact ⟨rfl, fun d hd => by simp at hd⟩
      | some old =>
        dsimp only
        by_cases hfe : (FinishErase
            { capacity_ := st.capacity_, usage_ := st.usage_, lru_ := oldId :: rest,
              in_use_ := st.in_use_, table_ := (st.table_.Remove old.key old.hash).1,
              heap := st.heap, nextId := st.nextId, mutexHeld := st.mutexHeld }
            (st.table_.Remove old.key old.hash).2).2 = true
        · rw [if_pos hfe]
          refine ⟨?_, ?_⟩
          · exact (ih _).1.trans ((FinishErase_mutex _ _).trans rfl)
          · intro d hd
            rcases List.mem_append.1 hd with hd | hd
            · exact (FinishErase_dels _ _ d hd).trans rfl
            · exact ((ih _).2 d hd).trans ((FinishErase_mutex _ _).trans rfl)
        · rw [if_neg hfe]
          refine ⟨(FinishErase_mutex _ _).trans rfl, fun d hd => ?_⟩
          exact (FinishErase_dels _ _ d hd).trans rfl

/-- `LRUCache::Prune` preserves the invariant, releases the mutex, and makes
every deleter call with the mutex held. -/
theorem Prune_spec {st : LRUCacheState} (hI : Inv st) :
    Inv (Prune st).1 ∧ (Prune st).1.mutexHeld = false ∧
    (∀ d ∈ (Prune st).2, d.underMutex = true) := by
  rcases pruneLoop_spec
      ({ st with mutexHeld := true } : LRUCacheState).lru_.length
      { st with mutexHeld := true } (hI.mutex true) (le_refl _) with
    ⟨hIp, hmx, hdels⟩
  unfold Prune
  dsimp only
  exact ⟨hIp.mutex false, rfl, fun d hd => hdels d hd⟩

/-- A freshly constructed shard satisfies the invariant. -/
theorem Inv_initState (cap : Nat) : Inv (initState cap) := by
  have hget : ∀ id, getE (initState cap) id = none := fun id => rfl
  refine ⟨List.nodup_nil, ?_, ?_, List.nodup_nil, List.nodup_nil, ?_, ?_, ?_, ?_, ?_,
    ?_, rfl, HandleTable.WF_init⟩
  · intro id hid
    exact absurd hid (List.not_mem_nil id)
  · intro id e h
    rw [hget id] at h
    exact Option.noConfusion h
  · intro id hid
    exact absurd hid (List.not_mem_nil id)
  · intro id hid
    exact absurd hid (List.not_mem_nil id)
  · intro id hid
    exact absurd hid (List.not_mem_nil id)
  · intro id e h hc
    rw [hget id] at h
    exact Option.noConfusion h
  · intro id e h hc
    rw [hget id] at h
    exact Option.noConfusion h
  · intro c hc
    have hcells : HandleTable.cells (initState cap).table_ = [] := rfl
    rw [hcells] at hc
    exact absurd hc (List.not_mem_nil c)

/-- The bookkeeping phase of `Insert` keeps the mutex flag and stamps its
deleter calls with it (no invariant needed). -/
theorem insertBookkeep_mutex_dels (st : LRUCacheState)
    (key : Key) (hash value charge : Nat) :
    (insertBookkeep st key hash value charge).1.1.mutexHeld = st.mutexHeld ∧
    (∀ d ∈ (insertBookkeep st key hash value charge).1.2,
      d.underMutex = st.mutexHeld) := by
  unfold insertBookkeep
  dsimp only
  by_cases hcap : st.capacity_ > 0
  · rw [if_pos hcap]
    refine ⟨(FinishErase_mutex _ _).trans rfl, fun d hd => ?_⟩
    exact (FinishErase_dels _ _ d hd).trans rfl
  · rw [if_neg hcap]
    exact ⟨rfl, fun d hd => by simp at hd⟩

/-- `Erase` preserves the invariant for any key. -/
theorem Erase_inv {st : LRUCacheState} (hI : Inv st) (key : Key) (hash : Nat) :
    Inv (Erase st key hash).1 := by
  cases hL : st.table_.Lookup key hash with
  | some c =>
    rcases Erase_some hI hL with ⟨e, _, _, _, _, hInv, _⟩
    exact hInv
  | none =>
    unfold Erase
    dsimp only
    rw [HandleTable.Remove_none_eq hL, FinishErase_none]
    exact (hI.mutex true).mutex false

/-- Every reachable shard state satisfies the invariant. -/
theorem Reach_inv {cap : Nat} {st : LRUCacheState} (h : Reach cap st) : Inv st := by
  induction h with
  | init => exact Inv_initState cap
  | insert st key hash value charge hr ih =>
    exact (Insert_spec ih key hash value charge).1
  | lookup st key hash hr ih => exact Lookup_inv ih key hash
  | release st id hcan hr ih => exact Release_inv ih hcan
  | erase st key hash hr ih => exact Erase_inv ih key hash
  | prune st hr ih => exact (Prune_spec ih).1

/-- All entries uncached means nothing is charged. -/
theorem chargeSum_zero_of_uncached {st : LRUCacheState}
    (hnd : (st.heap.map Prod.fst).Nodup)
    (hP : ∀ id e, getE st id = some e → e.in_cache = false) :
    chargeSum st = 0 := by
  unfold chargeSum
  apply List.sum_eq_zero
  intro x hx
  rcases List.mem_map.1 hx with ⟨p, hp, he⟩
  have hg : getE st p.1 = some p.2 := mem_getE hnd hp
  have hc := hP p.1 p.2 hg
  rw [← he]
  unfold liveCharge
  rw [hc]
  rfl

/-- `Unref` keeps the capacity and cannot cache an entry when every entry is
uncached. -/
theorem Unref_cap0 {st : LRUCacheState}
    (hP : ∀ id2 e2, getE st id2 = some e2 → e2.in_cache = false) (id : Nat) :
    (Unref st id).1.capacity_ = st.capacity_ ∧
    (∀ id2 e2, getE (Unref st id).1 id2 = some e2 → e2.in_cache = false) := by
  cases hget : getE st id with
  | none =>
    have hU : Unref st id = (st, []) := by
      unfold Unref
      rw [hget]
    rw [hU]
    exact ⟨rfl, hP⟩
  | some e =>
    have he := hP id e hget
    by_cases h0 : e.refs - 1 = 0
    · have hU : Unref st id =
          (freeE st id,
           [{ key := e.key, value := e.value, underMutex := st.mutexHeld }]) := by
        unfold Unref
        rw [hget]
        dsimp only
        rw [if_pos h0]
      rw [hU]
      refine ⟨rfl, fun id2 e2 hg2 => ?_⟩
      by_cases hne : id2 = id
      · subst hne
        rw [getE_freeE_self] at hg2
        exact Option.noConfusion hg2
      · rw [getE_freeE_ne _ hne] at hg2
        exact hP id2 e2 hg2
    · have hU : Unref st id = (setE st id { e with refs := e.refs - 1 }, []) := by
        unfold Unref
        rw [hget]
        dsimp only
        rw [if_neg h0, if_neg (by
          intro hx
          rw [he] at hx
          exact Bool.false_ne_true hx.1)]
      rw [hU]
      refine ⟨rfl, fun id2 e2 hg2 => ?_⟩
      by_cases hne : id2 = id
      · subst hne
        rw [getE_setE_self, hget] at hg2
        injection hg2 with hh
        rw [← hh]
        exact he
      · rw [getE_setE_ne _ _ hne] at hg2
        exact hP id2 e2 hg2

/-- A loop of `Prune` over an empty `lru_` does nothing. -/
theorem pruneLoop_nil (fuel : Nat) {st : LRUCacheState} (h : st.lru_ = []) :
    pruneLoop fuel st = (st, []) := by
  cases fuel with
  | zero => rfl
  | succ f =>
    have hstep : pruneLoop (f + 1) st =
        (match st.lru_ with
        | [] => (st, [])
        | oldId :: _ =>
          match getE st oldId with
          | none => (st, [])
          | some old =>
            let tr := st.table_.Remove old.key old.hash
            let st2 := { st with table_ := tr.1 }
            let fe := FinishErase st2 tr.2
            if fe.2 then
              let rec2 := pruneLoop f fe.1.1
              (rec2.1, fe.1.2 ++ rec2.2)
            else fe.1) := rfl
    rw [hstep, h]

/-- On a shard of capacity zero nothing is ever cached: every reachable state
still has capacity 0 and every live entry has `in_cache = false`. -/
theorem Reach0_state {st : LRUCacheState} (h : Reach 0 st) :
    st.capacity_ = 0 ∧ ∀ id e, getE st id = some e → e.in_cache = false := by
  induction h with
  | init => exact ⟨rfl, fun id e hg => Option.noConfusion hg⟩
  | insert st key hash value charge hr ih =>
    rcases ih with ⟨hcap, hP⟩
    have hI := Reach_inv hr
    have husage : st.usage_ = 0 := by
      rw [hI.usageEq]
      exact chargeSum_zero_of_uncached hI.heapNodup hP
    rcases insertBookkeep_spec (hI.mutex true) key hash value charge with
      ⟨hIbk, hid, hcapbk, hmxbk, hdels, hzero, hpos⟩
    rcases hzero hcap with ⟨hbk1, hbk2⟩
    have hfinal : (Insert st key hash value charge).1.1 =
        { st with
          heap := (st.nextId,
            { key := key, hash := hash, value := value, charge := charge,
              in_cache := false, refs := 1 }) :: st.heap,
          nextId := st.nextId + 1,
          mutexHeld := false } := by
      unfold Insert
      dsimp only
      rw [hbk1]
      rw [evictLoop_noop _ _ (by
        show ¬ st.usage_ > st.capacity_
        omega)]
    constructor
    · rw [hfinal]
      exact hcap
    · intro id e hg
      rw [hfinal] at hg
      by_cases hne : id = st.nextId
      · subst hne
        rw [getE_head rfl] at hg
        injection hg with hh
        rw [← hh]
      · rw [getE_tail rfl rfl hne] at hg
        exact hP id e hg
  | lookup st key hash hr ih =>
    rcases ih with ⟨hcap, hP⟩
    have hI := Reach_inv hr
    have hcells : HandleTable.cells st.table_ = [] := by
      cases hc : HandleTable.cells st.table_ with
      | nil => rfl
      | cons c cs =>
        rcases hI.tableLive c (by rw [hc]; exact List.mem_cons_self _ _) with
          ⟨e, hg, hcc, _, _⟩
        have hc2 := hP c.id e hg
        rw [hc2] at hcc
        exact absurd hcc Bool.false_ne_true
    have hLnone : st.table_.Lookup key hash = none :=
      (HandleTable.Lookup_eq_none_iff hI.tableWF).2 (by
        rw [hcells]
        intro c hc
        exact absurd hc (List.not_mem_nil c))
    have hres : (Lookup st key hash).1 =
        { ({ st with mutexHeld := true } : LRUCacheState) with mutexHeld := false } := by
      unfold Lookup
      dsimp only
      rw [hLnone]
    rw [hres]
    exact ⟨hcap, hP⟩
  | release st id hcan hr ih =>
    rcases ih with ⟨hcap, hP⟩
    have h2 := @Unref_cap0 { st with mutexHeld := true }
      (fun id2 e2 hg => hP id2 e2 hg) id
    have hres : (Release st id).1 =
        { (Unref { st with mutexHeld := true } id).1 with mutexHeld := false } := rfl
    rw [hres]
    constructor
    · show (Unref { st with mutexHeld := true } id).1.capacity_ = 0
      rw [h2.1]
      exact hcap
    · intro id2 e2 hg
      exact h2.2 id2 e2 hg
  | erase st key hash hr ih =>
    rcases ih with ⟨hcap, hP⟩
    have hI := Reach_inv hr
    have hcells : HandleTable.cells st.table_ = [] := by
      cases hc : HandleTable.cells st.table_ with
      | nil => rfl
      | cons c cs =>
        rcases hI.tableLive c (by rw [hc]; exact List.mem_cons_self _ _) with
          ⟨e, hg, hcc, _, _⟩
        have hc2 := hP c.id e hg
        rw [hc2] at hcc
        exact absurd hcc Bool.false_ne_true
    have hLnone : st.table_.Lookup key hash = none :=
      (HandleTable.Lookup_eq_none_iff hI.tableWF).2 (by
        rw [hcells]
        intro c hc
        exact absurd hc (List.not_mem_nil c))
    have hres : (Erase st key hash).1 =
        { ({ st with mutexHeld := true } : LRUCacheState) with
          table_ := st.table_, mutexHeld := false } := by
      unfold Erase
      dsimp only
      rw [HandleTable.Remove_none_eq hLnone, FinishErase_none]
    rw [hres]
    exact ⟨hcap, hP⟩
  | prune st hr ih =>
    rcases ih with ⟨hcap, hP⟩
    have hI := Reach_inv hr
    have hlru : st.lru_ = [] := by
      cases hl : st.lru_ with
      | nil => rfl
      | cons a as =>
        rcases hI.lruSpec a (by rw [hl]; exact List.mem_cons_self _ _) with
          ⟨e, hg, hcc, _⟩
        have hc2 := hP a e hg
        rw [hc2] at hcc
        exact absurd hcc Bool.false_ne_true
    have hres : (Prune st).1 =
        { ({ st with mutexHeld := true } : LRUCacheState) with mutexHeld := false } := by
      unfold Prune
      dsimp only
      rw [pruneLoop_nil _ (show ({ st with mutexHeld := true } :
        LRUCacheState).lru_ = [] from hlru)]
    rw [hres]
    exact ⟨hcap, hP⟩

/-- The destructor loop over a snapshot of distinct live ids with `refs = 1`:
one deleter call per id, in order, and each entry is freed. -/
theorem destroyLoop_spec : ∀ (ids : List Nat) (st : LRUCacheState),
    ids.Nodup →
    (∀ id ∈ ids, ∃ e, getE st id = some e ∧ e.refs = 1) →
    (destroyLoop st ids).2 = ids.map (delOf st) ∧
    (∀ id ∈ ids, getE (destroyLoop st ids).1 id = none) ∧
    (∀ id, id ∉ ids → getE (destroyLoop st ids).1 id = getE st id) ∧
    (destroyLoop st ids).1.mutexHeld = st.mutexHeld := by
  intro ids
  induction ids with
  | nil =>
    intro st hnd hlive
    exact ⟨rfl, fun id hid => absurd hid (List.not_mem_nil id),
      fun id hid => rfl, rfl⟩
  | cons a as ih =>
    intro st hnd hlive
    rcases hlive a (List.mem_cons_self _ _) with ⟨e, hget, hr1⟩
    have hstep : destroyLoop st (a :: as) =
        (match getE st a with
         | none => destroyLoop st as
         | some e2 =>
           let st2 := setE st a { e2 with in_cache := false }
           let u := Unref st2 a
           let rec2 := destroyLoop u.1 as
           (rec2.1, u.2 ++ rec2.2)) := rfl
    have hgA : getE (setE st a { e with in_cache := false }) a =
        some { e with in_cache := false } := by
      rw [getE_setE_self, hget]
      rfl
    have hU : Unref (setE st a { e with in_cache := false }) a =
        (freeE (setE st a { e with in_cache := false }) a,
         [{ key := e.key, value := e.value, underMutex := st.mutexHeld }]) := by
      have h2 := Unref_dead hgA (show ({ e with in_cache := false } :
        EntryData).refs = 1 from hr1)
      exact h2
    rw [hstep, hget]
    dsimp only
    rw [hU]
    dsimp only
    have hgB : ∀ id2, id2 ≠ a →
        getE (freeE (setE st a { e with in_cache := false }) a) id2 =
          getE st id2 := by
      intro id2 hne
      rw [getE_freeE_ne _ hne, getE_setE_ne _ _ hne]
    have hnotmem : a ∉ as := (List.nodup_cons.1 hnd).1
    have hndas : as.Nodup := (List.nodup_cons.1 hnd).2
    have hliveB : ∀ id ∈ as, ∃ e2,
        getE (freeE (setE st a { e with in_cache := false }) a) id = some e2 ∧
          e2.refs = 1 := by
      intro id hid
      have hne : id ≠ a := fun hh => hnotmem (hh ▸ hid)
      rcases hlive id (List.mem_cons_of_mem _ hid) with ⟨e2, hg2, hr2⟩
      exact ⟨e2, by rw [hgB id hne]; exact hg2, hr2⟩
    rcases ih (freeE (setE st a { e with in_cache := false }) a) hndas hliveB with
      ⟨ihDels, ihNone, ihFrame, ihMx⟩
    refine ⟨?_, ?_, ?_, ?_⟩
    · show { key := e.key, value := e.value, underMutex := st.mutexHeld } ::
          (destroyLoop _ as).2 = (a :: as).map (delOf st)
      rw [List.map_cons, ihDels]
      have hda : delOf st a =
          { key := e.key, value := e.value, underMutex := st.mutexHeld } := by
        unfold delOf
        rw [hget]
      rw [hda]
      have hcong : as.map (delOf (freeE (setE st a { e with in_cache := false }) a)) =
          as.map (delOf st) := by
        apply List.map_congr_left
        intro id hid
        exact delOf_congr (hgB id (fun hh => hnotmem (hh ▸ hid))) rfl
      rw [hcong]
    · intro id hid
      rcases List.mem_cons.1 hid with rfl | hid2
      · rw [ihFrame id (fun hh => hnotmem hh)]
        rw [getE_freeE_self]
      · exact ihNone id hid2
    · intro id hid
      have hne : id ≠ a := fun hh => hid (hh ▸ List.mem_cons_self _ _)
      have hnas : id ∉ as := fun hh => hid (List.mem_cons_of_mem _ hh)
      rw [ihFrame id hnas]
      exact hgB id hne
    · exact ihMx.trans rfl

end LRUCache

namespace ShardedLRUCache

/-- Closed form of the id counter: it counts calls modulo `2 ^ 64`. -/
theorem lastAfter_eq (n : Nat) : lastAfter n = n % 2 ^ 64 := by
  induction n with
  | zero => rfl
  | succ m ih =>
    show (NewId (lastAfter m)).1 = (m + 1) % 2 ^ 64
    unfold NewId
    dsimp only
    rw [ih, Nat.add_mod m 1]
    norm_num

end ShardedLRUCache

/-! The ten claims, each settled against the embedding above. -/

/-- Claim C1, corrected: the code runs user deleters while the shard mutex is
held, not after releasing it — every deleter call emitted by `Insert`,
`Release`, `Erase` or `Prune` carries `underMutex = true` (the flag recording
whether the shard mutex was held when `(*deleter)` ran). -/
theorem C1_deleters_run_under_mutex (st : LRUCacheState) (key : Key)
    (hash value charge id : Nat) :
    (∀ d ∈ (LRUCache.Insert st key hash value charge).1.2, d.underMutex = true) ∧
    (∀ d ∈ (LRUCache.Release st id).2, d.underMutex = true) ∧
    (∀ d ∈ (LRUCache.Erase st key hash).2, d.underMutex = true) ∧
    (∀ d ∈ (LRUCache.Prune st).2, d.underMutex = true) := by
  refine ⟨?_, ?_, ?_, ?_⟩
  · intro d hd
    have hstep : (LRUCache.Insert st key hash value charge).1.2 =
        (LRUCache.insertBookkeep { st with mutexHeld := true }
            key hash value charge).1.2 ++
          (LRUCache.evictLoop
            (LRUCache.insertBookkeep { st with mutexHeld := true }
              key hash value charge).1.1.lru_.length
            (LRUCache.insertBookkeep { st with mutexHeld := true }
              key hash value charge).1.1).2 := rfl
    rw [hstep] at hd
    rcases List.mem_append.1 hd with hd | hd
    · exact ((LRUCache.insertBookkeep_mutex_dels _ key hash value charge).2
        d hd).trans rfl
    · exact ((LRUCache.evictLoop_mutex_dels _ _).2 d hd).trans
        (((LRUCache.insertBookkeep_mutex_dels _ key hash value charge).1).trans rfl)
  · intro d hd
    have hstep : (LRUCache.Release st id).2 =
        (LRUCache.Unref { st with mutexHeld := true } id).2 := rfl
    rw [hstep] at hd
    exact (LRUCache.Unref_dels _ id d hd).trans rfl
  · intro d hd
    have hstep : (LRUCache.Erase st key hash).2 =
        (LRUCache.FinishErase
          { ({ st with mutexHeld := true } : LRUCacheState) with
            table_ := (st.table_.Remove key hash).1 }
          (st.table_.Remove key hash).2).1.2 := rfl
    rw [hstep] at hd
    exact (LRUCache.FinishErase_dels _ _ d hd).trans rfl
  · intro d hd
    have hstep : (LRUCache.Prune st).2 =
        (LRUCache.pruneLoop
          ({ st with mutexHeld := true } : LRUCacheState).lru_.length
          { st with mutexHeld := true }).2 := rfl
    rw [hstep] at hd
    exact ((LRUCache.pruneLoop_mutex_dels _ _).2 d hd).trans rfl

/-- Claim C1 counterexample to the spec's sentence: a concrete run in which
`Erase` invokes the deleter with the shard mutex held (`underMutex = true`),
so deleters do not run outside the mutex. -/
theorem C1_counterexample_deleter_with_mutex :
    (LRUCache.Erase (LRUCache.Release
        (LRUCache.Insert (LRUCache.initState 1) 0 0 7 1).1.1 0).1 0 0).2 =
      [{ key := 0, value := 7, underMutex := true }] := by decide

/-- Claim C2: in every reachable shard state, a cached entry holds at least
one reference, and an entry is on `lru_` exactly when it is cached with
`refs = 1`, on `in_use_` exactly when it is cached with `refs ≥ 2`. -/
theorem C2_refs_and_lists {cap : Nat} {st : LRUCacheState} {id : Nat}
    {e : EntryData} (h : LRUCache.Reach cap st) (hget : getE st id = some e) :
    (e.in_cache = true → 1 ≤ e.refs) ∧
    ((e.in_cache = true ∧ e.refs = 1) ↔ id ∈ st.lru_) ∧
    ((e.in_cache = true ∧ 2 ≤ e.refs) ↔ id ∈ st.in_use_) := by
  have hI := LRUCache.Reach_inv h
  refine ⟨fun _ => hI.refsPos id e hget, ⟨?_, ?_⟩, ⟨?_, ?_⟩⟩
  · rintro ⟨hc, hr⟩
    rcases hI.onList id e hget hc with h2 | h2
    · exact h2
    · rcases hI.inuseSpec id h2 with ⟨e2, hg2, _, hr2⟩
      rw [LRUCache.getE_det hg2 hget] at hr2
      omega
  · intro h2
    rcases hI.lruSpec id h2 with ⟨e2, hg2, hc2, hr2⟩
    rw [LRUCache.getE_det hg2 hget] at hc2 hr2
    exact ⟨hc2, hr2⟩
  · rintro ⟨hc, hr⟩
    rcases hI.onList id e hget hc with h2 | h2
    · rcases hI.lruSpec id h2 with ⟨e2, hg2, _, hr2⟩
      rw [LRUCache.getE_det hg2 hget] at hr2
      omega
    · exact h2
  · intro h2
    rcases hI.inuseSpec id h2 with ⟨e2, hg2, hc2, hr2⟩
    rw [LRUCache.getE_det hg2 hget] at hc2 hr2
    exact ⟨hc2, hr2⟩

/-- Claim C2 witness: the invariant evaluated on the concrete state after one
`Insert` into a fresh shard of capacity 1 — the new entry has `refs = 2`,
is cached, and sits on `in_use_` and not on `lru_`. -/
theorem C2_witness :
    getE (LRUCache.Insert (LRUCache.initState 1) 0 0 7 1).1.1 0 =
      some { key := 0, hash := 0, value := 7, charge := 1,
             in_cache := true, refs := 2 } ∧
    ((({ key := 0, hash := 0, value := 7, charge := 1,
         in_cache := true, refs := 2 } : EntryData).in_cache = true →
        1 ≤ ({ key := 0, hash := 0, value := 7, charge := 1,
               in_cache := true, refs := 2 } : EntryData).refs) ∧
     ((({ key := 0, hash := 0, value := 7, charge := 1,
          in_cache := true, refs := 2 } : EntryData).in_cache = true ∧
        ({ key := 0, hash := 0, value := 7, charge := 1,
           in_cache := true, refs := 2 } : EntryData).refs = 1) ↔
        0 ∈ (LRUCache.Insert (LRUCache.initState 1) 0 0 7 1).1.1.lru_) ∧
     ((({ key := 0, hash := 0, value := 7, charge := 1,
          in_cache := true, refs := 2 } : EntryData).in_cache = true ∧
        2 ≤ ({ key := 0, hash := 0, value := 7, charge := 1,
               in_cache := true, refs := 2 } : EntryData).refs) ↔
        0 ∈ (LRUCache.Insert (LRUCache.initState 1) 0 0 7 1).1.1.in_use_)) :=
  ⟨by decide,
   C2_refs_and_lists
     (LRUCache.Reach.insert (LRUCache.initState 1) 0 0 7 1 LRUCache.Reach.init)
     (by decide)⟩

/-- Claim C3: in every reachable shard state, `usage_` equals the sum of the
charges of exactly the entries with `in_cache = true`; since reachability is
closed under `Insert`, `Lookup`, `Release`, `Erase` and `Prune`, every
operation preserves the equality. -/
theorem C3_usage_eq_charge {cap : Nat} {st : LRUCacheState}
    (h : LRUCache.Reach cap st) : st.usage_ = chargeSum st :=
  (LRUCache.Reach_inv h).usageEq

/-- Claim C4: inside `Insert`, after the bookkeeping phase, the eviction loop
drops an oldest-first prefix of `lru_`, finish-erasing each dropped entry and
emitting its deleter call in that order; it never touches `in_use_` (pinned
entries), and it stops exactly when the shard is within budget or `lru_` is
empty — so `usage_` may stay above `capacity_` when every cached entry is
pinned. -/
theorem C4_eviction_loop {st : LRUCacheState} (hI : LRUCache.Inv st)
    (key : Key) (hash value charge : Nat) :
    ∃ k,
      (LRUCache.Insert st key hash value charge).1.1.lru_ =
        (LRUCache.insertBookkeep { st with mutexHeld := true }
          key hash value charge).1.1.lru_.drop k ∧
      (LRUCache.Insert st key hash value charge).1.2 =
        (LRUCache.insertBookkeep { st with mutexHeld := true }
            key hash value charge).1.2 ++
          ((LRUCache.insertBookkeep { st with mutexHeld := true }
              key hash value charge).1.1.lru_.take k).map
            (LRUCache.delOf (LRUCache.insertBookkeep { st with mutexHeld := true }
              key hash value charge).1.1) ∧
      (LRUCache.Insert st key hash value charge).1.1.in_use_ =
        (LRUCache.insertBookkeep { st with mutexHeld := true }
          key hash value charge).1.1.in_use_ ∧
      ¬ ((LRUCache.Insert st key hash value charge).1.1.usage_ >
            (LRUCache.Insert st key hash value charge).1.1.capacity_ ∧
         (LRUCache.Insert st key hash value charge).1.1.lru_ ≠ []) := by
  rcases LRUCache.insertBookkeep_spec (hI.mutex true) key hash value charge with
    ⟨hIbk, _, _, _, _, _, _⟩
  rcases LRUCache.evictLoop_spec
      (LRUCache.insertBookkeep { st with mutexHeld := true }
        key hash value charge).1.1.lru_.length
      (LRUCache.insertBookkeep { st with mutexHeld := true }
        key hash value charge).1.1
      hIbk (le_refl _) with
    ⟨hIev, hstop, ⟨k, hlru, hdels, hframe⟩, hinuse, hcap, hnext, hmx, hle⟩
  refine ⟨k, hlru, ?_, hinuse, hstop⟩
  show (LRUCache.insertBookkeep { st with mutexHeld := true }
      key hash value charge).1.2 ++
    (LRUCache.evictLoop
      (LRUCache.insertBookkeep { st with mutexHeld := true }
        key hash value charge).1.1.lru_.length
      (LRUCache.insertBookkeep { st with mutexHeld := true }
        key hash value charge).1.1).2 = _
  rw [hdels]

/-- Claim C4 witness: inserting a second unit-charge entry into a full shard
of capacity 1 evicts the oldest entry — the concrete conclusion of the claim
theorem on that state. -/
theorem C4_witness :
    ∃ k,
      (LRUCache.Insert (LRUCache.Insert (LRUCache.initState 1) 1 0 5 1).1.1
        2 0 6 1).1.1.lru_ =
        (LRUCache.insertBookkeep
          { (LRUCache.Insert (LRUCache.initState 1) 1 0 5 1).1.1 with
            mutexHeld := true } 2 0 6 1).1.1.lru_.drop k ∧
      (LRUCache.Insert (LRUCache.Insert (LRUCache.initState 1) 1 0 5 1).1.1
        2 0 6 1).1.2 =
        (LRUCache.insertBookkeep
          { (LRUCache.Insert (LRUCache.initState 1) 1 0 5 1).1.1 with
            mutexHeld := true } 2 0 6 1).1.2 ++
          ((LRUCache.insertBookkeep
            { (LRUCache.Insert (LRUCache.initState 1) 1 0 5 1).1.1 with
              mutexHeld := true } 2 0 6 1).1.1.lru_.take k).map
            (LRUCache.delOf (LRUCache.insertBookkeep
              { (LRUCache.Insert (LRUCache.initState 1) 1 0 5 1).1.1 with
                mutexHeld := true } 2 0 6 1).1.1) ∧
      (LRUCache.Insert (LRUCache.Insert (LRUCache.initState 1) 1 0 5 1).1.1
        2 0 6 1).1.1.in_use_ =
        (LRUCache.insertBookkeep
          { (LRUCache.Insert (LRUCache.initState 1) 1 0 5 1).1.1 with
            mutexHeld := true } 2 0 6 1).1.1.in_use_ ∧
      ¬ ((LRUCache.Insert (LRUCache.Insert (LRUCache.initState 1) 1 0 5 1).1.1
            2 0 6 1).1.1.usage_ >
          (LRUCache.Insert (LRUCache.Insert (LRUCache.initState 1) 1 0 5 1).1.1
            2 0 6 1).1.1.capacity_ ∧
         (LRUCache.Insert (LRUCache.Insert (LRUCache.initState 1) 1 0 5 1).1.1
            2 0 6 1).1.1.lru_ ≠ []) :=
  C4_eviction_loop
    (LRUCache.Insert_spec (LRUCache.Inv_initState 1) 1 0 5 1).1 2 0 6 1

/-- Claim C5: erasing an absent key is a no-op with no deleter call; erasing
a pinned entry (refs ≥ 2) un-caches it, removes it from the index, its list
and the usage account without calling the deleter, and a subsequent `Lookup`
of the key misses; once an entry is un-cached, each `Release` decrements
`refs`, and the deleter fires exactly on the release that drops the last
handle. -/
theorem C5_erase_semantics {st : LRUCacheState} (hI : LRUCache.Inv st)
    (key : Key) (hash : Nat) :
    (st.table_.Lookup key hash = none →
      (LRUCache.Erase st key hash).1 = { st with mutexHeld := false } ∧
      (LRUCache.Erase st key hash).2 = []) ∧
    (∀ c, st.table_.Lookup key hash = some c →
      ∀ e, getE st c.id = some e → 2 ≤ e.refs →
        getE (LRUCache.Erase st key hash).1 c.id =
          some { e with in_cache := false, refs := e.refs - 1 } ∧
        (LRUCache.Erase st key hash).2 = [] ∧
        (LRUCache.Erase st key hash).1.usage_ = st.usage_ - e.charge ∧
        (LRUCache.Erase st key hash).1.lru_ = st.lru_.erase c.id ∧
        (LRUCache.Erase st key hash).1.in_use_ = st.in_use_.erase c.id ∧
        (LRUCache.Erase st key hash).1.table_.Lookup key hash = none ∧
        (LRUCache.Lookup (LRUCache.Erase st key hash).1 key hash).2 = none) ∧
    (∀ id e, getE st id = some e → e.in_cache = false → 1 ≤ e.refs →
      (LRUCache.Release st id).2 =
        (if e.refs = 1
         then [{ key := e.key, value := e.value, underMutex := true }]
         else []) ∧
      getE (LRUCache.Release st id).1 id =
        (if e.refs = 1 then none else some { e with refs := e.refs - 1 })) := by
  refine ⟨?_, ?_, ?_⟩
  · intro hL
    constructor
    · unfold LRUCache.Erase
      dsimp only
      rw [HandleTable.Remove_none_eq hL, LRUCache.FinishErase_none]
    · unfold LRUCache.Erase
      dsimp only
      rw [HandleTable.Remove_none_eq hL, LRUCache.FinishErase_none]
  · intro c hL e hget h2
    rcases LRUCache.Erase_some hI hL with ⟨e2, hget2, hc2, hk2, hh2, hInv, hlru,
      hinuse, husage, hle, hcap, hnext, hmx, hLnone, hframe, hite⟩
    rw [LRUCache.getE_det hget2 hget] at hc2 hite husage hle
    rw [if_neg (by omega)] at hite
    refine ⟨hite.1, hite.2, husage, hlru, hinuse, hLnone, ?_⟩
    rw [LRUCache.Lookup_snd, hLnone]
    rfl
  · intro id e hget hc hr1
    by_cases hr : e.refs = 1
    · have hU := LRUCache.Unref_dead
        (show getE ({ st with mutexHeld := true } : LRUCacheState) id = some e
          from hget) hr
      have hs1 : (LRUCache.Release st id).2 =
          (LRUCache.Unref { st with mutexHeld := true } id).2 := rfl
      have hs2 : getE (LRUCache.Release st id).1 id =
          getE (LRUCache.Unref { st with mutexHeld := true } id).1 id := rfl
      rw [if_pos hr, if_pos hr]
      constructor
      · rw [hs1, hU]
      · rw [hs2, hU]
        exact getE_freeE_self _ _
    · have hU := LRUCache.Unref_dec
        (show getE ({ st with mutexHeld := true } : LRUCacheState) id = some e
          from hget) (by omega) (by
          intro hx
          rw [hc] at hx
          exact Bool.false_ne_true hx.1)
      have hs1 : (LRUCache.Release st id).2 =
          (LRUCache.Unref { st with mutexHeld := true } id).2 := rfl
      have hs2 : getE (LRUCache.Release st id).1 id =
          getE (LRUCache.Unref { st with mutexHeld := true } id).1 id := rfl
      rw [if_neg hr, if_neg hr]
      constructor
      · rw [hs1, hU]
      · rw [hs2, hU, getE_setE_self,
          show getE ({ st with mutexHeld := true } : LRUCacheState) id =
            getE st id from rfl, hget]
        rfl

/-- Claim C5 witness: the claim theorem evaluated on the concrete state after
inserting key 3 (pinned, `refs = 2`) into a fresh shard of capacity 1, at the
inserted key. -/
theorem C5_witness :
    ((LRUCache.Insert (LRUCache.initState 1) 3 0 9 1).1.1.table_.Lookup 3 0 = none →
      (LRUCache.Erase (LRUCache.Insert (LRUCache.initState 1) 3 0 9 1).1.1 3 0).1 =
        { (LRUCache.Insert (LRUCache.initState 1) 3 0 9 1).1.1 with
          mutexHeld := false } ∧
      (LRUCache.Erase (LRUCache.Insert (LRUCache.initState 1) 3 0 9 1).1.1 3 0).2 =
        []) ∧
    (∀ c, (LRUCache.Insert (LRUCache.initState 1) 3 0 9 1).1.1.table_.Lookup 3 0 =
        some c →
      ∀ e, getE (LRUCache.Insert (LRUCache.initState 1) 3 0 9 1).1.1 c.id =
          some e → 2 ≤ e.refs →
        getE (LRUCache.Erase (LRUCache.Insert (LRUCache.initState 1) 3 0 9 1).1.1
            3 0).1 c.id =
          some { e with in_cache := false, refs := e.refs - 1 } ∧
        (LRUCache.Erase (LRUCache.Insert (LRUCache.initState 1) 3 0 9 1).1.1 3 0).2 =
          [] ∧
        (LRUCache.Erase (LRUCache.Insert (LRUCache.initState 1) 3 0 9 1).1.1
            3 0).1.usage_ =
          (LRUCache.Insert (LRUCache.initState 1) 3 0 9 1).1.1.usage_ - e.charge ∧
        (LRUCache.Erase (LRUCache.Insert (LRUCache.initState 1) 3 0 9 1).1.1
            3 0).1.lru_ =
          (LRUCache.Insert (LRUCache.initState 1) 3 0 9 1).1.1.lru_.erase c.id ∧
        (LRUCache.Erase (LRUCache.Insert (LRUCache.initState 1) 3 0 9 1).1.1
            3 0).1.in_use_ =
          (LRUCache.Insert (LRUCache.initState 1) 3 0 9 1).1.1.in_use_.erase c.id ∧
        (LRUCache.Erase (LRUCache.Insert (LRUCache.initState 1) 3 0 9 1).1.1
            3 0).1.table_.Lookup 3 0 = none ∧
        (LRUCache.Lookup (LRUCache.Erase
            (LRUCache.Insert (LRUCache.initState 1) 3 0 9 1).1.1 3 0).1 3 0).2 =
          none) ∧
    (∀ id e, getE (LRUCache.Insert (LRUCache.initState 1) 3 0 9 1).1.1 id =
        some e → e.in_cache = false → 1 ≤ e.refs →
      (LRUCache.Release (LRUCache.Insert (LRUCache.initState 1) 3 0 9 1).1.1 id).2 =
        (if e.refs = 1
         then [{ key := e.key, value := e.value, underMutex := true }]
         else []) ∧
      getE (LRUCache.Release (LRUCache.Insert (LRUCache.initState 1) 3 0 9 1).1.1
          id).1 id =
        (if e.refs = 1 then none else some { e with refs := e.refs - 1 })) :=
  C5_erase_semantics (LRUCache.Insert_spec (LRUCache.Inv_initState 1) 3 0 9 1).1 3 0

/-- Claim C6: on a shard of capacity 0, `Insert` only allocates — the new
entry has `refs = 1` and `in_cache = false`, the lists, index and `usage_`
are untouched, no deleter runs, and the returned handle is the live fresh
entry — and every `Lookup` misses. -/
theorem C6_capacity_zero {st : LRUCacheState} (h : LRUCache.Reach 0 st)
    (key : Key) (hash value charge : Nat) :
    (LRUCache.Insert st key hash value charge).1.1 =
      { st with
        heap := (st.nextId,
          { key := key, hash := hash, value := value, charge := charge,
            in_cache := false, refs := 1 }) :: st.heap,
        nextId := st.nextId + 1, mutexHeld := false } ∧
    (LRUCache.Insert st key hash value charge).2 = st.nextId ∧
    (LRUCache.Insert st key hash value charge).1.2 = [] ∧
    getE (LRUCache.Insert st key hash value charge).1.1 st.nextId =
      some { key := key, hash := hash, value := value, charge := charge,
             in_cache := false, refs := 1 } ∧
    (LRUCache.Lookup st key hash).2 = none := by
  rcases LRUCache.Reach0_state h with ⟨hcap, hP⟩
  have hI := LRUCache.Reach_inv h
  have husage : st.usage_ = 0 := by
    rw [hI.usageEq]
    exact LRUCache.chargeSum_zero_of_uncached hI.heapNodup hP
  rcases LRUCache.insertBookkeep_spec (hI.mutex true) key hash value charge with
    ⟨hIbk, hid, hcapbk, hmxbk, hdels, hzero, hpos⟩
  rcases hzero hcap with ⟨hbk1, hbk2⟩
  have hfinal : (LRUCache.Insert st key hash value charge).1.1 =
      { st with
        heap := (st.nextId,
          { key := key, hash := hash, value := value, charge := charge,
            in_cache := false, refs := 1 }) :: st.heap,
        nextId := st.nextId + 1, mutexHeld := false } := by
    unfold LRUCache.Insert
    dsimp only
    rw [hbk1]
    rw [LRUCache.evictLoop_noop _ _ (by
      show ¬ st.usage_ > st.capacity_
      omega)]
  have hdels0 : (LRUCache.Insert st key hash value charge).1.2 = [] := by
    have hstep : (LRUCache.Insert st key hash value charge).1.2 =
        (LRUCache.insertBookkeep { st with mutexHeld := true }
            key hash value charge).1.2 ++
          (LRUCache.evictLoop
            (LRUCache.insertBookkeep { st with mutexHeld := true }
              key hash value charge).1.1.lru_.length
            (LRUCache.insertBookkeep { st with mutexHeld := true }
              key hash value charge).1.1).2 := rfl
    rw [hstep, hbk2, hbk1]
    rw [LRUCache.evictLoop_noop _ _ (by
      show ¬ st.usage_ > st.capacity_
      omega)]
    rfl
  have hcells : HandleTable.cells st.table_ = [] := by
    cases hc : HandleTable.cells st.table_ with
    | nil => rfl
    | cons c cs =>
      rcases hI.tableLive c (by rw [hc]; exact List.mem_cons_self _ _) with
        ⟨e, hg, hcc, _, _⟩
      have hc2 := hP c.id e hg
      rw [hc2] at hcc
      exact absurd hcc Bool.false_ne_true
  have hLnone : st.table_.Lookup key hash = none :=
    (HandleTable.Lookup_eq_none_iff hI.tableWF).2 (by
      rw [hcells]
      intro c hc
      exact absurd hc (List.not_mem_nil c))
  refine ⟨hfinal, hid, hdels0, ?_, ?_⟩
  · rw [hfinal]
    exact LRUCache.getE_head rfl
  · rw [LRUCache.Lookup_snd, hLnone]
    rfl

/-- Claim C6 witness: the claim theorem evaluated on a fresh shard of
capacity 0 for a concrete insert and lookup. -/
theorem C6_witness :
    (LRUCache.Insert (LRUCache.initState 0) 8 3 7 2).1.1 =
      { LRUCache.initState 0 with
        heap := ((LRUCache.initState 0).nextId,
          { key := 8, hash := 3, value := 7, charge := 2,
            in_cache := false, refs := 1 }) :: (LRUCache.initState 0).heap,
        nextId := (LRUCache.initState 0).nextId + 1, mutexHeld := false } ∧
    (LRUCache.Insert (LRUCache.initState 0) 8 3 7 2).2 =
      (LRUCache.initState 0).nextId ∧
    (LRUCache.Insert (LRUCache.initState 0) 8 3 7 2).1.2 = [] ∧
    getE (LRUCache.Insert (LRUCache.initState 0) 8 3 7 2).1.1
        (LRUCache.initState 0).nextId =
      some { key := 8, hash := 3, value := 7, charge := 2,
             in_cache := false, refs := 1 } ∧
    (LRUCache.Lookup (LRUCache.initState 0) 8 3).2 = none :=
  C6_capacity_zero LRUCache.Reach.init 8 3 7 2

/-- Claim C3 witness: the accounting equality evaluated on the concrete state
after one `Insert` of charge 3 into a fresh shard of capacity 2. -/
theorem C3_witness :
    (LRUCache.Insert (LRUCache.initState 2) 5 9 7 3).1.1.usage_ =
      chargeSum (LRUCache.Insert (LRUCache.initState 2) 5 9 7 3).1.1 :=
  C3_usage_eq_charge
    (LRUCache.Reach.insert (LRUCache.initState 2) 5 9 7 3 LRUCache.Reach.init)

/-- Claim C7: hash-index `Insert` returns the displaced entry with equal
(key, hash) — substituted in place in its chain — or `none`; the element
count increments only on a true insert; and when the count would exceed the
bucket-array length, the array grows to the smallest power of two (at least
4) holding the count, every cell is rehashed into its bucket, and the count
no longer exceeds the length. -/
theorem C7_table_insert {t : HandleTable} (wf : HandleTable.WF t) (h : HTCell) :
    (t.Insert h).2 = t.Lookup h.key h.hash ∧
    (∀ c, t.Lookup h.key h.hash = some c →
      (t.Insert h).1.elems_ = t.elems_ ∧
      (t.Insert h).1.length_ = t.length_ ∧
      ∃ A B, HandleTable.cells t = A ++ c :: B ∧
        HandleTable.cells (t.Insert h).1 = A ++ h :: B) ∧
    (t.Lookup h.key h.hash = none →
      (t.Insert h).1.elems_ = t.elems_ + 1 ∧
      (HandleTable.cells (t.Insert h).1).Perm (h :: HandleTable.cells t) ∧
      (t.Insert h).1.elems_ ≤ (t.Insert h).1.length_ ∧
      (∀ i, i < (t.Insert h).1.length_ →
        ∀ c ∈ (t.Insert h).1.list_.getD i [],
          bucketIdx c.hash (t.Insert h).1.length_ = i) ∧
      (t.elems_ + 1 ≤ t.length_ → (t.Insert h).1.length_ = t.length_) ∧
      (t.length_ < t.elems_ + 1 →
        (t.Insert h).1.length_ = HandleTable.growLen (t.elems_ + 1) 4 ∧
        (∃ j, (t.Insert h).1.length_ = 4 * 2 ^ j) ∧
        t.elems_ + 1 ≤ (t.Insert h).1.length_ ∧
        (∀ m, t.elems_ + 1 ≤ 4 * 2 ^ m →
          (t.Insert h).1.length_ ≤ 4 * 2 ^ m))) := by
  refine ⟨HandleTable.Insert_snd t h, ?_, ?_⟩
  · intro c hL
    rcases HandleTable.Insert_some_spec wf hL with ⟨A, B, hcT, hcI, helems, hlen, hwf⟩
    exact ⟨helems, hlen, A, B, hcT, hcI⟩
  · intro hL
    rcases HandleTable.Insert_none_spec wf hL with ⟨hperm, helems, hwf, hlen⟩
    refine ⟨helems, hperm, hwf.elemsLe, hwf.placed, ?_, ?_⟩
    · intro hle
      rw [hlen, if_neg (by omega)]
    · intro hgt
      have hlen2 : (t.Insert h).1.length_ = HandleTable.growLen (t.elems_ + 1) 4 := by
        rw [hlen, if_pos (by omega)]
      refine ⟨hlen2, ?_, ?_, ?_⟩
      · rw [hlen2]
        exact HandleTable.growLen_shape _ 4
      · rw [hlen2]
        exact HandleTable.growLen_ge_elems _ (by omega)
      · intro m hm
        rw [hlen2]
        exact HandleTable.growLen_min _ (by omega) m hm

/-- Claim C7 witness: the claim theorem evaluated on the fresh 4-bucket table
for a concrete cell. -/
theorem C7_witness :
    (HandleTable.init.Insert { key := 5, hash := 7, id := 0 }).2 =
      HandleTable.init.Lookup ({ key := 5, hash := 7, id := 0 } : HTCell).key
        ({ key := 5, hash := 7, id := 0 } : HTCell).hash ∧
    (∀ c, HandleTable.init.Lookup ({ key := 5, hash := 7, id := 0 } : HTCell).key
        ({ key := 5, hash := 7, id := 0 } : HTCell).hash = some c →
      (HandleTable.init.Insert { key := 5, hash := 7, id := 0 }).1.elems_ =
        HandleTable.init.elems_ ∧
      (HandleTable.init.Insert { key := 5, hash := 7, id := 0 }).1.length_ =
        HandleTable.init.length_ ∧
      ∃ A B, HandleTable.cells HandleTable.init = A ++ c :: B ∧
        HandleTable.cells (HandleTable.init.Insert
          { key := 5, hash := 7, id := 0 }).1 =
          A ++ { key := 5, hash := 7, id := 0 } :: B) ∧
    (HandleTable.init.Lookup ({ key := 5, hash := 7, id := 0 } : HTCell).key
        ({ key := 5, hash := 7, id := 0 } : HTCell).hash = none →
      (HandleTable.init.Insert { key := 5, hash := 7, id := 0 }).1.elems_ =
        HandleTable.init.elems_ + 1 ∧
      (HandleTable.cells (HandleTable.init.Insert
          { key := 5, hash := 7, id := 0 }).1).Perm
        ({ key := 5, hash := 7, id := 0 } :: HandleTable.cells HandleTable.init) ∧
      (HandleTable.init.Insert { key := 5, hash := 7, id := 0 }).1.elems_ ≤
        (HandleTable.init.Insert { key := 5, hash := 7, id := 0 }).1.length_ ∧
      (∀ i, i < (HandleTable.init.Insert { key := 5, hash := 7, id := 0 }).1.length_ →
        ∀ c ∈ (HandleTable.init.Insert
            { key := 5, hash := 7, id := 0 }).1.list_.getD i [],
          bucketIdx c.hash (HandleTable.init.Insert
            { key := 5, hash := 7, id := 0 }).1.length_ = i) ∧
      (HandleTable.init.elems_ + 1 ≤ HandleTable.init.length_ →
        (HandleTable.init.Insert { key := 5, hash := 7, id := 0 }).1.length_ =
          HandleTable.init.length_) ∧
      (HandleTable.init.length_ < HandleTable.init.elems_ + 1 →
        (HandleTable.init.Insert { key := 5, hash := 7, id := 0 }).1.length_ =
          HandleTable.growLen (HandleTable.init.elems_ + 1) 4 ∧
        (∃ j, (HandleTable.init.Insert { key := 5, hash := 7, id := 0 }).1.length_ =
          4 * 2 ^ j) ∧
        HandleTable.init.elems_ + 1 ≤
          (HandleTable.init.Insert { key := 5, hash := 7, id := 0 }).1.length_ ∧
        (∀ m, HandleTable.init.elems_ + 1 ≤ 4 * 2 ^ m →
          (HandleTable.init.Insert { key := 5, hash := 7, id := 0 }).1.length_ ≤
            4 * 2 ^ m))) :=
  C7_table_insert HandleTable.WF_init { key := 5, hash := 7, id := 0 }

/-- Claim C8: the sharded cache has exactly 16 shards; dispatch uses the top
4 bits of the 32-bit hash (`hash >> 28`), `Release` recovers the shard from
the hash stored in the handle, and each shard's capacity is the ceiling of
the total capacity divided by 16. -/
theorem C8_sharding (hashFn : Key → Nat) (ss : ShardedState)
    (capacity key value charge hash : Nat) (hh : SHandle) :
    kNumShards = 16 ∧
    (hash < 2 ^ 32 → Shard hash = hash / 2 ^ 28 ∧ Shard hash < 16) ∧
    (ShardedLRUCache.initSharded capacity).shard_.length = 16 ∧
    (∀ s ∈ (ShardedLRUCache.initSharded capacity).shard_,
      s.capacity_ = (capacity + 15) / 16 ∧
      capacity ≤ 16 * s.capacity_ ∧ 16 * s.capacity_ < capacity + 16) ∧
    (ShardedLRUCache.SInsert hashFn ss key value charge).1.1.shard_ =
      ss.shard_.set (Shard (hashFn key))
        (LRUCache.Insert (ss.shard_.getD (Shard (hashFn key)) (LRUCache.initState 0))
          key (hashFn key) value charge).1.1 ∧
    (ShardedLRUCache.SInsert hashFn ss key value charge).2.hash = hashFn key ∧
    (ShardedLRUCache.SRelease ss hh).1.shard_ =
      ss.shard_.set (Shard hh.hash)
        (LRUCache.Release (ss.shard_.getD (Shard hh.hash) (LRUCache.initState 0))
          hh.id).1 ∧
    (ShardedLRUCache.SLookup hashFn ss key).1.shard_ =
      ss.shard_.set (Shard (hashFn key))
        (LRUCache.Lookup (ss.shard_.getD (Shard (hashFn key)) (LRUCache.initState 0))
          key (hashFn key)).1 ∧
    (ShardedLRUCache.SErase hashFn ss key).1.shard_ =
      ss.shard_.set (Shard (hashFn key))
        (LRUCache.Erase (ss.shard_.getD (Shard (hashFn key)) (LRUCache.initState 0))
          key (hashFn key)).1 := by
  refine ⟨by decide, ?_, ?_, ?_, rfl, rfl, rfl, rfl, rfl⟩
  · intro hlt
    have hs : Shard hash = hash / 2 ^ 28 := by
      show hash >>> (32 - kNumShardBits) = hash / 2 ^ 28
      have h28 : 32 - kNumShardBits = 28 := by decide
      rw [h28, Nat.shiftRight_eq_div_pow]
    refine ⟨hs, ?_⟩
    rw [hs]
    have h32 : (2 : Nat) ^ 32 = 2 ^ 28 * 16 := by norm_num
    rw [h32] at hlt
    exact Nat.div_lt_of_lt_mul hlt
  · show (List.replicate kNumShards
      (LRUCache.initState ((capacity + (kNumShards - 1)) / kNumShards))).length = 16
    rw [List.length_replicate]
    decide
  · intro s hs
    have he := List.eq_of_mem_replicate hs
    rw [he]
    refine ⟨rfl, ?_, ?_⟩
    · show capacity ≤ 16 * ((capacity + 15) / 16)
      omega
    · show 16 * ((capacity + 15) / 16) < capacity + 16
      omega

/-- Claim C9, corrected: `NewId` steps a 64-bit counter, so the returned ids
are strictly increasing — hence pairwise distinct — only until the counter
wraps at `2 ^ 64`: the `i`-th and `j`-th calls satisfy
`lastAfter i < lastAfter j` for `1 ≤ i < j < 2 ^ 64`, and each call returns
`(last + 1) % 2 ^ 64`. -/
theorem C9_newid_monotone {i j : Nat} (h1 : 1 ≤ i) (hij : i < j)
    (hj : j < 2 ^ 64) :
    ShardedLRUCache.lastAfter i < ShardedLRUCache.lastAfter j ∧
    ShardedLRUCache.lastAfter i ≠ ShardedLRUCache.lastAfter j ∧
    (∀ last, (ShardedLRUCache.NewId last).1 = (last + 1) % 2 ^ 64) := by
  have hi := ShardedLRUCache.lastAfter_eq i
  have hjj := ShardedLRUCache.lastAfter_eq j
  rw [Nat.mod_eq_of_lt (by omega)] at hi
  rw [Nat.mod_eq_of_lt (by omega)] at hjj
  refine ⟨by omega, by omega, fun last => rfl⟩

/-- Claim C9 witness: the first and second ids, concretely 1 and 2. -/
theorem C9_witness :
    ShardedLRUCache.lastAfter 1 < ShardedLRUCache.lastAfter 2 ∧
    ShardedLRUCache.lastAfter 1 ≠ ShardedLRUCache.lastAfter 2 ∧
    (∀ last, (ShardedLRUCache.NewId last).1 = (last + 1) % 2 ^ 64) :=
  C9_newid_monotone (by norm_num) (by norm_num) (by norm_num)

/-- Claim C9 counterexample to the spec's sentence: the 64-bit counter wraps,
so the call after the wrap returns the same id as the very first call — the
sequence is neither strictly increasing nor pairwise distinct. -/
theorem C9_counterexample_wrap :
    ShardedLRUCache.lastAfter (2 ^ 64 + 1) = ShardedLRUCache.lastAfter 1 ∧
    (2 ^ 64 + 1 : Nat) ≠ 1 := by
  constructor
  · rw [ShardedLRUCache.lastAfter_eq, ShardedLRUCache.lastAfter_eq]
    exact Nat.add_mod_left _ _
  · norm_num

/-- Claim C10: destroying a shard with an unreleased handle (`in_use_`
non-empty) trips the destructor's assertion (modelled as `none`); otherwise
the destructor calls the deleter exactly once, in list order, for each entry
on `lru_` — each cached with `refs = 1` — and frees it, leaving every other
entry untouched. -/
theorem C10_destroy {st : LRUCacheState} (hI : LRUCache.Inv st) :
    (st.in_use_ ≠ [] → LRUCache.destroy st = none) ∧
    (st.in_use_ = [] →
      LRUCache.destroy st =
        some ((LRUCache.destroyLoop st st.lru_).1,
              st.lru_.map (LRUCache.delOf st)) ∧
      (∀ id ∈ st.lru_,
        (∃ e, getE st id = some e ∧ e.in_cache = true ∧ e.refs = 1) ∧
        getE (LRUCache.destroyLoop st st.lru_).1 id = none) ∧
      (∀ id, id ∉ st.lru_ →
        getE (LRUCache.destroyLoop st st.lru_).1 id = getE st id)) := by
  constructor
  · intro hne
    unfold LRUCache.destroy
    rw [if_neg hne]
  · intro hnil
    have hlive : ∀ id ∈ st.lru_, ∃ e, getE st id = some e ∧ e.refs = 1 := by
      intro id hid
      rcases hI.lruSpec id hid with ⟨e, hg, hc, hr⟩
      exact ⟨e, hg, hr⟩
    rcases LRUCache.destroyLoop_spec st.lru_ st hI.lruNodup hlive with
      ⟨hdels, hnone, hframe, _⟩
    refine ⟨?_, ?_, hframe⟩
    · unfold LRUCache.destroy
      rw [if_pos hnil, ← hdels]
    · intro id hid
      rcases hI.lruSpec id hid with ⟨e, hg, hc, hr⟩
      exact ⟨⟨e, hg, hc, hr⟩, hnone id hid⟩

/-- Claim C10 witness: the claim theorem evaluated on the concrete state
after inserting one entry into a capacity-1 shard and releasing its handle,
leaving one entry on `lru_` and nothing on `in_use_`. -/
theorem C10_witness :
    ((LRUCache.Release (LRUCache.Insert (LRUCache.initState 1) 0 0 7 1).1.1
        0).1.in_use_ ≠ [] →
      LRUCache.destroy (LRUCache.Release
        (LRUCache.Insert (LRUCache.initState 1) 0 0 7 1).1.1 0).1 = none) ∧
    ((LRUCache.Release (LRUCache.Insert (LRUCache.initState 1) 0 0 7 1).1.1
        0).1.in_use_ = [] →
      LRUCache.destroy (LRUCache.Release
          (LRUCache.Insert (LRUCache.initState 1) 0 0 7 1).1.1 0).1 =
        some ((LRUCache.destroyLoop
            (LRUCache.Release
              (LRUCache.Insert (LRUCache.initState 1) 0 0 7 1).1.1 0).1
            (LRUCache.Release
              (LRUCache.Insert (LRUCache.initState 1) 0 0 7 1).1.1 0).1.lru_).1,
          (LRUCache.Release
            (LRUCache.Insert (LRUCache.initState 1) 0 0 7 1).1.1 0).1.lru_.map
            (LRUCache.delOf (LRUCache.Release
              (LRUCache.Insert (LRUCache.initState 1) 0 0 7 1).1.1 0).1)) ∧
      (∀ id ∈ (LRUCache.Release
          (LRUCache.Insert (LRUCache.initState 1) 0 0 7 1).1.1 0).1.lru_,
        (∃ e, getE (LRUCache.Release
            (LRUCache.Insert (LRUCache.initState 1) 0 0 7 1).1.1 0).1 id =
            some e ∧ e.in_cache = true ∧ e.refs = 1) ∧
        getE (LRUCache.destroyLoop
            (LRUCache.Release
              (LRUCache.Insert (LRUCache.initState 1) 0 0 7 1).1.1 0).1
            (LRUCache.Release
              (LRUCache.Insert (LRUCache.initState 1) 0 0 7 1).1.1
              0).1.lru_).1 id = none) ∧
      (∀ id, id ∉ (LRUCache.Release
          (LRUCache.Insert (LRUCache.initState 1) 0 0 7 1).1.1 0).1.lru_ →
        getE (LRUCache.destroyLoop
            (LRUCache.Release
              (LRUCache.Insert (LRUCache.initState 1) 0 0 7 1).1.1 0).1
            (LRUCache.Release
              (LRUCache.Insert (LRUCache.initState 1) 0 0 7 1).1.1
              0).1.lru_).1 id =
          getE (LRUCache.Release
            (LRUCache.Insert (LRUCache.initState 1) 0 0 7 1).1.1 0).1 id)) :=
  C10_destroy (LRUCache.Release_inv
    (LRUCache.Insert_spec (LRUCache.Inv_initState 1) 0 0 7 1).1 (by decide))

end LevelDB
